import Mathlib

/-!
Verification of the causal-graph engine (run-length encoded causal graph for
operation-based CRDTs). The definitions below are a shallow embedding of the
TypeScript sources (`types.ts`, `utils.ts`, `rlelist.ts`, `causal-graph.ts`,
`tools.ts`, `serialization.ts`). Machine numbers are modelled as `Nat`
(all quantities in the source are non-negative integers and no arithmetic
overflows or goes below zero on the reachable states considered here);
fallible operations return `Option`.
-/

namespace CG

/-- Local version range `[start, end)` (`LVRange` in `types.ts`). -/
abbrev LVRange := Nat × Nat

/-- A run of changes: `CGEntry` from `types.ts`. -/
structure CGEntry where
  version : Nat
  vEnd : Nat
  agent : String
  seq : Nat
  parents : List Nat
deriving Repr, DecidableEq, Inhabited

/-- A per-agent run: `ClientEntry` from `types.ts`. -/
structure ClientEntry where
  seq : Nat
  seqEnd : Nat
  version : Nat
deriving Repr, DecidableEq, Inhabited

/-- The core data structure (`CausalGraph` in `types.ts`). The
`agentToVersion` JS object is modelled as an association list in key
insertion order. -/
structure CausalGraph where
  entries : List CGEntry
  heads : List Nat
  agentToVersion : List (String × List ClientEntry)
deriving Repr, DecidableEq, Inhabited

/-- `createCG` from `causal-graph.ts`. -/
def createCG : CausalGraph := { entries := [], heads := [], agentToVersion := [] }

/-! ### utils.ts -/

/-- `min2` from `utils.ts`. -/
def min2 (a b : Nat) : Nat := if a < b then a else b

/-- `max2` from `utils.ts`. -/
def max2 (a b : Nat) : Nat := if a > b then a else b

/-- `sortVersions` from `utils.ts`: sort ascending. -/
def sortVersions (v : List Nat) : List Nat := v.insertionSort (· ≤ ·)

/-- `advanceFrontier` from `utils.ts`. -/
def advanceFrontier (frontier : List Nat) (vLast : Nat) (parents : List Nat) : List Nat :=
  sortVersions ((frontier.filter (fun v => ¬ parents.contains v)) ++ [vLast])

/-! ### The `binary-search` npm package.

`bs(haystack, needle, comparator)` runs the classic loop with
`low = 0, high = n - 1`; `comparator < 0` moves `low` up, `> 0` moves
`high` down, `= 0` returns `mid`; on failure it returns `~low = -low-1`.
We carry `hi1 = high + 1` so the state stays in `Nat`, and the comparator
is already applied to the element at each index. -/

def bsearchFuel (cmp : Nat → Int) : Nat → Nat → Nat → Int
  | 0, lo, _ => -(lo : Int) - 1
  | fuel + 1, lo, hi1 =>
    if lo < hi1 then
      if cmp ((lo + hi1 - 1) / 2) < 0 then
        bsearchFuel cmp fuel ((lo + hi1 - 1) / 2 + 1) hi1
      else if 0 < cmp ((lo + hi1 - 1) / 2) then
        bsearchFuel cmp fuel lo ((lo + hi1 - 1) / 2)
      else ((lo + hi1 - 1) / 2 : Nat)
    else -(lo : Int) - 1

/-- The search loop with its (provably sufficient) fuel: the bracket width
`hi1 - lo` strictly decreases every iteration. Structural fuel keeps the
definition kernel-reducible. -/
def bsearchAux (cmp : Nat → Int) (lo hi1 : Nat) : Int :=
  bsearchFuel cmp (hi1 - lo + 1) lo hi1

/-- Binary search over a list: comparator gets the element. -/
def bsearch (l : List α) [Inhabited α] (cmp : α → Int) : Int :=
  bsearchAux (fun i => cmp (l.getD i default)) 0 l.length

/-! ### RLE helpers (`rlelist.ts` / old `rlelist` API used by `causal-graph.ts`).

The JS `tryAppend` functions mutate their first argument on success; here
each span kind gets a `canAppend` test and an `append` result, and
`pushRLEList` / `insertRLEList` are pure functions on lists. -/

/-- Merge test of `tryAppendEntries` (`causal-graph.ts`) / `cgEntryRLE.tryAppend`. -/
def canAppendEntries (a b : CGEntry) : Bool :=
  b.version = a.vEnd
    && a.agent = b.agent
    && a.seq + (a.vEnd - a.version) = b.seq
    && b.parents = [a.vEnd - 1]

/-- The merged entry when `canAppendEntries` holds (`a.vEnd = b.vEnd`). -/
def appendEntries (a b : CGEntry) : CGEntry := { a with vEnd := b.vEnd }

/-- Merge test of `tryAppendClientEntry` (`causal-graph.ts`) / `clientEntryRLE.tryAppend`. -/
def canAppendClientEntry (a b : ClientEntry) : Bool :=
  b.seq = a.seqEnd && b.version = a.version + (a.seqEnd - a.seq)

/-- The merged client entry when `canAppendClientEntry` holds. -/
def appendClientEntry (a b : ClientEntry) : ClientEntry := { a with seqEnd := b.seqEnd }

/-- `pushRLEList` (a.k.a. `rlePush`): append, merging with the tail when possible. -/
def pushRLEList (list : List α) (newItem : α)
    (canApp : α → α → Bool) (app : α → α → α) : List α :=
  match list.getLast? with
  | none => [newItem]
  | some last =>
    if canApp last newItem then list.dropLast ++ [app last newItem]
    else list ++ [newItem]

/-- `insertRLEList` (a.k.a. `rleInsert` from `rlelist.ts`) specialised the way
`add` uses it for client entries, with `keyStart = seq`.

When the new item does not belong at the end: binary search for the
insertion point, try appending to the left neighbour, then prepending to
the right neighbour, else splice. An in-range hit of the binary search is
the JS `Invalid state` throw; the graph is returned unchanged there
(the exception aborts before any mutation). -/
def insertClientRLEList (list : List ClientEntry) (newItem : ClientEntry) :
    List ClientEntry :=
  match list.getLast? with
  | none => [newItem]
  | some last =>
    if newItem.seq ≥ last.seq then
      pushRLEList list newItem canAppendClientEntry appendClientEntry
    else
      let r := bsearch list (fun e =>
        if newItem.seq < e.seq then 1 else if newItem.seq ≥ e.seqEnd then -1 else 0)
      if r ≥ 0 then list
      else
        let idx := (-r - 1).toNat
        if 0 < idx ∧ canAppendClientEntry (list.getD (idx - 1) default) newItem then
          list.set (idx - 1) (appendClientEntry (list.getD (idx - 1) default) newItem)
        else if idx < list.length - 1 ∧ canAppendClientEntry newItem (list.getD idx default) then
          list.set idx (appendClientEntry newItem (list.getD idx default))
        else
          list.take idx ++ newItem :: list.drop idx

/-- `cgEntryRLE.truncateKeepingLeft` from `types.ts`. -/
def cgEntryTruncateKeepingLeft (item : CGEntry) (offset : Nat) : CGEntry :=
  { item with vEnd := item.version + offset }

/-- `cgEntryRLE.truncateKeepingRight` from `types.ts` (`offset < 1` is the
`Invalid offset` throw). -/
def cgEntryTruncateKeepingRight (item : CGEntry) (offset : Nat) : Option CGEntry :=
  if offset < 1 then none
  else some { item with
    version := item.version + offset,
    seq := item.seq + offset,
    parents := [item.version + offset - 1] }

/-- `clientEntryRLE.truncateKeepingLeft` from `types.ts`. -/
def clientEntryTruncateKeepingLeft (item : ClientEntry) (offset : Nat) : ClientEntry :=
  { item with seqEnd := item.seq + offset }

/-- `clientEntryRLE.truncateKeepingRight` from `types.ts`. -/
def clientEntryTruncateKeepingRight (item : ClientEntry) (offset : Nat) : ClientEntry :=
  { item with seq := item.seq + offset, version := item.version + offset }

/-! ### causal-graph.ts : the store -/

/-- `nextLV` from `causal-graph.ts`. -/
def nextLV (cg : CausalGraph) : Nat :=
  match cg.entries.getLast? with
  | none => 0
  | some e => e.vEnd

/-- Association-list lookup for `cg.agentToVersion[agent]` (absent key reads
as no entry). -/
def agentEntries (cg : CausalGraph) (agent : String) : Option (List ClientEntry) :=
  (cg.agentToVersion.find? (fun p => p.1 = agent)).map Prod.snd

/-- `nextSeqForAgent` from `causal-graph.ts`. Note the JS reads
`entries[entries.length - 1].seqEnd`, which on an empty list is an error;
entry lists are never empty on reachable graphs. -/
def nextSeqForAgent (cg : CausalGraph) (agent : String) : Nat :=
  match agentEntries cg agent with
  | none => 0
  | some entries =>
    match entries.getLast? with
    | none => 0
    | some e => e.seqEnd

/-- `findClientEntryRaw` from `causal-graph.ts`: binary search the agent's
client entries for the one containing `seq`. -/
def findClientEntryRaw (cg : CausalGraph) (agent : String) (seq : Nat) :
    Option ClientEntry :=
  match agentEntries cg agent with
  | none => none
  | some av =>
    let r := bsearch av (fun e =>
      if seq < e.seq then 1 else if seq ≥ e.seqEnd then -1 else 0)
    if r < 0 then none else av.getD r.toNat default

/-- `findClientEntry` from `causal-graph.ts`. -/
def findClientEntry (cg : CausalGraph) (agent : String) (seq : Nat) :
    Option (ClientEntry × Nat) :=
  (findClientEntryRaw cg agent seq).map (fun ce => (ce, seq - ce.seq))

/-- `findClientEntryTrimmed` from `causal-graph.ts`. -/
def findClientEntryTrimmed (cg : CausalGraph) (agent : String) (seq : Nat) :
    Option ClientEntry :=
  match findClientEntry cg agent seq with
  | none => none
  | some (ce, offset) =>
    if offset = 0 then some ce
    else some { seq := seq, seqEnd := ce.seqEnd, version := ce.version + offset }

/-- `hasVersion` from `causal-graph.ts`. -/
def hasVersion (cg : CausalGraph) (agent : String) (seq : Nat) : Bool :=
  (findClientEntryRaw cg agent seq).isSome

section SpanSearch

variable {α : Type} [Inhabited α] (ks ke : α → Nat)

/-- Spans in the list are sorted and pairwise disjoint (indexed form). -/
def SpansSorted (l : List α) : Prop :=
  ∀ i j, i < j → j < l.length → ke (l.getD i default) ≤ ks (l.getD j default)

/-- Every span in the list is non-empty (indexed form). -/
def SpansNonEmpty (l : List α) : Prop :=
  ∀ i, i < l.length → ks (l.getD i default) < ke (l.getD i default)

/-- The containment comparator used throughout the code. -/
def containCmp (needle : Nat) (e : α) : Int :=
  if needle < ks e then 1 else if needle ≥ ke e then -1 else 0

end SpanSearch

/-! ### `add` and the operations built on it -/

/-- The while-loop at the top of `add` (`causal-graph.ts` lines 146–160):
trim away the already-known cover of `seqStart`. Returns `none` when the
whole span is already known, otherwise the trimmed start and the possibly
replaced parents.

Each iteration strictly advances `seqStart` while it stays below `seqEnd`
(a found trimmed entry satisfies `seqStart < ce.seqEnd`), so the loop makes
at most `seqEnd - seqStart` steps; the fuel passed by `add` is provably
never exhausted (`addTrimLoopFuel_irrelevant` below). -/
def addTrimLoopFuel (cg : CausalGraph) (agent : String) :
    Nat → Nat → Nat → List Nat → Option (Nat × List Nat)
  | 0, _, _, _ => none
  | fuel + 1, seqStart, seqEnd, parents =>
    match findClientEntryTrimmed cg agent seqStart with
    | none => some (seqStart, parents)
    | some ce =>
      if ce.seqEnd ≥ seqEnd then none
      else addTrimLoopFuel cg agent fuel ce.seqEnd seqEnd
        [ce.version + (ce.seqEnd - ce.seq) - 1]

/-- The trim loop with its sufficient fuel. -/
def addTrimLoop (cg : CausalGraph) (agent : String) (seqStart seqEnd : Nat)
    (parents : List Nat) : Option (Nat × List Nat) :=
  addTrimLoopFuel cg agent (seqEnd - seqStart + 1) seqStart seqEnd parents

/-- Functional update of the `agentToVersion` object: get-or-create the
agent's list (`clientEntriesForAgent`) and insert the new client entry into
it (`insertRLEList` with `tryAppendClientEntry`). A fresh key is appended
in JS object insertion order. -/
def avUpdate (av : List (String × List ClientEntry)) (agent : String)
    (ce : ClientEntry) : List (String × List ClientEntry) :=
  match av.find? (fun p => p.1 = agent) with
  | none => av ++ [(agent, insertClientRLEList [] ce)]
  | some _ => av.map (fun p => if p.1 = agent then (p.1, insertClientRLEList p.2 ce) else p)

/-- `add` from `causal-graph.ts`. Returns the updated graph together with
the inserted `CGEntry` (`none` when the span was already fully known). -/
def add (cg : CausalGraph) (agent : String) (seqStart seqEnd : Nat)
    (parents : List Nat) : CausalGraph × Option CGEntry :=
  let version := nextLV cg
  match addTrimLoop cg agent seqStart seqEnd parents with
  | none => (cg, none)
  | some (s, ps) =>
    let vEnd := version + (seqEnd - s)
    let entry : CGEntry :=
      { version := version, vEnd := vEnd, agent := agent, seq := s, parents := ps }
    ({ entries := pushRLEList cg.entries entry canAppendEntries appendEntries,
       heads := advanceFrontier cg.heads (vEnd - 1) ps,
       agentToVersion := avUpdate cg.agentToVersion agent
         { seq := s, seqEnd := seqEnd, version := version } },
     some entry)

/-- `tryRawToLV` from `causal-graph.ts`. -/
def tryRawToLV (cg : CausalGraph) (agent : String) (seq : Nat) : Option Nat :=
  (findClientEntryTrimmed cg agent seq).map (·.version)

/-- `rawToLV` from `causal-graph.ts` (throws on unknown id: `none`). -/
def rawToLV (cg : CausalGraph) (agent : String) (seq : Nat) : Option Nat :=
  (findClientEntryTrimmed cg agent seq).map (·.version)

/-- `rawToLVList` from `causal-graph.ts`: resolve each public version,
failing (`none`) if any is unknown. -/
def rawToLVList (cg : CausalGraph) (parents : List (String × Nat)) : Option (List Nat) :=
  parents.mapM (fun p => rawToLV cg p.1 p.2)

/-- `addRawVersion` (a.k.a. `addPubVersion`) from `causal-graph.ts`. A
failed parent resolution is the JS throw, which happens before any
mutation, so the graph is returned unchanged with no inserted entry. -/
def addRawVersion (cg : CausalGraph) (id : String × Nat) (len : Nat)
    (rawParents : Option (List (String × Nat))) : CausalGraph × Option CGEntry :=
  match rawParents with
  | none => add cg id.1 id.2 (id.2 + len) cg.heads
  | some rp =>
    match rawToLVList cg rp with
    | none => (cg, none)
    | some ps => add cg id.1 id.2 (id.2 + len) ps

/-- One wire entry of the v2 delta format (`PartialSerializedCGEntry`). -/
structure PartialSerializedCGEntry where
  agent : String
  seq : Nat
  len : Nat
  parents : List (String × Nat)
deriving Repr, DecidableEq

/-- The entry loop of `mergePartialVersions`: apply `addPubVersion` for each
delta entry. A JS throw (unknown parent) aborts the remaining entries; the
`Bool` reports whether the loop completed. -/
def mergePartialLoop (cg : CausalGraph) : List PartialSerializedCGEntry → CausalGraph × Bool
  | [] => (cg, true)
  | e :: rest =>
    match rawToLVList cg e.parents with
    | none => (cg, false)
    | some ps => mergePartialLoop (add cg e.agent e.seq (e.seq + e.len) ps).1 rest

/-- `mergePartialVersions` from `serialization.ts`. The returned range is
`none` when the JS call would have thrown partway. -/
def mergePartialVersions (cg : CausalGraph) (data : List PartialSerializedCGEntry) :
    CausalGraph × Option LVRange :=
  let start := nextLV cg
  let res := mergePartialLoop cg data
  (res.1, if res.2 then some (start, nextLV res.1) else none)

/-! ### The §3 data-model invariants.

The components below formalise the invariants of spec §3 (equivalently,
what `checkCG` in the test suite asserts), in an executable (decidable)
form. The frontier invariant is stated operationally as
`heads = entriesFoldHeads entries` (exactly what `checkCG` recomputes);
its equivalence with "heads is the dominator set of all LVs, sorted
ascending without duplicates" is proved below
(`WF_heads_dominators`). -/

/-- Invariants 1, 2 and 6 of §3: entries are dense starting at `v`,
non-empty, and all parents precede their entry. -/
def entriesChainedFrom (v : Nat) : List CGEntry → Bool
  | [] => true
  | e :: rest =>
    decide (e.version = v) && decide (e.version < e.vEnd) &&
      e.parents.all (fun p => decide (p < e.version)) &&
      entriesChainedFrom e.vEnd rest

/-- A client-entry list is ordered by seq, with non-empty, non-overlapping
runs (`assert(ce.seq >= nextSeq)` in `checkCG`). -/
def clientListOrdered : List ClientEntry → Bool
  | [] => true
  | [e] => decide (e.seq < e.seqEnd)
  | a :: b :: rest =>
    decide (a.seq < a.seqEnd) && decide (a.seqEnd ≤ b.seq) &&
      clientListOrdered (b :: rest)

/-- Invariant 5 for the entries index: no two adjacent runs can be merged. -/
def maxMergedEntries : List CGEntry → Bool
  | a :: b :: rest => !canAppendEntries a b && maxMergedEntries (b :: rest)
  | _ => true

/-- Invariant 5 for a client-entry list. -/
def maxMergedClients : List ClientEntry → Bool
  | a :: b :: rest => !canAppendClientEntry a b && maxMergedClients (b :: rest)
  | _ => true

/-- Reference (scan-based) lookup of the client entry containing `s`. -/
def clientLookup (av : List ClientEntry) (s : Nat) : Option ClientEntry :=
  av.find? (fun ce => ce.seq ≤ s && s < ce.seqEnd)

/-- Reference (scan-based) lookup of the CG entry containing `v`. -/
def entryLookup (l : List CGEntry) (v : Nat) : Option CGEntry :=
  l.find? (fun e => e.version ≤ v && v < e.vEnd)

/-- The client-entry list of an agent, reading a missing key as `[]`. -/
def avListOf (cg : CausalGraph) (agent : String) : List ClientEntry :=
  ((cg.agentToVersion.find? (fun p => p.1 = agent)).map Prod.snd).getD []

/-- Invariant 3, direction entries → agent index: every `(agent, seq+i)` of
every entry is covered by a client entry mapping it to the same LV. -/
def agreeEntriesToClients (cg : CausalGraph) : Bool :=
  cg.entries.all fun e =>
    (List.range (e.vEnd - e.version)).all fun i =>
      match clientLookup (avListOf cg e.agent) (e.seq + i) with
      | none => false
      | some ce => decide (ce.version + (e.seq + i - ce.seq) = e.version + i)

/-- Invariant 3, direction agent index → entries: every client-entry
position is covered by a CG entry with the same agent and seq. -/
def agreeClientsToEntries (cg : CausalGraph) : Bool :=
  cg.agentToVersion.all fun p =>
    p.2.all fun ce =>
      (List.range (ce.seqEnd - ce.seq)).all fun j =>
        match entryLookup cg.entries (ce.version + j) with
        | none => false
        | some e =>
          decide (e.agent = p.1) &&
            decide (e.seq + (ce.version + j - e.version) = ce.seq + j)

/-- The frontier recomputed by folding `advanceFrontier` over the entries
(`actualHeads` in `checkCG`). -/
def entriesFoldHeads (l : List CGEntry) : List Nat :=
  l.foldl (fun acc e => advanceFrontier acc (e.vEnd - 1) e.parents) []

/-- All §3 invariants, in decidable form. -/
def WF (cg : CausalGraph) : Prop :=
  entriesChainedFrom 0 cg.entries = true ∧
  maxMergedEntries cg.entries = true ∧
  (∀ p ∈ cg.agentToVersion,
    clientListOrdered p.2 = true ∧ p.2 ≠ [] ∧ maxMergedClients p.2 = true) ∧
  (cg.agentToVersion.map Prod.fst).Nodup ∧
  agreeEntriesToClients cg = true ∧
  agreeClientsToEntries cg = true ∧
  cg.heads = entriesFoldHeads cg.entries

instance (cg : CausalGraph) : Decidable (WF cg) := by
  unfold WF
  infer_instance

/-! ### Causal reachability (the mathematical side used in claims).

`lvParents` are the parents of a single LV: the entry's stored parents at
the start of a run, the preceding LV inside a run (cf.
`lvToRawWithParents` in `causal-graph.ts`). `Reaches` is its reflexive
transitive closure: `Reaches cg w v` says `v` is on a parent path from
`w`, i.e. `w` causally knows `v`. -/

def lvParents (cg : CausalGraph) (v : Nat) : List Nat :=
  match entryLookup cg.entries v with
  | none => []
  | some e => if v = e.version then e.parents else [v - 1]

/-- One parent step: `p` is a direct parent of `w`. -/
def StepsTo (cg : CausalGraph) (w p : Nat) : Prop := p ∈ lvParents cg w

/-- `v` is causally reachable from `w` (reflexively). -/
def Reaches (cg : CausalGraph) (w v : Nat) : Prop :=
  Relation.ReflTransGen (StepsTo cg) w v

/-! ### tools.ts : priority-queue graph algorithms

The JS `PriorityQueue` (binary max-heap of numbers; `deq` pops the largest)
is modelled as a list kept sorted in descending order: `enq` is an ordered
insert, `deq`/`peek` read the head. Loops whose termination rests on the
strictly decreasing queue maximum get a fuel parameter; the callers pass
fuel that is provably sufficient, and an exhausted fuel (like an internal
JS exception) yields `none`. -/

/-- `rawFindEntryContaining` from `causal-graph.ts` (throws on an unknown
LV: `none`). -/
def rawFindEntryContaining (cg : CausalGraph) (v : Nat) : Option CGEntry :=
  let r := bsearch cg.entries (fun e =>
    if v < e.version then 1 else if v ≥ e.vEnd then -1 else 0)
  if r < 0 then none else some (cg.entries.getD r.toNat default)

/-- `findEntryContaining` from `causal-graph.ts`. -/
def findEntryContaining (cg : CausalGraph) (v : Nat) : Option (CGEntry × Nat) :=
  (rawFindEntryContaining cg v).map (fun e => (e, v - e.version))

/-- `lvToRaw` from `causal-graph.ts`. -/
def lvToRaw (cg : CausalGraph) (v : Nat) : Option (String × Nat) :=
  (findEntryContaining cg v).map (fun p => (p.1.agent, p.1.seq + p.2))

/-- `lvToRawList` from `causal-graph.ts` (on an explicit list). -/
def lvToRawList (cg : CausalGraph) (vs : List Nat) : Option (List (String × Nat)) :=
  vs.mapM (lvToRaw cg)

/-- Descending-order queue insert (`queue.enq`). -/
def pqEnq (q : List Nat) (v : Nat) : List Nat := q.orderedInsert (· ≥ ·) v

/-- The main loop of `versionContainsLV` (`tools.ts`). The queue holds LVs
strictly greater than `target`, sorted descending. -/
def containsLoop (cg : CausalGraph) (target : Nat) : Nat → List Nat → Option Bool
  | _, [] => some false
  | 0, _ :: _ => none
  | fuel + 1, v :: queue =>
    if v = target then some true
    else
      match rawFindEntryContaining cg v with
      | none => none
      | some e =>
        if e.version ≤ target then some true
        else
          let queue2 := queue.dropWhile (fun w => w ≥ e.version)
          if e.parents.contains target then some true
          else containsLoop cg target fuel
            (e.parents.foldl (fun q p => if p > target then pqEnq q p else q) queue2)

/-- `versionContainsLV` from `tools.ts` (exported as `containsLV`). -/
def versionContainsLV (cg : CausalGraph) (frontier : List Nat) (target : Nat) :
    Option Bool :=
  if frontier.contains target then some true
  else containsLoop cg target (nextLV cg + 1)
    (frontier.foldl (fun q v => if v > target then pqEnq q v else q) [])

/-- `compareVersions` from `tools.ts`; equal arguments are the JS
`InvalidArgument` throw (`none`). -/
def compareVersions (cg : CausalGraph) (a b : Nat) : Option Int :=
  if a > b then (versionContainsLV cg [a] b).map (fun c => if c then -1 else 0)
  else if a < b then (versionContainsLV cg [b] a).map (fun c => if c then 1 else 0)
  else none

/-- The main loop of `findDominators2` (`tools.ts`). Queue values are
encoded as `2*v` (input) / `2*v + 1` (parent found by traversal); the
accumulator records the `(version, isDominator)` callback events in
emission order. -/
def dominatorsLoop (cg : CausalGraph) :
    Nat → List Nat → Nat → List (Nat × Bool) → Option (List (Nat × Bool))
  | _, [], _, acc => some acc
  | _, _ :: _, 0, acc => some acc
  | 0, _ :: _, _ + 1, _ => none
  | fuel + 1, vEnc :: rest, rem + 1, acc =>
    let isInput := vEnc % 2 = 0
    let v := vEnc / 2
    let acc1 := if isInput then acc ++ [(v, true)] else acc
    let rem1 := if isInput then rem else rem + 1
    match rawFindEntryContaining cg v with
    | none => none
    | some e =>
      let drained := rest.takeWhile (fun w => w ≥ e.version * 2)
      let rest2 := rest.dropWhile (fun w => w ≥ e.version * 2)
      let drainedInputs := drained.filter (fun w => w % 2 = 0)
      let acc2 := acc1 ++ drainedInputs.map (fun w => (w / 2, false))
      let rem2 := rem1 - drainedInputs.length
      dominatorsLoop cg fuel
        (e.parents.foldl (fun q p => pqEnq q (p * 2 + 1)) rest2) rem2 acc2

/-- `findDominators2` from `tools.ts`: emits each input exactly once as
`(v, isDominator)`, largest first (here as the returned event list). -/
def findDominators2 (cg : CausalGraph) (versions : List Nat) :
    Option (List (Nat × Bool)) :=
  match versions with
  | [] => some []
  | [v] => some [(v, true)]
  | [v0, v1] =>
    if v0 = v1 then some [(v0, true), (v0, false)]
    else
      let a := if v0 > v1 then v1 else v0
      let b := if v0 > v1 then v0 else v1
      (versionContainsLV cg [b] a).map (fun c => [(b, true), (a, !c)])
  | v0 :: v1 :: v2 :: rest =>
    dominatorsLoop cg (2 * nextLV cg + 2)
      ((v0 :: v1 :: v2 :: rest).foldl (fun q v => pqEnq q (v * 2)) [])
      (v0 :: v1 :: v2 :: rest).length []

/-- `findDominators` from `tools.ts`. -/
def findDominators (cg : CausalGraph) (versions : List Nat) : Option (List Nat) :=
  if versions.length ≤ 1 then some versions
  else (findDominators2 cg versions).map
    (fun evs => ((evs.filter (·.2)).map (·.1)).reverse)

/-! #### diff -/

/-- The tri-state labels of `diff` (`DiffFlag` in `tools.ts`). -/
inductive DiffFlag
  | A
  | B
  | Shared
deriving DecidableEq, Repr, Inhabited

/-- The queue/label state of `diff`. The JS `Map<number, DiffFlag>` is
modelled as a lookup function (the code never iterates the map). -/
structure DiffState where
  queue : List Nat
  flags : Nat → Option DiffFlag
  numShared : Nat

/-- `enq` from `diff` (`tools.ts`). -/
def diffEnq (st : DiffState) (v : Nat) (flag : DiffFlag) : DiffState :=
  match st.flags v with
  | none =>
    { queue := pqEnq st.queue v,
      flags := fun x => if x = v then some flag else st.flags x,
      numShared := if flag = DiffFlag.Shared then st.numShared + 1 else st.numShared }
  | some currentType =>
    if flag ≠ currentType ∧ currentType ≠ DiffFlag.Shared then
      { st with
        flags := fun x => if x = v then some DiffFlag.Shared else st.flags x,
        numShared := st.numShared + 1 }
    else st

/-- Reversed-RLE push used by `markRun` (`pushReversedRLE` with
`revRangeRLE.tryAppend`). -/
def rlePushRev (list : List LVRange) (r : LVRange) : List LVRange :=
  match list.getLast? with
  | none => [r]
  | some last =>
    if last.1 = r.2 then list.dropLast ++ [(r.1, last.2)] else list ++ [r]

/-- `markRun` from `diff` (`tools.ts`). `none` is the `end < start` throw. -/
def markRun (start endInclusive : Nat) (flag : DiffFlag)
    (aOnly bOnly : List LVRange) : Option (List LVRange × List LVRange) :=
  if endInclusive < start then none
  else
    match flag with
    | DiffFlag.Shared => some (aOnly, bOnly)
    | DiffFlag.A => some (rlePushRev aOnly (start, endInclusive + 1), bOnly)
    | DiffFlag.B => some (aOnly, rlePushRev bOnly (start, endInclusive + 1))

/-- The inner while-loop of `diff`: consume queued items lying in the same
entry as the popped `v`. Returns the remaining queue, updated `numShared`,
the final `v` and flag, and the updated output lists. -/
def diffDrain (e : CGEntry) (flags : Nat → Option DiffFlag) :
    List Nat → Nat → Nat → DiffFlag → List LVRange → List LVRange →
    Option (List Nat × Nat × Nat × DiffFlag × List LVRange × List LVRange)
  | [], numShared, v, flag, aOnly, bOnly => some ([], numShared, v, flag, aOnly, bOnly)
  | v2 :: rest, numShared, v, flag, aOnly, bOnly =>
    if v2 ≥ e.version then
      match flags v2 with
      | none => none
      | some flag2 =>
        let ns := if flag2 = DiffFlag.Shared then numShared - 1 else numShared
        if flag2 ≠ flag then
          match markRun (v2 + 1) v flag aOnly bOnly with
          | none => none
          | some (aOnly2, bOnly2) =>
            diffDrain e flags rest ns v2 DiffFlag.Shared aOnly2 bOnly2
        else
          diffDrain e flags rest ns v flag aOnly bOnly
    else
      some (v2 :: rest, numShared, v, flag, aOnly, bOnly)

/-- The outer loop of `diff`. -/
def diffLoop (cg : CausalGraph) :
    Nat → DiffState → List LVRange → List LVRange →
    Option (List LVRange × List LVRange)
  | 0, st, aOnly, bOnly =>
    if st.queue.length ≤ st.numShared then some (aOnly, bOnly) else none
  | fuel + 1, st, aOnly, bOnly =>
    if st.queue.length ≤ st.numShared then some (aOnly, bOnly)
    else
      match st.queue with
      | [] => some (aOnly, bOnly)
      | v :: rest =>
        match st.flags v with
        | none => none
        | some flag =>
          let ns := if flag = DiffFlag.Shared then st.numShared - 1 else st.numShared
          match rawFindEntryContaining cg v with
          | none => none
          | some e =>
            match diffDrain e st.flags rest ns v flag aOnly bOnly with
            | none => none
            | some (queue2, ns2, v2, flag2, aOnly2, bOnly2) =>
              match markRun e.version v2 flag2 aOnly2 bOnly2 with
              | none => none
              | some (aOnly3, bOnly3) =>
                diffLoop cg fuel
                  (e.parents.foldl (fun s p => diffEnq s p flag2)
                    { queue := queue2, flags := st.flags, numShared := ns2 })
                  aOnly3 bOnly3

/-- `diff` from `tools.ts`. Returns `(aOnly, bOnly)` in ascending order. -/
def diff (cg : CausalGraph) (a b : List Nat) : Option (List LVRange × List LVRange) :=
  let st0 : DiffState := { queue := [], flags := fun _ => none, numShared := 0 }
  let st1 := a.foldl (fun s v => diffEnq s v DiffFlag.A) st0
  let st2 := b.foldl (fun s v => diffEnq s v DiffFlag.B) st1
  (diffLoop cg (nextLV cg + 1) st2 [] []).map (fun p => (p.1.reverse, p.2.reverse))

/-! ### serialization.ts : snapshot round-trip -/

/-- One snapshot wire entry (`SerializedCGEntryV3` in `serialization.ts`). -/
structure SerializedCGEntryV3 where
  agent : String
  seq : Nat
  len : Nat
  parents : List Nat
deriving Repr, DecidableEq

/-- `serialize` from `serialization.ts`. -/
def serialize (cg : CausalGraph) : List SerializedCGEntryV3 :=
  cg.entries.map (fun e =>
    { agent := e.agent, seq := e.seq, len := e.vEnd - e.version, parents := e.parents })

/-- `fromSerialized` from `serialization.ts`: rebuild entries (reassigning
the same LVs in order), the agent index (via `rleInsert`) and the frontier
(via `advanceFrontier`). -/
def fromSerialized (data : List SerializedCGEntryV3) : CausalGraph :=
  (data.foldl
    (fun (st : CausalGraph × Nat) e =>
      let v := st.2
      ({ entries := st.1.entries ++
           [{ version := v, vEnd := v + e.len, agent := e.agent, seq := e.seq,
              parents := e.parents }],
         heads := advanceFrontier st.1.heads (v + e.len - 1) e.parents,
         agentToVersion := avUpdate st.1.agentToVersion e.agent
           { seq := e.seq, seqEnd := e.seq + e.len, version := v } },
       v + e.len))
    (createCG, 0)).1


/-! ### `intersectWithSummary` (`causal-graph.ts`) -/

/-- A `VersionSummary` (`{[agent]: [[seq, seqEnd], ...]}`), as an
association list in key order. -/
abbrev VersionSummary := List (String × List (Nat × Nat))

/-- The entry walk of `eachVersionBetween` after the initial binary
search positioned on the suffix: visit `(entry, max(vStart, version),
min(vEnd, entry.vEnd))` until `entry.version ≥ vEnd`. -/
def eachVersionBetweenList : List CGEntry → Nat → Nat → List (CGEntry × Nat × Nat)
  | [], _, _ => []
  | e :: rest, vStart, vEnd =>
    if e.version ≥ vEnd then []
    else (e, max2 vStart e.version, min2 vEnd e.vEnd) ::
      eachVersionBetweenList rest vStart vEnd

/-- `eachVersionBetween` from `causal-graph.ts` (`none` is the
`Invalid or missing version` throw). -/
def eachVersionBetween (cg : CausalGraph) (vStart vEnd : Nat) :
    Option (List (CGEntry × Nat × Nat)) :=
  let r := bsearch cg.entries (fun e =>
    if vStart < e.version then 1 else if vStart ≥ e.vEnd then -1 else 0)
  if r < 0 then none
  else some (eachVersionBetweenList (cg.entries.drop r.toNat) vStart vEnd)

/-- The client-entry scan of one summary range inside
`intersectWithSummaryFull`: emitted visit events are
`(agent, startSeq, endSeq, version?)`, `none` standing for the JS `-1`. -/
def intersectScan (agent : String) : List ClientEntry → Nat → Nat →
    List (String × Nat × Nat × Option Nat)
  | [], startSeq, endSeq =>
    if startSeq < endSeq then [(agent, startSeq, endSeq, none)] else []
  | ce :: rest, startSeq, endSeq =>
    if ce.seq ≥ endSeq then
      if startSeq < endSeq then [(agent, startSeq, endSeq, none)] else []
    else
      let gap : List (String × Nat × Nat × Option Nat) :=
        if ce.seq > startSeq then [(agent, startSeq, ce.seq, none)] else []
      let startSeq1 := if ce.seq > startSeq then ce.seq else startSeq
      let localSeqEnd := min2 ce.seqEnd endSeq
      gap ++ (agent, startSeq1, localSeqEnd, some (ce.version + (startSeq1 - ce.seq))) ::
        intersectScan agent rest localSeqEnd endSeq

/-- One summary range of one agent: position by binary search (falling to
the insertion point when absent), then scan. -/
def intersectRange (cg : CausalGraph) (agent : String) (startSeq endSeq : Nat) :
    List (String × Nat × Nat × Option Nat) :=
  match agentEntries cg agent with
  | none => if startSeq < endSeq then [(agent, startSeq, endSeq, none)] else []
  | some clientEntries =>
    let r := bsearch clientEntries (fun e =>
      if startSeq < e.seq then 1 else if startSeq ≥ e.seqEnd then -1 else 0)
    let idx := if r < 0 then (-r - 1).toNat else r.toNat
    intersectScan agent (clientEntries.drop idx) startSeq endSeq

/-- `intersectWithSummaryFull` from `causal-graph.ts`, as the list of visit
events in emission order. -/
def intersectWithSummaryFull (cg : CausalGraph) (summary : VersionSummary) :
    List (String × Nat × Nat × Option Nat) :=
  summary.flatMap fun p => p.2.flatMap fun r => intersectRange cg p.1 r.1 r.2

/-- The `versions.push(vLast)` collection for one locally-known sub-range:
every CG entry fragment under `[versionStart, versionEnd)` contributes its
last LV (`none` is the `Invalid state`/missing-version throw). -/
def collectVersions (cg : CausalGraph) (versionStart versionEnd : Nat) :
    Option (List Nat) :=
  (eachVersionBetween cg versionStart versionEnd).bind fun l =>
    l.mapM fun t => if t.2.2 - 1 < t.1.version then none else some (t.2.2 - 1)

/-- `remainder[agent].push([startSeq, endSeq])` with the lazy `??=`
initialisation of the JS. -/
def remAppend (rem : Option VersionSummary) (agent : String) (r : Nat × Nat) :
    VersionSummary :=
  match rem with
  | none => [(agent, [r])]
  | some l =>
    if (l.find? (fun p => p.1 = agent)).isSome then
      l.map fun p => if p.1 = agent then (p.1, p.2 ++ [r]) else p
    else l ++ [(agent, [r])]

/-- Folding the visit events of `intersectWithSummary`: locally-known
sub-ranges collect entry-fragment last LVs, unknown sub-ranges accumulate
the remainder summary. -/
def intersectAccum (cg : CausalGraph) :
    List (String × Nat × Nat × Option Nat) → List Nat → Option VersionSummary →
    Option (List Nat × Option VersionSummary)
  | [], versions, rem => some (versions, rem)
  | (agent, s, e, vOpt) :: rest, versions, rem =>
    match vOpt with
    | some versionStart =>
      match collectVersions cg versionStart (versionStart + (e - s)) with
      | none => none
      | some vs => intersectAccum cg rest (versions ++ vs) rem
    | none => intersectAccum cg rest versions (some (remAppend rem agent (s, e)))

/-- `intersectWithSummary` from `causal-graph.ts` (with its default
`versionsIn = []`): the common-version dominators and the remote-only
remainder. -/
def intersectWithSummary (cg : CausalGraph) (summary : VersionSummary)
    (versionsIn : List Nat) : Option (List Nat × Option VersionSummary) :=
  (intersectAccum cg (intersectWithSummaryFull cg summary) versionsIn none).bind
    fun p => (findDominators cg p.1).map fun d => (d, p.2)

/-! ### The operation alphabet of C1 and its validity side conditions -/

/-- The mutating operations considered by the invariant claim. -/
inductive CGOp
  | opAdd (agent : String) (seqStart seqEnd : Nat) (parents : List Nat)
  | opAddRaw (id : String × Nat) (len : Nat) (rawParents : Option (List (String × Nat)))
  | opMergePartial (data : List PartialSerializedCGEntry)

def applyOp (cg : CausalGraph) : CGOp → CausalGraph
  | .opAdd agent s e parents => (add cg agent s e parents).1
  | .opAddRaw id len rp => (addRawVersion cg id len rp).1
  | .opMergePartial data => (mergePartialVersions cg data).1

def applyOps (cg : CausalGraph) (ops : List CGOp) : CausalGraph :=
  ops.foldl applyOp cg

/-- The already-known seqs of the span form a prefix: no hole of the agent
is straddled (`add` cannot handle a span that is part known, part unknown,
part known again — see the C1 counterexample). -/
def addSpanOK (cg : CausalGraph) (agent : String) (seqStart seqEnd : Nat) : Bool :=
  (List.range (seqEnd - seqStart)).all fun k =>
    !(hasVersion cg agent (seqStart + k)) ||
      (List.range k).all fun k2 => hasVersion cg agent (seqStart + k2)

/-- Validity of the sub-adds of a `mergePartialVersions` call, stepping the
graph; entries after a failing parent resolution are never applied. -/
def validMergeData (cg : CausalGraph) : List PartialSerializedCGEntry → Bool
  | [] => true
  | e :: rest =>
    match rawToLVList cg e.parents with
    | none => true
    | some ps =>
      decide (1 ≤ e.len) && addSpanOK cg e.agent e.seq (e.seq + e.len) &&
        validMergeData (add cg e.agent e.seq (e.seq + e.len) ps).1 rest

/-- An operation call with well-formed arguments: spans are non-empty and
do not straddle holes, and explicit LV parents exist. -/
def validOp (cg : CausalGraph) : CGOp → Bool
  | .opAdd agent s e parents =>
    decide (s < e) && parents.all (fun p => decide (p < nextLV cg)) &&
      addSpanOK cg agent s e
  | .opAddRaw id len _ => decide (1 ≤ len) && addSpanOK cg id.1 id.2 (id.2 + len)
  | .opMergePartial data => validMergeData cg data

def validOps (cg : CausalGraph) : List CGOp → Bool
  | [] => true
  | op :: rest => validOp cg op && validOps (applyOp cg op) rest

/-- `v` belongs to the dominator set of all LVs of `cg`: it is a known LV
and no other known LV reaches it. -/
def IsDominatorLV (cg : CausalGraph) (v : Nat) : Prop :=
  v < nextLV cg ∧ ∀ w, w < nextLV cg → w ≠ v → ¬ Reaches cg w v

/-- The LV bound of a chained entry list (`v0` when empty, the last
`vEnd` otherwise); `nextLV cg = entriesEndFrom 0 cg.entries`. -/
def entriesEndFrom (v0 : Nat) (l : List CGEntry) : Nat :=
  match l.getLast? with
  | none => v0
  | some e => e.vEnd

/-- The seq↦LV mapping denoted by a client-entry list: some run covers
`q` and maps it to `v`. -/
def clientMapsTo (l : List ClientEntry) (q v : Nat) : Prop :=
  ∃ ce ∈ l, ce.seq ≤ q ∧ q < ce.seqEnd ∧ ce.version + (q - ce.seq) = v

/-- The LV↦(agent, seq) mapping denoted by an entry list. -/
def entryMapsTo (l : List CGEntry) (v : Nat) (agent : String) (q : Nat) : Prop :=
  ∃ e ∈ l, e.version ≤ v ∧ v < e.vEnd ∧ e.agent = agent ∧ e.seq + (v - e.version) = q

/-- `avListOf` on a bare association list. -/
def avGet (av : List (String × List ClientEntry)) (agent : String) : List ClientEntry :=
  ((av.find? (fun p => p.1 = agent)).map Prod.snd).getD []

/-! ## Theorems -/

/-! ### Basic facts about the binary search -/

theorem bsearchFuel_eq_ofNat {cmp : Nat → Int} :
    ∀ fuel lo hi1 (i : Nat), bsearchFuel cmp fuel lo hi1 = (i : Int) →
      lo ≤ i ∧ i < hi1 ∧ cmp i = 0 := by
  intro fuel
  induction fuel with
  | zero => intro lo hi1 i h; rw [bsearchFuel] at h; exfalso; omega
  | succ n ih =>
    intro lo hi1 i h
    rw [bsearchFuel] at h
    by_cases hlo : lo < hi1
    · rw [if_pos hlo] at h
      by_cases h1 : cmp ((lo + hi1 - 1) / 2) < 0
      · rw [if_pos h1] at h
        have := ih _ _ i h
        exact ⟨by omega, this.2.1, this.2.2⟩
      · rw [if_neg h1] at h
        by_cases h2 : 0 < cmp ((lo + hi1 - 1) / 2)
        · rw [if_pos h2] at h
          have := ih _ _ i h
          exact ⟨this.1, by omega, this.2.2⟩
        · rw [if_neg h2] at h
          have hmid : (lo + hi1 - 1) / 2 = i := by omega
          exact ⟨by omega, by omega, by rw [← hmid]; omega⟩
    · rw [if_neg hlo] at h; exfalso; omega

/-- A successful binary search returns an in-range index whose comparator
value is zero. (No sortedness assumption is needed for this direction.) -/
theorem bsearchAux_eq_ofNat {cmp : Nat → Int} (n : Nat) :
    ∀ lo hi1, hi1 - lo ≤ n → ∀ i : Nat, bsearchAux cmp lo hi1 = (i : Int) →
      lo ≤ i ∧ i < hi1 ∧ cmp i = 0 := by
  intro lo hi1 _ i h
  exact bsearchFuel_eq_ofNat _ lo hi1 i h

theorem bsearch_eq_ofNat {l : List α} [Inhabited α] {cmp : α → Int} {i : Nat}
    (h : bsearch l cmp = (i : Int)) : i < l.length ∧ cmp (l.getD i default) = 0 := by
  have := @bsearchAux_eq_ofNat (fun j => cmp (l.getD j default)) l.length 0 l.length
    (by omega) i h
  exact ⟨this.2.1, this.2.2⟩

theorem bsearchFuel_eq_neg {cmp : Nat → Int} {N : Nat}
    (hm1 : ∀ i j, i ≤ j → j < N → cmp j < 0 → cmp i < 0)
    (hm2 : ∀ i j, i ≤ j → j < N → 0 < cmp i → 0 < cmp j) :
    ∀ fuel lo hi1, hi1 ≤ N → hi1 - lo < fuel → ∀ k : Nat,
      bsearchFuel cmp fuel lo hi1 = -(k : Int) - 1 →
      lo ≤ k ∧ k ≤ max lo hi1 ∧ (∀ i, lo ≤ i → i < k → cmp i < 0) ∧
        (∀ i, k ≤ i → i < hi1 → 0 < cmp i) := by
  intro fuel
  induction fuel with
  | zero => intro lo hi1 hN hle k h; omega
  | succ n ih =>
    intro lo hi1 hN hle k h
    rw [bsearchFuel] at h
    by_cases hlo : lo < hi1
    · rw [if_pos hlo] at h
      by_cases h1 : cmp ((lo + hi1 - 1) / 2) < 0
      · rw [if_pos h1] at h
        obtain ⟨ha, hb, hc, hd⟩ := ih ((lo + hi1 - 1) / 2 + 1) hi1 hN (by omega) k h
        refine ⟨by omega, by omega, fun i hia hib => ?_, hd⟩
        by_cases hmid : i ≤ (lo + hi1 - 1) / 2
        · exact hm1 i _ hmid (by omega) h1
        · exact hc i (by omega) hib
      · rw [if_neg h1] at h
        by_cases h2 : 0 < cmp ((lo + hi1 - 1) / 2)
        · rw [if_pos h2] at h
          obtain ⟨ha, hb, hc, hd⟩ := ih lo ((lo + hi1 - 1) / 2) (by omega) (by omega) k h
          refine ⟨ha, by omega, hc, fun i hia hib => ?_⟩
          by_cases hmid : i < (lo + hi1 - 1) / 2
          · exact hd i hia hmid
          · exact hm2 _ i (by omega) (by omega) h2
        · exfalso; omega
    · rw [if_neg hlo] at h
      have hk : k = lo := by omega
      subst hk
      exact ⟨le_refl _, by omega, fun i ha hb => by omega, fun i ha hb => by omega⟩

/-- An unsuccessful binary search brackets the needle: all comparator
values left of the insertion point are negative and all values from it on
are positive. Monotonicity of the comparator is assumed on `[0, N)`. -/
theorem bsearchAux_eq_neg {cmp : Nat → Int} {N : Nat}
    (hm1 : ∀ i j, i ≤ j → j < N → cmp j < 0 → cmp i < 0)
    (hm2 : ∀ i j, i ≤ j → j < N → 0 < cmp i → 0 < cmp j)
    (n : Nat) :
    ∀ lo hi1, hi1 ≤ N → hi1 - lo ≤ n → ∀ k : Nat,
      bsearchAux cmp lo hi1 = -(k : Int) - 1 →
      lo ≤ k ∧ k ≤ max lo hi1 ∧ (∀ i, lo ≤ i → i < k → cmp i < 0) ∧
        (∀ i, k ≤ i → i < hi1 → 0 < cmp i) := by
  intro lo hi1 hN _ k h
  exact bsearchFuel_eq_neg hm1 hm2 (hi1 - lo + 1) lo hi1 hN (by omega) k h

section SpanSearch

variable {α : Type} [Inhabited α] (ks ke : α → Nat)

omit [Inhabited α] in
theorem containCmp_eq_zero {needle : Nat} {e : α} :
    containCmp ks ke needle e = 0 ↔ ks e ≤ needle ∧ needle < ke e := by
  unfold containCmp
  split_ifs <;> constructor <;> intro h <;> first | exact h.elim | omega

omit [Inhabited α] in
theorem containCmp_lt_zero {needle : Nat} {e : α} :
    containCmp ks ke needle e < 0 ↔ ks e ≤ needle ∧ ke e ≤ needle := by
  unfold containCmp
  split_ifs <;> constructor <;> intro h <;> first | exact h.elim | omega

omit [Inhabited α] in
theorem containCmp_pos {needle : Nat} {e : α} :
    0 < containCmp ks ke needle e ↔ needle < ks e := by
  unfold containCmp
  split_ifs <;> constructor <;> intro h <;> first | exact h.elim | omega

/-- On a sorted list of disjoint non-empty spans the containment comparator
is monotone. -/
theorem containCmp_mono_neg {l : List α} (hs : SpansSorted ks ke l)
    (hne : SpansNonEmpty ks ke l) (needle : Nat) :
    ∀ i j, i ≤ j → j < l.length →
      containCmp ks ke needle (l.getD j default) < 0 →
      containCmp ks ke needle (l.getD i default) < 0 := by
  intro i j hij hj h
  rw [containCmp_lt_zero] at h
  rw [containCmp_lt_zero]
  rcases Nat.eq_or_lt_of_le hij with heq | hlt
  · subst heq; exact h
  · have h1 := hs i j hlt hj
    have h2 := hne i (by omega)
    omega

theorem containCmp_mono_pos {l : List α} (hs : SpansSorted ks ke l)
    (hne : SpansNonEmpty ks ke l) (needle : Nat) :
    ∀ i j, i ≤ j → j < l.length →
      0 < containCmp ks ke needle (l.getD i default) →
      0 < containCmp ks ke needle (l.getD j default) := by
  intro i j hij hj h
  rw [containCmp_pos] at h
  rw [containCmp_pos]
  rcases Nat.eq_or_lt_of_le hij with heq | hlt
  · subst heq; exact h
  · have h1 := hs i j hlt hj
    have h2 := hne i (by omega)
    omega

/-- On a sorted disjoint list, if some span contains the needle, binary
search returns its index. -/
theorem bsearch_found_of_contains {l : List α} (hs : SpansSorted ks ke l)
    (hne : SpansNonEmpty ks ke l) {needle : Nat} {i : Nat}
    (hi : i < l.length) (h1 : ks (l.getD i default) ≤ needle)
    (h2 : needle < ke (l.getD i default)) :
    bsearch l (containCmp ks ke needle) = (i : Int) := by
  rcases hr : bsearch l (containCmp ks ke needle) with r | r
  · -- found some index r; show r = i by disjointness
    obtain ⟨hrlen, hrz⟩ := bsearch_eq_ofNat hr
    rw [containCmp_eq_zero] at hrz
    congr 1
    by_contra hne'
    rcases Nat.lt_or_ge r i with hlt | hge
    · have := hs r i hlt hi
      omega
    · have hlt : i < r := by omega
      have := hs i r hlt hrlen
      omega
  · -- not found: contradiction with the bracketing
    exfalso
    have hneg : bsearch l (containCmp ks ke needle) = -(r : Int) - 1 := by
      rw [hr, Int.negSucc_eq]; ring
    obtain ⟨-, -, hleft, hright⟩ := @bsearchAux_eq_neg
      (fun j => containCmp ks ke needle (l.getD j default)) l.length
      (fun a b hab hb => containCmp_mono_neg ks ke hs hne needle a b hab hb)
      (fun a b hab hb => containCmp_mono_pos ks ke hs hne needle a b hab hb)
      l.length 0 l.length (le_refl _) (by omega) r hneg
    rcases Nat.lt_or_ge i r with hlt | hge
    · have := hleft i (by omega) hlt
      rw [containCmp_lt_zero] at this
      omega
    · have := hright i hge hi
      rw [containCmp_pos] at this
      omega

/-- On a sorted disjoint list, a negative binary-search result means no
span contains the needle; moreover the insertion point `k` brackets it. -/
theorem bsearch_neg_bracket {l : List α} (hs : SpansSorted ks ke l)
    (hne : SpansNonEmpty ks ke l) {needle : Nat} {k : Nat}
    (h : bsearch l (containCmp ks ke needle) = -(k : Int) - 1) :
    k ≤ l.length ∧ (∀ i, i < k → ke (l.getD i default) ≤ needle) ∧
      (∀ i, k ≤ i → i < l.length → needle < ks (l.getD i default)) := by
  obtain ⟨-, hb, hleft, hright⟩ := @bsearchAux_eq_neg
    (fun j => containCmp ks ke needle (l.getD j default)) l.length
    (fun a b hab hb => containCmp_mono_neg ks ke hs hne needle a b hab hb)
    (fun a b hab hb => containCmp_mono_pos ks ke hs hne needle a b hab hb)
    l.length 0 l.length (le_refl _) (by omega) k h
  refine ⟨by omega, fun i hik => ?_, fun i hki hilen => ?_⟩
  · have hi : i < l.length := by omega
    have := hleft i (by omega) hik
    rw [containCmp_lt_zero] at this
    omega
  · have := hright i hki hilen
    rw [containCmp_pos] at this
    omega

end SpanSearch

/-! #### C9: the RLE split/append round-trip law -/

/-- C9: for each span kind (CG entry and client entry), truncating a span
of length ≥ 2 at an interior point `1 ≤ i < len` with
`truncateKeepingLeft`/`truncateKeepingRight` and then `tryAppend`-ing the
right half onto the left half succeeds and reproduces the original span
exactly, all fields (parents included). -/
theorem C9_rle_split_roundtrip (e : CGEntry) (c : ClientEntry) (i j : Nat)
    (hi1 : 1 ≤ i) (hi2 : i < e.vEnd - e.version)
    (hj1 : 1 ≤ j) (hj2 : j < c.seqEnd - c.seq) :
    (∃ r, cgEntryTruncateKeepingRight e i = some r ∧
      canAppendEntries (cgEntryTruncateKeepingLeft e i) r = true ∧
      appendEntries (cgEntryTruncateKeepingLeft e i) r = e) ∧
    canAppendClientEntry (clientEntryTruncateKeepingLeft c j)
        (clientEntryTruncateKeepingRight c j) = true ∧
    appendClientEntry (clientEntryTruncateKeepingLeft c j)
        (clientEntryTruncateKeepingRight c j) = c := by
  refine ⟨⟨⟨e.version + i, e.vEnd, e.agent, e.seq + i, [e.version + i - 1]⟩,
    ?_, ?_, ?_⟩, ?_, ?_⟩
  · unfold cgEntryTruncateKeepingRight
    rw [if_neg (by omega)]
  · simp [canAppendEntries, cgEntryTruncateKeepingLeft]
  · unfold appendEntries cgEntryTruncateKeepingLeft
    rfl
  · simp [canAppendClientEntry, clientEntryTruncateKeepingLeft,
      clientEntryTruncateKeepingRight]
  · unfold appendClientEntry clientEntryTruncateKeepingLeft
      clientEntryTruncateKeepingRight
    rfl

/-- Witness for C9 at the concrete spans used by the repo's own RLE test
(`test/rle.ts`). -/
theorem C9_rle_split_roundtrip_witness :
    (∃ r, cgEntryTruncateKeepingRight ⟨100, 110, "s", 20, [1, 2, 3]⟩ 3 = some r ∧
      canAppendEntries
        (cgEntryTruncateKeepingLeft ⟨100, 110, "s", 20, [1, 2, 3]⟩ 3) r = true ∧
      appendEntries
        (cgEntryTruncateKeepingLeft ⟨100, 110, "s", 20, [1, 2, 3]⟩ 3) r =
          ⟨100, 110, "s", 20, [1, 2, 3]⟩) ∧
    canAppendClientEntry
      (clientEntryTruncateKeepingLeft ⟨20, 30, 100⟩ 4)
      (clientEntryTruncateKeepingRight ⟨20, 30, 100⟩ 4) = true ∧
    appendClientEntry
      (clientEntryTruncateKeepingLeft ⟨20, 30, 100⟩ 4)
      (clientEntryTruncateKeepingRight ⟨20, 30, 100⟩ 4) = ⟨20, 30, 100⟩ :=
  C9_rle_split_roundtrip ⟨100, 110, "s", 20, [1, 2, 3]⟩ ⟨20, 30, 100⟩ 3 4
    (by decide) (by decide) (by decide) (by decide)

/-- A found client entry contains the searched sequence number. -/
theorem findClientEntryRaw_bounds {cg : CausalGraph} {agent : String} {seq : Nat}
    {ce : ClientEntry} (h : findClientEntryRaw cg agent seq = some ce) :
    ce.seq ≤ seq ∧ seq < ce.seqEnd := by
  unfold findClientEntryRaw at h
  rcases hav : agentEntries cg agent with _ | av
  · rw [hav] at h; exact absurd h (by simp)
  · rw [hav] at h
    simp only at h
    set r := bsearch av (fun e =>
      if seq < e.seq then 1 else if seq ≥ e.seqEnd then -1 else 0) with hr
    by_cases hneg : r < 0
    · rw [if_pos hneg] at h; exact absurd h (by simp)
    · rw [if_neg hneg] at h
      have hr2 : bsearch av (fun e =>
          if seq < e.seq then 1 else if seq ≥ e.seqEnd then -1 else 0) = ((r.toNat : Nat) : Int) := by
        rw [← hr]; omega
      have hz := bsearch_eq_ofNat hr2
      have hce : av.getD r.toNat default = ce := by injection h
      rw [hce] at hz
      rcases hz with ⟨-, hz⟩
      by_cases c1 : seq < ce.seq
      · rw [if_pos c1] at hz; exfalso; omega
      · rw [if_neg c1] at hz
        by_cases c2 : seq ≥ ce.seqEnd
        · rw [if_pos c2] at hz; exfalso; omega
        · exact ⟨by omega, by omega⟩

/-- A found trimmed client entry starts exactly at the searched seq and
ends strictly after it. -/
theorem findClientEntryTrimmed_bounds {cg : CausalGraph} {agent : String} {seq : Nat}
    {ce : ClientEntry} (h : findClientEntryTrimmed cg agent seq = some ce) :
    ce.seq = seq ∧ seq < ce.seqEnd := by
  unfold findClientEntryTrimmed findClientEntry at h
  rcases hraw : findClientEntryRaw cg agent seq with _ | ce0
  · rw [hraw] at h; exact absurd h (by simp)
  · rw [hraw] at h
    have hb := findClientEntryRaw_bounds hraw
    simp only [Option.map_some'] at h
    by_cases hoff : seq - ce0.seq = 0
    · rw [if_pos hoff] at h
      cases h
      exact ⟨by omega, hb.2⟩
    · rw [if_neg hoff] at h
      cases h
      exact ⟨rfl, hb.2⟩


/-! #### The client-list order predicate, in indexed form -/

theorem clientListOrdered_cons {a : ClientEntry} {rest : List ClientEntry}
    (h : clientListOrdered (a :: rest) = true) :
    a.seq < a.seqEnd ∧ clientListOrdered rest = true := by
  cases rest with
  | nil =>
    simp only [clientListOrdered, decide_eq_true_eq] at h
    exact ⟨h, rfl⟩
  | cons b rest2 =>
    simp only [clientListOrdered, Bool.and_eq_true, decide_eq_true_eq] at h ⊢
    exact ⟨h.1.1, h.2⟩

theorem clientListOrdered_head_le {a : ClientEntry} {rest : List ClientEntry}
    (h : clientListOrdered (a :: rest) = true) :
    ∀ j, j < rest.length → a.seqEnd ≤ (rest.getD j default).seq := by
  induction rest generalizing a with
  | nil => intro j hj; simp at hj
  | cons b rest2 ih =>
    intro j hj
    simp only [clientListOrdered, Bool.and_eq_true, decide_eq_true_eq] at h
    cases j with
    | zero => simpa using h.1.2
    | succ k =>
      have hb := ih (a := b) h.2 k (by simpa using hj)
      have hbne : b.seq < b.seqEnd := (clientListOrdered_cons h.2).1
      have h2 := h.1.2
      simp only [List.getD_cons_succ]
      omega

theorem clientListOrdered_spans {l : List ClientEntry}
    (h : clientListOrdered l = true) :
    SpansSorted ClientEntry.seq ClientEntry.seqEnd l ∧
      SpansNonEmpty ClientEntry.seq ClientEntry.seqEnd l := by
  induction l with
  | nil =>
    exact ⟨fun i j hij hj => by simp at hj, fun i hi => by simp at hi⟩
  | cons a rest ih =>
    obtain ⟨hane, hrest⟩ := clientListOrdered_cons h
    obtain ⟨ihs, ihne⟩ := ih hrest
    constructor
    · intro i j hij hj
      cases i with
      | zero =>
        cases j with
        | zero => omega
        | succ k =>
          have := clientListOrdered_head_le h k (by simpa using hj)
          simpa using this
      | succ i2 =>
        cases j with
        | zero => omega
        | succ k =>
          have := ihs i2 k (by omega) (by simpa using hj)
          simpa using this
    · intro i hi
      cases i with
      | zero => simpa using hane
      | succ i2 =>
        have := ihne i2 (by simpa using hi)
        simpa using this

/-- On a well-ordered agent list, the binary-search lookup finds exactly
the client entry containing `s`. -/
theorem findClientEntryRaw_eq_some {cg : CausalGraph} {agent : String} {s : Nat}
    {av : List ClientEntry} {ce : ClientEntry}
    (hav : agentEntries cg agent = some av)
    (ho : clientListOrdered av = true)
    (hmem : ce ∈ av) (h1 : ce.seq ≤ s) (h2 : s < ce.seqEnd) :
    findClientEntryRaw cg agent s = some ce := by
  obtain ⟨hs, hne⟩ := clientListOrdered_spans ho
  obtain ⟨n, hn⟩ := List.mem_iff_get.mp hmem
  have hgd : av.getD (n : Nat) default = ce := by
    rw [List.getD_eq_getElem av default n.isLt]
    rw [← List.get_eq_getElem]
    exact hn
  have hfound : bsearch av (fun e =>
      if s < e.seq then 1 else if s ≥ e.seqEnd then -1 else 0) = ((n : Nat) : Int) :=
    bsearch_found_of_contains ClientEntry.seq ClientEntry.seqEnd hs hne
      n.isLt (by rw [hgd]; exact h1) (by rw [hgd]; exact h2)
  unfold findClientEntryRaw
  rw [hav]
  simp only [hfound]
  rw [if_neg (by omega)]
  simp only [Int.toNat_natCast]
  rw [hgd]

/-! #### C3: `add` is idempotent on already-known spans -/

/-- C3: when some existing client entry of `agent` covers the whole
(non-empty) range `[seqStart, seqEnd)`, `add` returns `null` and leaves
the graph completely unchanged. -/
theorem C3_add_idempotent {cg : CausalGraph} (parents : List Nat)
    {agent : String} {seqStart seqEnd : Nat} {ce : ClientEntry}
    (hwf : WF cg) (hmem : ce ∈ avListOf cg agent)
    (hcov1 : ce.seq ≤ seqStart) (hcov2 : seqEnd ≤ ce.seqEnd)
    (hlt : seqStart < seqEnd) :
    add cg agent seqStart seqEnd parents = (cg, none) := by
  obtain ⟨p, hfind, hav⟩ : ∃ p, cg.agentToVersion.find? (fun q => q.1 = agent) = some p ∧
      p.2 = avListOf cg agent := by
    unfold avListOf at hmem ⊢
    rcases hf : cg.agentToVersion.find? (fun q => q.1 = agent) with _ | p
    · rw [hf] at hmem; simp at hmem
    · exact ⟨p, hf, by simp [hf]⟩
  have hord : clientListOrdered (avListOf cg agent) = true := by
    rw [← hav]
    exact (hwf.2.2.1 p (List.mem_of_find?_eq_some hfind)).1
  have hae : agentEntries cg agent = some (avListOf cg agent) := by
    unfold agentEntries
    rw [hfind, ← hav]
    rfl
  have hraw : findClientEntryRaw cg agent seqStart = some ce :=
    findClientEntryRaw_eq_some hae hord hmem hcov1 (by omega)
  have htrim : ∃ tce, findClientEntryTrimmed cg agent seqStart = some tce ∧
      tce.seqEnd = ce.seqEnd := by
    unfold findClientEntryTrimmed findClientEntry
    rw [hraw]
    simp only [Option.map_some']
    by_cases hoff : seqStart - ce.seq = 0
    · rw [if_pos hoff]; exact ⟨ce, rfl, rfl⟩
    · rw [if_neg hoff]; exact ⟨_, rfl, rfl⟩
  obtain ⟨tce, htce, htceEnd⟩ := htrim
  have hloop : addTrimLoop cg agent seqStart seqEnd parents = none := by
    unfold addTrimLoop
    have hfuel : seqEnd - seqStart + 1 = (seqEnd - seqStart) + 1 := rfl
    rw [hfuel]
    unfold addTrimLoopFuel
    simp only [htce]
    rw [if_pos (by omega)]
  unfold add
  rw [hloop]

/-- Witness for C3: spec §8 scenario 4 — after `add('a',0..5,[])`, a second
`add('a',2..5,[])` returns `null` and the graph (hence `nextLV`) is
unchanged. -/
theorem C3_add_idempotent_witness :
    add (add createCG "a" 0 5 []).1 "a" 2 5 [] = ((add createCG "a" 0 5 []).1, none) :=
  @C3_add_idempotent (add createCG "a" 0 5 []).1 [] "a" 2 5 ⟨0, 5, 0⟩ (by decide)
    (by decide) (by decide) (by decide) (by decide)

/-! #### Chained entry lists (invariants 1, 2, 6 in indexed/member form) -/

theorem entriesChainedFrom_cons {v0 : Nat} {e : CGEntry} {rest : List CGEntry}
    (h : entriesChainedFrom v0 (e :: rest) = true) :
    e.version = v0 ∧ e.version < e.vEnd ∧ (∀ p ∈ e.parents, p < e.version) ∧
      entriesChainedFrom e.vEnd rest = true := by
  simp only [entriesChainedFrom, Bool.and_eq_true, decide_eq_true_eq,
    List.all_eq_true] at h
  exact ⟨h.1.1.1, h.1.1.2, fun p hp => by simpa using h.1.2 p hp, h.2⟩

theorem entriesEndFrom_cons (v0 : Nat) (a : CGEntry) (rest : List CGEntry) :
    entriesEndFrom v0 (a :: rest) = entriesEndFrom a.vEnd rest := by
  cases rest with
  | nil => rfl
  | cons b r2 =>
    unfold entriesEndFrom
    rw [List.getLast?_cons_cons]
    rcases h2 : (b :: r2).getLast? with _ | x
    · exact absurd h2 (by simp)
    · rfl

theorem chained_le_end {v0 : Nat} {l : List CGEntry}
    (h : entriesChainedFrom v0 l = true) : v0 ≤ entriesEndFrom v0 l := by
  induction l generalizing v0 with
  | nil => exact le_refl _
  | cons a rest ih =>
    obtain ⟨h1, h2, -, hrest⟩ := entriesChainedFrom_cons h
    rw [entriesEndFrom_cons]
    have := ih hrest
    omega

theorem chained_mem_bounds {v0 : Nat} {l : List CGEntry}
    (h : entriesChainedFrom v0 l = true) :
    ∀ e ∈ l, v0 ≤ e.version ∧ e.version < e.vEnd ∧ (∀ p ∈ e.parents, p < e.version) := by
  induction l generalizing v0 with
  | nil => intro e he; simp at he
  | cons a rest ih =>
    intro e he
    obtain ⟨h1, h2, h3, hrest⟩ := entriesChainedFrom_cons h
    rcases List.mem_cons.mp he with rfl | he
    · exact ⟨by omega, h2, h3⟩
    · have := ih hrest e he
      exact ⟨by omega, this.2.1, this.2.2⟩

theorem chained_mem_ub {v0 : Nat} {l : List CGEntry}
    (h : entriesChainedFrom v0 l = true) :
    ∀ e ∈ l, e.vEnd ≤ entriesEndFrom v0 l := by
  induction l generalizing v0 with
  | nil => intro e he; simp at he
  | cons a rest ih =>
    intro e he
    obtain ⟨h1, h2, -, hrest⟩ := entriesChainedFrom_cons h
    rw [entriesEndFrom_cons]
    rcases List.mem_cons.mp he with rfl | he
    · exact chained_le_end hrest
    · exact ih hrest e he

theorem chained_coverage {v0 : Nat} {l : List CGEntry}
    (h : entriesChainedFrom v0 l = true) :
    ∀ v, v0 ≤ v → v < entriesEndFrom v0 l → ∃ e ∈ l, e.version ≤ v ∧ v < e.vEnd := by
  induction l generalizing v0 with
  | nil => intro v h1 h2; exact absurd h2 (by simp [entriesEndFrom]; omega)
  | cons a rest ih =>
    intro v h1 h2
    obtain ⟨ha1, ha2, -, hrest⟩ := entriesChainedFrom_cons h
    by_cases hv : v < a.vEnd
    · exact ⟨a, List.mem_cons_self a rest, by omega, hv⟩
    · rw [entriesEndFrom_cons] at h2
      obtain ⟨e, hmem, he⟩ := ih hrest v (by omega) h2
      exact ⟨e, List.mem_cons_of_mem a hmem, he⟩

theorem entryLookup_sound {l : List CGEntry} {v : Nat} {e : CGEntry}
    (h : entryLookup l v = some e) : e ∈ l ∧ e.version ≤ v ∧ v < e.vEnd := by
  unfold entryLookup at h
  have hm := List.mem_of_find?_eq_some h
  have hp := List.find?_some h
  simp only [Bool.and_eq_true, decide_eq_true_eq] at hp
  exact ⟨hm, hp⟩

theorem entryLookup_complete {v0 : Nat} {l : List CGEntry}
    (hch : entriesChainedFrom v0 l = true) {v : Nat} {e : CGEntry}
    (hmem : e ∈ l) (h1 : e.version ≤ v) (h2 : v < e.vEnd) :
    entryLookup l v = some e := by
  induction l generalizing v0 with
  | nil => simp at hmem
  | cons a rest ih =>
    obtain ⟨ha1, ha2, -, hrest⟩ := entriesChainedFrom_cons hch
    by_cases hva : a.version ≤ v ∧ v < a.vEnd
    · have he : e = a := by
        rcases List.mem_cons.mp hmem with rfl | hmem2
        · rfl
        · have := chained_mem_bounds hrest e hmem2
          omega
      subst he
      unfold entryLookup
      rw [List.find?_cons_of_pos]
      simp only [Bool.and_eq_true, decide_eq_true_eq]
      exact hva
    · have hea : e ≠ a := by
        rintro rfl
        exact hva ⟨h1, h2⟩
      have hmem2 : e ∈ rest := by
        rcases List.mem_cons.mp hmem with rfl | hmem2
        · exact absurd rfl hea
        · exact hmem2
      have := ih hrest hmem2
      unfold entryLookup at this ⊢
      rw [List.find?_cons_of_neg]
      · exact this
      · simp only [Bool.and_eq_true, decide_eq_true_eq]
        exact hva

/-! #### Parent steps and reachability -/

theorem lvParents_eq {cg : CausalGraph} {v : Nat} {e : CGEntry}
    (he : entryLookup cg.entries v = some e) :
    lvParents cg v = if v = e.version then e.parents else [v - 1] := by
  unfold lvParents
  rw [he]

theorem stepsTo_lt {cg : CausalGraph}
    (hch : entriesChainedFrom 0 cg.entries = true) {w p : Nat}
    (h : StepsTo cg w p) : p < w := by
  unfold StepsTo at h
  rcases he : entryLookup cg.entries w with _ | e
  · unfold lvParents at h; rw [he] at h; simp at h
  · rw [lvParents_eq he] at h
    obtain ⟨hmem, h1, h2⟩ := entryLookup_sound he
    obtain ⟨-, -, hpar⟩ := chained_mem_bounds hch e hmem
    by_cases hv : w = e.version
    · rw [if_pos hv] at h
      have := hpar p h
      omega
    · rw [if_neg hv] at h
      simp only [List.mem_singleton] at h
      omega

theorem stepsTo_lt_nextLV {cg : CausalGraph}
    (hch : entriesChainedFrom 0 cg.entries = true) {w p : Nat}
    (h : StepsTo cg w p) : w < nextLV cg := by
  unfold StepsTo at h
  rcases he : entryLookup cg.entries w with _ | e
  · unfold lvParents at h; rw [he] at h; simp at h
  · obtain ⟨hmem, h1, h2⟩ := entryLookup_sound he
    have := chained_mem_ub hch e hmem
    show w < entriesEndFrom 0 cg.entries
    omega

theorem reaches_le {cg : CausalGraph}
    (hch : entriesChainedFrom 0 cg.entries = true) {w v : Nat}
    (h : Reaches cg w v) : v ≤ w := by
  induction h with
  | refl => exact le_refl _
  | tail hab hbc ih =>
    have := stepsTo_lt hch hbc
    omega

theorem reaches_lt_nextLV {cg : CausalGraph}
    (hch : entriesChainedFrom 0 cg.entries = true) {w v : Nat}
    (h : Reaches cg w v) (hne : w ≠ v) : w < nextLV cg := by
  rcases (Relation.ReflTransGen.cases_head h) with rfl | ⟨c, hstep, -⟩
  · exact absurd rfl hne
  · exact stepsTo_lt_nextLV hch hstep

theorem reaches_within_run {cg : CausalGraph}
    (hch : entriesChainedFrom 0 cg.entries = true) {e : CGEntry}
    (hmem : e ∈ cg.entries) {a b : Nat} (h1 : e.version ≤ a) (h2 : a ≤ b)
    (h3 : b < e.vEnd) : Reaches cg b a := by
  obtain ⟨k, rfl⟩ := Nat.exists_eq_add_of_le h2
  clear h2
  induction k with
  | zero => exact Relation.ReflTransGen.refl
  | succ n ih =>
    have hstep : StepsTo cg (a + (n + 1)) (a + n) := by
      unfold StepsTo
      rw [lvParents_eq (entryLookup_complete hch hmem (by omega) (by omega))]
      rw [if_neg (by omega)]
      simp only [List.mem_singleton]
      omega
    exact Relation.ReflTransGen.head hstep (ih (by omega))

theorem reaches_run_exit {cg : CausalGraph}
    (hch : entriesChainedFrom 0 cg.entries = true) {e : CGEntry}
    (hmem : e ∈ cg.entries) {w v : Nat} (hw1 : e.version ≤ w) (hw2 : w < e.vEnd)
    (hv : v < e.version) :
    Reaches cg w v ↔ ∃ p ∈ e.parents, Reaches cg p v := by
  constructor
  · intro h
    obtain ⟨k, rfl⟩ := Nat.exists_eq_add_of_le hw1
    clear hw1
    induction k with
    | zero =>
      rcases Relation.ReflTransGen.cases_head h with heq | ⟨c, hstep, hrest⟩
      · omega
      · refine ⟨c, ?_, hrest⟩
        unfold StepsTo at hstep
        rw [lvParents_eq (entryLookup_complete hch hmem (by omega) (by omega))] at hstep
        rw [if_pos (by omega)] at hstep
        simpa using hstep
    | succ n ih =>
      rcases Relation.ReflTransGen.cases_head h with heq | ⟨c, hstep, hrest⟩
      · omega
      · have hc : c = e.version + n := by
          unfold StepsTo at hstep
          rw [lvParents_eq (entryLookup_complete hch hmem (by omega) (by omega))] at hstep
          rw [if_neg (by omega)] at hstep
          simp only [List.mem_singleton] at hstep
          omega
        subst hc
        exact ih (by omega) hrest
  · rintro ⟨p, hp, hre⟩
    have h1 : Reaches cg w e.version := reaches_within_run hch hmem (le_refl _) hw1 hw2
    have hstep : StepsTo cg e.version p := by
      unfold StepsTo
      rw [lvParents_eq (entryLookup_complete hch hmem (le_refl _) (by
        have := chained_mem_bounds hch e hmem
        omega))]
      rw [if_pos rfl]
      exact hp
    exact h1.trans (Relation.ReflTransGen.head hstep hre)

/-! #### `advanceFrontier` and the frontier fold -/

theorem sortVersions_perm (l : List Nat) : List.Perm (sortVersions l) l :=
  List.perm_insertionSort _ l

theorem mem_sortVersions {l : List Nat} {v : Nat} : v ∈ sortVersions l ↔ v ∈ l :=
  (sortVersions_perm l).mem_iff

theorem sortVersions_sorted (l : List Nat) : (sortVersions l).Sorted (· ≤ ·) :=
  List.sorted_insertionSort _ l

theorem advanceFrontier_mem {f : List Nat} {vLast : Nat} {P : List Nat} {v : Nat} :
    v ∈ advanceFrontier f vLast P ↔ (v ∈ f ∧ v ∉ P) ∨ v = vLast := by
  unfold advanceFrontier
  rw [mem_sortVersions]
  simp [List.mem_filter]

theorem advanceFrontier_sorted (f : List Nat) (vLast : Nat) (P : List Nat) :
    (advanceFrontier f vLast P).Sorted (· ≤ ·) :=
  sortVersions_sorted _

theorem advanceFrontier_nodup {f : List Nat} {vLast : Nat} (P : List Nat)
    (hf : f.Nodup) (hv : vLast ∉ f) : (advanceFrontier f vLast P).Nodup := by
  unfold advanceFrontier
  rw [(sortVersions_perm _).nodup_iff]
  refine List.Nodup.append (hf.filter _) (List.nodup_singleton _) ?_
  intro a ha hb
  simp only [List.mem_singleton] at hb
  subst hb
  exact hv (List.mem_of_mem_filter ha)

theorem foldHeads_go_lt {l : List CGEntry} :
    ∀ (v0 : Nat) (acc : List Nat), entriesChainedFrom v0 l = true →
      (∀ v ∈ acc, v < v0) →
      ∀ v ∈ l.foldl (fun acc e => advanceFrontier acc (e.vEnd - 1) e.parents) acc,
        v < entriesEndFrom v0 l := by
  induction l with
  | nil => intro v0 acc _ hacc v hv; exact hacc v hv
  | cons a rest ih =>
    intro v0 acc hch hacc v hv
    obtain ⟨h1, h2, -, hrest⟩ := entriesChainedFrom_cons hch
    rw [entriesEndFrom_cons]
    rw [List.foldl_cons] at hv
    refine ih a.vEnd _ hrest ?_ v hv
    intro x hx
    rcases advanceFrontier_mem.mp hx with ⟨hxf, -⟩ | rfl
    · have := hacc x hxf; omega
    · omega

theorem foldHeads_go_sorted_nodup {l : List CGEntry} :
    ∀ (v0 : Nat) (acc : List Nat), entriesChainedFrom v0 l = true →
      (∀ v ∈ acc, v < v0) → acc.Sorted (· ≤ ·) → acc.Nodup →
      (l.foldl (fun acc e => advanceFrontier acc (e.vEnd - 1) e.parents) acc).Sorted (· ≤ ·) ∧
      (l.foldl (fun acc e => advanceFrontier acc (e.vEnd - 1) e.parents) acc).Nodup := by
  induction l with
  | nil => intro v0 acc _ _ hs hn; exact ⟨hs, hn⟩
  | cons a rest ih =>
    intro v0 acc hch hacc hs hn
    obtain ⟨h1, h2, -, hrest⟩ := entriesChainedFrom_cons hch
    rw [List.foldl_cons]
    refine ih a.vEnd _ hrest ?_ (advanceFrontier_sorted _ _ _) ?_
    · intro x hx
      rcases advanceFrontier_mem.mp hx with ⟨hxf, -⟩ | rfl
      · have := hacc x hxf; omega
      · omega
    · refine advanceFrontier_nodup _ hn ?_
      intro hmem
      have := hacc _ hmem
      omega

theorem entriesFoldHeads_append (l : List CGEntry) (e : CGEntry) :
    entriesFoldHeads (l ++ [e]) =
      advanceFrontier (entriesFoldHeads l) (e.vEnd - 1) e.parents := by
  unfold entriesFoldHeads
  rw [List.foldl_append]
  rfl

theorem entriesEndFrom_append (v0 : Nat) (l : List CGEntry) (e : CGEntry) :
    entriesEndFrom v0 (l ++ [e]) = e.vEnd := by
  unfold entriesEndFrom
  rw [List.getLast?_concat]

theorem entriesChainedFrom_cons_intro {v0 : Nat} {a : CGEntry} {rest : List CGEntry}
    (h1 : a.version = v0) (h2 : a.version < a.vEnd)
    (h3 : ∀ p ∈ a.parents, p < a.version)
    (h4 : entriesChainedFrom a.vEnd rest = true) :
    entriesChainedFrom v0 (a :: rest) = true := by
  simp only [entriesChainedFrom, Bool.and_eq_true, decide_eq_true_eq, List.all_eq_true]
  exact ⟨⟨⟨h1, h2⟩, fun p hp => by simpa using h3 p hp⟩, h4⟩

theorem chained_append_iff {v0 : Nat} {l : List CGEntry} {e : CGEntry} :
    entriesChainedFrom v0 (l ++ [e]) = true ↔
      entriesChainedFrom v0 l = true ∧ e.version = entriesEndFrom v0 l ∧
        e.version < e.vEnd ∧ (∀ p ∈ e.parents, p < e.version) := by
  induction l generalizing v0 with
  | nil =>
    simp only [List.nil_append]
    constructor
    · intro h
      obtain ⟨h1, h2, h3, -⟩ := entriesChainedFrom_cons h
      exact ⟨rfl, h1, h2, h3⟩
    · rintro ⟨-, h1, h2, h3⟩
      exact entriesChainedFrom_cons_intro h1 h2 h3 rfl
  | cons a rest ih =>
    rw [List.cons_append]
    constructor
    · intro h
      obtain ⟨h1, h2, h3, hrest⟩ := entriesChainedFrom_cons h
      obtain ⟨hc, he1, he2, he3⟩ := ih.mp hrest
      exact ⟨entriesChainedFrom_cons_intro h1 h2 h3 hc,
        by rw [entriesEndFrom_cons]; exact he1, he2, he3⟩
    · rintro ⟨hc, he1, he2, he3⟩
      obtain ⟨h1, h2, h3, hrest⟩ := entriesChainedFrom_cons hc
      refine entriesChainedFrom_cons_intro h1 h2 h3 ?_
      refine ih.mpr ⟨hrest, ?_, he2, he3⟩
      rw [entriesEndFrom_cons] at he1
      exact he1

theorem find?_append_some {α : Type} {p : α → Bool} {l1 l2 : List α} {x : α}
    (h : l1.find? p = some x) : (l1 ++ l2).find? p = some x := by
  induction l1 with
  | nil => simp at h
  | cons a rest ih =>
    by_cases hpa : p a
    · rw [List.find?_cons_of_pos _ hpa] at h
      rw [List.cons_append, List.find?_cons_of_pos _ hpa]
      exact h
    · rw [List.find?_cons_of_neg _ hpa] at h
      rw [List.cons_append, List.find?_cons_of_neg _ hpa]
      exact ih h

theorem stepsTo_extend {cg cg2 : CausalGraph} {e : CGEntry}
    (hpre : cg2.entries = cg.entries ++ [e])
    (hch : entriesChainedFrom 0 cg.entries = true)
    {w p : Nat} (hw : w < nextLV cg) : StepsTo cg w p ↔ StepsTo cg2 w p := by
  obtain ⟨e2, hmem, h1, h2⟩ := chained_coverage hch w (Nat.zero_le _) hw
  have hl1 : entryLookup cg.entries w = some e2 := entryLookup_complete hch hmem h1 h2
  have hl2 : entryLookup cg2.entries w = some e2 := by
    rw [hpre]
    exact find?_append_some hl1
  unfold StepsTo
  rw [lvParents_eq hl1, lvParents_eq hl2]

theorem reaches_extend {cg cg2 : CausalGraph} {e : CGEntry}
    (hpre : cg2.entries = cg.entries ++ [e])
    (hch : entriesChainedFrom 0 cg.entries = true)
    (hch2 : entriesChainedFrom 0 cg2.entries = true)
    {w v : Nat} (hw : w < nextLV cg) : Reaches cg w v ↔ Reaches cg2 w v := by
  constructor
  · intro h
    induction h with
    | refl => exact Relation.ReflTransGen.refl
    | tail hab hbc ih =>
      have hb := reaches_le hch hab
      exact ih.tail ((stepsTo_extend hpre hch (by omega)).mp hbc)
  · intro h
    induction h with
    | refl => exact Relation.ReflTransGen.refl
    | tail hab hbc ih =>
      have hb := reaches_le hch2 hab
      exact ih.tail ((stepsTo_extend hpre hch (by omega)).mpr hbc)

theorem reaches_congr {cg1 cg2 : CausalGraph} (h : cg1.entries = cg2.entries)
    {w v : Nat} : Reaches cg1 w v ↔ Reaches cg2 w v := by
  unfold Reaches StepsTo lvParents
  rw [h]

/-! #### The frontier fold computes the dominator set -/

theorem foldHeads_dominators_aux :
    ∀ (l : List CGEntry), entriesChainedFrom 0 l = true →
      (entriesFoldHeads l).Sorted (· ≤ ·) ∧ (entriesFoldHeads l).Nodup ∧
      (∀ v, v ∈ entriesFoldHeads l ↔
        (v < entriesEndFrom 0 l ∧ ∀ w, w < entriesEndFrom 0 l → w ≠ v →
          ¬ Reaches ⟨l, [], []⟩ w v)) := by
  intro l
  induction l using List.reverseRecOn with
  | nil =>
    intro _
    refine ⟨List.sorted_nil, List.nodup_nil, fun v => ?_⟩
    constructor
    · intro h; simp [entriesFoldHeads] at h
    · rintro ⟨h, -⟩
      exact absurd h (by simp [entriesEndFrom])
  | append_singleton l e ih =>
    intro hch2
    obtain ⟨hchl, hev, hene, hepar⟩ := chained_append_iff.mp hch2
    obtain ⟨ihs, ihn, ihm⟩ := ih hchl
    have hNN : entriesEndFrom 0 l < e.vEnd := by omega
    have hboundl : ∀ v ∈ entriesFoldHeads l, v < entriesEndFrom 0 l := by
      intro v hv
      exact foldHeads_go_lt 0 [] hchl (by simp) v hv
    have hEnd : entriesEndFrom 0 (l ++ [e]) = e.vEnd := entriesEndFrom_append 0 l e
    have hpre : (⟨l ++ [e], [], []⟩ : CausalGraph).entries =
        (⟨l, [], []⟩ : CausalGraph).entries ++ [e] := rfl
    have hmemE : e ∈ (⟨l ++ [e], [], []⟩ : CausalGraph).entries :=
      List.mem_append_right l (List.mem_singleton_self e)
    have hNl : nextLV (⟨l, [], []⟩ : CausalGraph) = entriesEndFrom 0 l := rfl
    rw [entriesFoldHeads_append]
    refine ⟨advanceFrontier_sorted _ _ _, ?_, ?_⟩
    · refine advanceFrontier_nodup _ ihn ?_
      intro hmem
      have := hboundl _ hmem
      omega
    · intro v
      rw [advanceFrontier_mem, hEnd]
      by_cases hvL : v = e.vEnd - 1
      · subst hvL
        constructor
        · intro _
          refine ⟨by omega, fun w hw hne hre => ?_⟩
          have := reaches_le hch2 hre
          omega
        · intro _
          exact Or.inr rfl
      · constructor
        · rintro (⟨hvf, hvp⟩ | rfl)
          · -- v in the old frontier, not a parent of e
            have hvlt : v < entriesEndFrom 0 l := hboundl _ hvf
            obtain ⟨-, htips⟩ := (ihm v).mp hvf
            refine ⟨by omega, fun w hw hne hre => ?_⟩
            by_cases hwl : w < entriesEndFrom 0 l
            · have hrel : Reaches ⟨l, [], []⟩ w v :=
                (reaches_extend hpre hchl hch2
                  (show w < nextLV (⟨l, [], []⟩ : CausalGraph) by
                    rw [hNl]; omega)).mpr hre
              exact htips w hwl hne hrel
            · -- w lies inside e; the path must leave via e.parents
              have hre2 : ∃ p ∈ e.parents, Reaches ⟨l ++ [e], [], []⟩ p v :=
                (reaches_run_exit hch2 hmemE (show e.version ≤ w by omega)
                  (show w < e.vEnd by omega) (show v < e.version by omega)).mp hre
              obtain ⟨p, hp, hpre2⟩ := hre2
              have hplt : p < e.version := hepar p hp
              by_cases hpv : p = v
              · subst hpv; exact hvp hp
              · have hrel : Reaches ⟨l, [], []⟩ p v :=
                  (reaches_extend hpre hchl hch2
                    (show p < nextLV (⟨l, [], []⟩ : CausalGraph) by
                      rw [hNl]; omega)).mpr hpre2
                exact htips p (by omega) hpv hrel
          · exact absurd rfl hvL
        · rintro ⟨hvN, htips⟩
          by_cases hvver : v < e.version
          · -- v is below e: it must be an old tip not in e.parents
            left
            constructor
            · rw [ihm v]
              refine ⟨by omega, fun w hw hne hre => ?_⟩
              refine htips w (by omega) hne ?_
              exact (reaches_extend hpre hchl hch2
                (show w < nextLV (⟨l, [], []⟩ : CausalGraph) by rw [hNl]; omega)).mp hre
            · intro hvp
              refine htips (e.vEnd - 1) (by omega) (by omega) ?_
              exact (reaches_run_exit hch2 hmemE (show e.version ≤ e.vEnd - 1 by omega)
                (show e.vEnd - 1 < e.vEnd by omega)
                (show v < e.version by omega)).mpr ⟨v, hvp, Relation.ReflTransGen.refl⟩
          · -- e.version ≤ v < e.vEnd - 1: v+1 reaches v inside the run
            exfalso
            have hv1 : v + 1 < e.vEnd := by omega
            refine htips (v + 1) (by omega) (by omega) ?_
            exact reaches_within_run hch2 hmemE (by omega) (by omega) hv1

/-- Under invariants 1/2/6 and the operational frontier invariant, `heads`
is exactly the dominator set of all known LVs, sorted ascending with no
duplicates. -/
theorem WF_heads_dominators {cg : CausalGraph}
    (hch : entriesChainedFrom 0 cg.entries = true)
    (hheads : cg.heads = entriesFoldHeads cg.entries) :
    cg.heads.Sorted (· ≤ ·) ∧ cg.heads.Nodup ∧
      ∀ v, v ∈ cg.heads ↔ IsDominatorLV cg v := by
  obtain ⟨hs, hn, hm⟩ := foldHeads_dominators_aux cg.entries hch
  rw [hheads]
  refine ⟨hs, hn, fun v => ?_⟩
  rw [hm v]
  unfold IsDominatorLV
  have hN : nextLV cg = entriesEndFrom 0 cg.entries := rfl
  rw [hN]
  constructor
  · rintro ⟨h1, h2⟩
    exact ⟨h1, fun w hw hne hre => h2 w hw hne
      ((@reaches_congr cg ⟨cg.entries, [], []⟩ rfl w v).mp hre)⟩
  · rintro ⟨h1, h2⟩
    exact ⟨h1, fun w hw hne hre => h2 w hw hne
      ((@reaches_congr ⟨cg.entries, [], []⟩ cg rfl w v).mp hre)⟩

/-! #### Cons/append characterisations of the order and maximality predicates -/

theorem clientListOrdered_cons_iff {a : ClientEntry} {l : List ClientEntry} :
    clientListOrdered (a :: l) = true ↔
      a.seq < a.seqEnd ∧ clientListOrdered l = true ∧
        (∀ b ∈ l.head?, a.seqEnd ≤ b.seq) := by
  cases l with
  | nil => simp [clientListOrdered]
  | cons b rest =>
    simp only [clientListOrdered, Bool.and_eq_true, decide_eq_true_eq, List.head?_cons,
      Option.mem_def, Option.some.injEq]
    constructor
    · rintro ⟨⟨h1, h2⟩, h3⟩
      exact ⟨h1, h3, fun c hc => by rw [← hc]; exact h2⟩
    · rintro ⟨h1, h2, h3⟩
      exact ⟨⟨h1, h3 b rfl⟩, h2⟩

theorem clientListOrdered_append {l1 l2 : List ClientEntry} :
    clientListOrdered (l1 ++ l2) = true ↔
      clientListOrdered l1 = true ∧ clientListOrdered l2 = true ∧
        (∀ a ∈ l1.getLast?, ∀ b ∈ l2.head?, a.seqEnd ≤ b.seq) := by
  induction l1 with
  | nil => simp [clientListOrdered]
  | cons a rest ih =>
    rw [List.cons_append, clientListOrdered_cons_iff, clientListOrdered_cons_iff, ih]
    constructor
    · rintro ⟨h1, ⟨h2, h3, h4⟩, h5⟩
      refine ⟨⟨h1, h2, ?_⟩, h3, ?_⟩
      · intro b hb
        apply h5
        cases rest with
        | nil => exact absurd hb (by simp)
        | cons c r => simpa using hb
      · intro x hx b hb
        cases rest with
        | nil =>
          simp only [List.getLast?_singleton, Option.mem_def, Option.some.injEq] at hx
          subst hx
          apply h5
          simpa using hb
        | cons c r =>
          rw [List.getLast?_cons_cons] at hx
          exact h4 x hx b hb
    · rintro ⟨⟨h1, h2, h5⟩, h3, h4⟩
      refine ⟨h1, ⟨h2, h3, ?_⟩, ?_⟩
      · intro x hx b hb
        cases rest with
        | nil => exact absurd hx (by simp)
        | cons c r =>
          refine h4 x ?_ b hb
          rw [List.getLast?_cons_cons]
          exact hx
      · intro b hb
        cases rest with
        | nil =>
          refine h4 a (by simp) b ?_
          simpa using hb
        | cons c r =>
          refine h5 b ?_
          simpa using hb

theorem maxMergedClients_cons_iff {a : ClientEntry} {l : List ClientEntry} :
    maxMergedClients (a :: l) = true ↔
      maxMergedClients l = true ∧
        (∀ b ∈ l.head?, canAppendClientEntry a b = false) := by
  cases l with
  | nil => simp [maxMergedClients]
  | cons b rest =>
    simp only [maxMergedClients, Bool.and_eq_true, Bool.not_eq_true', List.head?_cons,
      Option.mem_def, Option.some.injEq]
    constructor
    · rintro ⟨h1, h2⟩
      exact ⟨h2, fun c hc => by rw [← hc]; exact h1⟩
    · rintro ⟨h1, h2⟩
      exact ⟨h2 b rfl, h1⟩

theorem maxMergedClients_append {l1 l2 : List ClientEntry} :
    maxMergedClients (l1 ++ l2) = true ↔
      maxMergedClients l1 = true ∧ maxMergedClients l2 = true ∧
        (∀ a ∈ l1.getLast?, ∀ b ∈ l2.head?, canAppendClientEntry a b = false) := by
  induction l1 with
  | nil => simp [maxMergedClients]
  | cons a rest ih =>
    rw [List.cons_append, maxMergedClients_cons_iff, maxMergedClients_cons_iff, ih]
    constructor
    · rintro ⟨⟨h2, h3, h4⟩, h5⟩
      refine ⟨⟨h2, ?_⟩, h3, ?_⟩
      · intro b hb
        apply h5
        cases rest with
        | nil => exact absurd hb (by simp)
        | cons c r => simpa using hb
      · intro x hx b hb
        cases rest with
        | nil =>
          simp only [List.getLast?_singleton, Option.mem_def, Option.some.injEq] at hx
          subst hx
          apply h5
          simpa using hb
        | cons c r =>
          rw [List.getLast?_cons_cons] at hx
          exact h4 x hx b hb
    · rintro ⟨⟨h2, h5⟩, h3, h4⟩
      refine ⟨⟨h2, h3, ?_⟩, ?_⟩
      · intro x hx b hb
        cases rest with
        | nil => exact absurd hx (by simp)
        | cons c r =>
          refine h4 x ?_ b hb
          rw [List.getLast?_cons_cons]
          exact hx
      · intro b hb
        cases rest with
        | nil =>
          refine h4 a (by simp) b ?_
          simpa using hb
        | cons c r =>
          refine h5 b ?_
          simpa using hb

theorem maxMergedEntries_cons_iff {a : CGEntry} {l : List CGEntry} :
    maxMergedEntries (a :: l) = true ↔
      maxMergedEntries l = true ∧
        (∀ b ∈ l.head?, canAppendEntries a b = false) := by
  cases l with
  | nil => simp [maxMergedEntries]
  | cons b rest =>
    simp only [maxMergedEntries, Bool.and_eq_true, Bool.not_eq_true', List.head?_cons,
      Option.mem_def, Option.some.injEq]
    constructor
    · rintro ⟨h1, h2⟩
      exact ⟨h2, fun c hc => by rw [← hc]; exact h1⟩
    · rintro ⟨h1, h2⟩
      exact ⟨h2 b rfl, h1⟩

theorem maxMergedEntries_append {l1 l2 : List CGEntry} :
    maxMergedEntries (l1 ++ l2) = true ↔
      maxMergedEntries l1 = true ∧ maxMergedEntries l2 = true ∧
        (∀ a ∈ l1.getLast?, ∀ b ∈ l2.head?, canAppendEntries a b = false) := by
  induction l1 with
  | nil => simp [maxMergedEntries]
  | cons a rest ih =>
    rw [List.cons_append, maxMergedEntries_cons_iff, maxMergedEntries_cons_iff, ih]
    constructor
    · rintro ⟨⟨h2, h3, h4⟩, h5⟩
      refine ⟨⟨h2, ?_⟩, h3, ?_⟩
      · intro b hb
        apply h5
        cases rest with
        | nil => exact absurd hb (by simp)
        | cons c r => simpa using hb
      · intro x hx b hb
        cases rest with
        | nil =>
          simp only [List.getLast?_singleton, Option.mem_def, Option.some.injEq] at hx
          subst hx
          apply h5
          simpa using hb
        | cons c r =>
          rw [List.getLast?_cons_cons] at hx
          exact h4 x hx b hb
    · rintro ⟨⟨h2, h5⟩, h3, h4⟩
      refine ⟨⟨h2, h3, ?_⟩, ?_⟩
      · intro x hx b hb
        cases rest with
        | nil => exact absurd hx (by simp)
        | cons c r =>
          refine h4 x ?_ b hb
          rw [List.getLast?_cons_cons]
          exact hx
      · intro b hb
        cases rest with
        | nil =>
          refine h4 a (by simp) b ?_
          simpa using hb
        | cons c r =>
          refine h5 b ?_
          simpa using hb

/-! #### `clientLookup` and `clientMapsTo` -/

theorem clientLookup_sound {l : List ClientEntry} {s : Nat} {ce : ClientEntry}
    (h : clientLookup l s = some ce) : ce ∈ l ∧ ce.seq ≤ s ∧ s < ce.seqEnd := by
  unfold clientLookup at h
  have hm := List.mem_of_find?_eq_some h
  have hp := List.find?_some h
  simp only [Bool.and_eq_true, decide_eq_true_eq] at hp
  exact ⟨hm, hp⟩

theorem clientMapsTo_unique {l : List ClientEntry}
    (ho : clientListOrdered l = true) {q v1 v2 : Nat}
    (h1 : clientMapsTo l q v1) (h2 : clientMapsTo l q v2) : v1 = v2 := by
  obtain ⟨hs, hne⟩ := clientListOrdered_spans ho
  obtain ⟨c1, hm1, ha1, hb1, hv1⟩ := h1
  obtain ⟨c2, hm2, ha2, hb2, hv2⟩ := h2
  have hc : c1 = c2 := by
    obtain ⟨n1, hn1⟩ := List.mem_iff_get.mp hm1
    obtain ⟨n2, hn2⟩ := List.mem_iff_get.mp hm2
    have hg1 : l.getD (n1 : Nat) default = c1 := by
      rw [List.getD_eq_getElem l default n1.isLt, ← List.get_eq_getElem]
      exact hn1
    have hg2 : l.getD (n2 : Nat) default = c2 := by
      rw [List.getD_eq_getElem l default n2.isLt, ← List.get_eq_getElem]
      exact hn2
    rcases Nat.lt_trichotomy (n1 : Nat) (n2 : Nat) with hlt | heq | hgt
    · have := hs (n1 : Nat) (n2 : Nat) hlt n2.isLt
      rw [hg1, hg2] at this
      omega
    · rw [← hg1, ← hg2, heq]
    · have := hs (n2 : Nat) (n1 : Nat) hgt n1.isLt
      rw [hg1, hg2] at this
      omega
  subst hc
  omega

theorem clientLookup_complete {l : List ClientEntry}
    (ho : clientListOrdered l = true) {s : Nat} {ce : ClientEntry}
    (hmem : ce ∈ l) (h1 : ce.seq ≤ s) (h2 : s < ce.seqEnd) :
    clientLookup l s = some ce := by
  unfold clientLookup
  rcases hf : l.find? (fun c => c.seq ≤ s && s < c.seqEnd) with _ | c0
  · exfalso
    have := List.find?_eq_none.mp hf ce hmem
    simp only [Bool.and_eq_true, decide_eq_true_eq] at this
    exact this ⟨h1, h2⟩
  · have hsound := clientLookup_sound (l := l) (s := s) hf
    have : clientMapsTo l s (c0.version + (s - c0.seq)) :=
      ⟨c0, hsound.1, hsound.2.1, hsound.2.2, rfl⟩
    have h2m : clientMapsTo l s (ce.version + (s - ce.seq)) := ⟨ce, hmem, h1, h2, rfl⟩
    -- uniqueness of the containing entry
    obtain ⟨hs, hne⟩ := clientListOrdered_spans ho
    obtain ⟨n1, hn1⟩ := List.mem_iff_get.mp hsound.1
    obtain ⟨n2, hn2⟩ := List.mem_iff_get.mp hmem
    have hg1 : l.getD (n1 : Nat) default = c0 := by
      rw [List.getD_eq_getElem l default n1.isLt, ← List.get_eq_getElem]
      exact hn1
    have hg2 : l.getD (n2 : Nat) default = ce := by
      rw [List.getD_eq_getElem l default n2.isLt, ← List.get_eq_getElem]
      exact hn2
    have hc : c0 = ce := by
      rcases Nat.lt_trichotomy (n1 : Nat) (n2 : Nat) with hlt | heq | hgt
      · have := hs (n1 : Nat) (n2 : Nat) hlt n2.isLt
        rw [hg1, hg2] at this
        have := hsound.2.1
        omega
      · rw [← hg1, ← hg2, heq]
      · have := hs (n2 : Nat) (n1 : Nat) hgt n1.isLt
        rw [hg1, hg2] at this
        have := hsound.2.2
        omega
    rw [hf, hc]

/-! #### List-surgery helpers for `insertClientRLEList` -/

theorem getD_mem {α : Type} [Inhabited α] {l : List α} {i : Nat} (h : i < l.length) :
    l.getD i default ∈ l := by
  simp only [List.getD_eq_getElem?_getD, List.getElem?_eq_getElem h, Option.getD_some]
  exact List.getElem_mem h

theorem getD_eq_of_getLast? {α : Type} [Inhabited α] {l : List α} {a : α}
    (h : l.getLast? = some a) : 0 < l.length ∧ l.getD (l.length - 1) default = a := by
  rw [List.getLast?_eq_getElem?] at h
  obtain ⟨hlt, hget⟩ := List.getElem?_eq_some_iff.mp h
  refine ⟨by omega, ?_⟩
  simp only [List.getD_eq_getElem?_getD, List.getElem?_eq_getElem hlt, Option.getD_some]
  exact hget

theorem dropLast_concat_of_getLast? {α : Type} {l : List α} {a : α}
    (h : l.getLast? = some a) : l = l.dropLast ++ [a] :=
  (List.dropLast_append_getLast? a h).symm

theorem head?_drop_eq {α : Type} (l : List α) (k : Nat) : (l.drop k).head? = l[k]? := by
  rw [List.head?_eq_getElem?, List.getElem?_drop]
  norm_num

theorem mem_head?_drop {α : Type} [Inhabited α] {l : List α} {k : Nat} {b : α}
    (h : b ∈ (l.drop k).head?) : k < l.length ∧ l.getD k default = b := by
  rw [Option.mem_def, head?_drop_eq] at h
  obtain ⟨hlt, hget⟩ := List.getElem?_eq_some_iff.mp h
  refine ⟨hlt, ?_⟩
  simp only [List.getD_eq_getElem?_getD, List.getElem?_eq_getElem hlt, Option.getD_some]
  exact hget

theorem getLast?_take_eq {α : Type} [Inhabited α] {l : List α} {k : Nat}
    (hk : 0 < k) (hlen : k ≤ l.length) :
    (l.take k).getLast? = some (l.getD (k - 1) default) := by
  have hlt : k - 1 < l.length := by omega
  rw [List.getLast?_eq_getElem?]
  have h2 : (l.take k).length = k := by
    rw [List.length_take]; omega
  rw [h2, List.getElem?_take_of_lt (by omega), List.getElem?_eq_getElem hlt]
  simp only [List.getD_eq_getElem?_getD, List.getElem?_eq_getElem hlt, Option.getD_some]

theorem clientMapsTo_nil {q v : Nat} : ¬ clientMapsTo [] q v := by
  rintro ⟨ce, hm, -⟩
  exact absurd hm (List.not_mem_nil ce)

theorem clientMapsTo_append {l1 l2 : List ClientEntry} {q v : Nat} :
    clientMapsTo (l1 ++ l2) q v ↔ clientMapsTo l1 q v ∨ clientMapsTo l2 q v := by
  unfold clientMapsTo
  constructor
  · rintro ⟨ce, hm, h⟩
    rcases List.mem_append.mp hm with hm | hm
    · exact Or.inl ⟨ce, hm, h⟩
    · exact Or.inr ⟨ce, hm, h⟩
  · rintro (⟨ce, hm, h⟩ | ⟨ce, hm, h⟩)
    · exact ⟨ce, List.mem_append.mpr (Or.inl hm), h⟩
    · exact ⟨ce, List.mem_append.mpr (Or.inr hm), h⟩

theorem clientMapsTo_cons {a : ClientEntry} {l : List ClientEntry} {q v : Nat} :
    clientMapsTo (a :: l) q v ↔
      (a.seq ≤ q ∧ q < a.seqEnd ∧ a.version + (q - a.seq) = v) ∨ clientMapsTo l q v := by
  unfold clientMapsTo
  constructor
  · rintro ⟨ce, hm, h⟩
    rcases List.mem_cons.mp hm with rfl | hm
    · exact Or.inl h
    · exact Or.inr ⟨ce, hm, h⟩
  · rintro (h | ⟨ce, hm, h⟩)
    · exact ⟨a, List.mem_cons_self a l, h⟩
    · exact ⟨ce, List.mem_cons_of_mem a hm, h⟩

/-- Merging on the right leaves the left-merge test unchanged (it only
looks at `seq` and `version` of its second argument). -/
theorem canAppend_appendClient_left (a m x : ClientEntry) :
    canAppendClientEntry a (appendClientEntry m x) = canAppendClientEntry a m := rfl

set_option maxHeartbeats 1600000 in
/-- Characterisation of `insertClientRLEList` under the preconditions `add`
establishes (the new span is non-empty, disjoint from every existing run,
and its version is past every LV the list mentions): ordering, maximal
merging and non-emptiness are preserved, and the denoted seq↦LV mapping
grows by exactly the new span. -/
theorem insertClientRLEList_spec {l : List ClientEntry} {x : ClientEntry}
    (ho : clientListOrdered l = true)
    (hmax : maxMergedClients l = true)
    (hbound : ∀ ce ∈ l, ce.version + (ce.seqEnd - ce.seq) ≤ x.version)
    (hne : x.seq < x.seqEnd)
    (hdisj : ∀ ce ∈ l, ce.seqEnd ≤ x.seq ∨ x.seqEnd ≤ ce.seq) :
    clientListOrdered (insertClientRLEList l x) = true ∧
    maxMergedClients (insertClientRLEList l x) = true ∧
    insertClientRLEList l x ≠ [] ∧
    (∀ q v, clientMapsTo (insertClientRLEList l x) q v ↔
      (clientMapsTo l q v ∨
        (x.seq ≤ q ∧ q < x.seqEnd ∧ x.version + (q - x.seq) = v))) := by
  unfold insertClientRLEList
  rcases hlast : l.getLast? with _ | last
  · -- the list was empty
    have hnil : l = [] := List.getLast?_eq_none_iff.mp hlast
    subst hnil
    simp only [hlast]
    refine ⟨?_, by simp [maxMergedClients], by simp, ?_⟩
    · simp only [clientListOrdered, decide_eq_true_eq]
      exact hne
    · intro q v
      rw [clientMapsTo_cons]
      constructor
      · rintro (h | h)
        · exact Or.inr h
        · exact absurd h clientMapsTo_nil
      · rintro (h | h)
        · exact absurd h clientMapsTo_nil
        · exact Or.inl h
  · -- the list ends with `last`
    simp only [hlast]
    have hrepr0 : l = l.dropLast ++ [last] := dropLast_concat_of_getLast? hlast
    have hlmem : last ∈ l := by rw [hrepr0]; simp
    obtain ⟨hs, hneS⟩ := clientListOrdered_spans ho
    by_cases hge : x.seq ≥ last.seq
    · -- push at the end
      rw [if_pos hge]
      have hEnd : last.seqEnd ≤ x.seq := by
        rcases hdisj last hlmem with h | h
        · exact h
        · omega
      unfold pushRLEList
      simp only [hlast]
      have hoI : clientListOrdered (l.dropLast ++ [last]) = true := by
        rw [← hrepr0]; exact ho
      obtain ⟨hoT, hoL, hoB⟩ := clientListOrdered_append.mp hoI
      have hmaxI : maxMergedClients (l.dropLast ++ [last]) = true := by
        rw [← hrepr0]; exact hmax
      obtain ⟨hmaxT, -, hmaxB⟩ := maxMergedClients_append.mp hmaxI
      have hlastne : last.seq < last.seqEnd := by
        simpa [clientListOrdered] using hoL
      by_cases hcan : canAppendClientEntry last x = true
      · rw [if_pos hcan]
        simp only [canAppendClientEntry, Bool.and_eq_true, decide_eq_true_eq] at hcan
        obtain ⟨hc1, hc2⟩ := hcan
        refine ⟨?_, ?_, by simp, ?_⟩
        · rw [clientListOrdered_append]
          refine ⟨hoT, ?_, ?_⟩
          · simp only [clientListOrdered, appendClientEntry, decide_eq_true_eq]
            omega
          · intro a ha b hb
            simp only [List.head?_cons, Option.mem_def, Option.some.injEq] at hb
            subst hb
            simp only [appendClientEntry]
            exact hoB a ha last (by simp)
        · rw [maxMergedClients_append]
          refine ⟨hmaxT, by simp [maxMergedClients], ?_⟩
          intro a ha b hb
          simp only [List.head?_cons, Option.mem_def, Option.some.injEq] at hb
          subst hb
          rw [canAppend_appendClient_left]
          exact hmaxB a ha last (by simp)
        · intro q v
          rw [clientMapsTo_append, clientMapsTo_cons]
          conv_rhs => rw [hrepr0, clientMapsTo_append, clientMapsTo_cons]
          have hy : ((appendClientEntry last x).seq ≤ q ∧
              q < (appendClientEntry last x).seqEnd ∧
              (appendClientEntry last x).version +
                (q - (appendClientEntry last x).seq) = v) ↔
              ((last.seq ≤ q ∧ q < last.seqEnd ∧ last.version + (q - last.seq) = v) ∨
                (x.seq ≤ q ∧ q < x.seqEnd ∧ x.version + (q - x.seq) = v)) := by
            simp only [appendClientEntry]
            omega
          rw [hy]
          tauto
      · rw [if_neg hcan]
        refine ⟨?_, ?_, by simp, ?_⟩
        · rw [clientListOrdered_append]
          refine ⟨ho, ?_, ?_⟩
          · simp only [clientListOrdered, decide_eq_true_eq]
            exact hne
          · intro a ha b hb
            simp only [List.head?_cons, Option.mem_def, Option.some.injEq] at hb
            subst hb
            rw [hlast, Option.mem_def, Option.some.injEq] at ha
            subst ha
            exact hEnd
        · rw [maxMergedClients_append]
          refine ⟨hmax, by simp [maxMergedClients], ?_⟩
          intro a ha b hb
          simp only [List.head?_cons, Option.mem_def, Option.some.injEq] at hb
          subst hb
          rw [hlast, Option.mem_def, Option.some.injEq] at ha
          subst ha
          exact Bool.eq_false_iff.mpr hcan
        · intro q v
          rw [clientMapsTo_append, clientMapsTo_cons]
          constructor
          · rintro (h | h | h)
            · exact Or.inl h
            · exact Or.inr h
            · exact absurd h clientMapsTo_nil
          · rintro (h | h)
            · exact Or.inl h
            · exact Or.inr (Or.inl h)
    · -- interior insert
      rw [if_neg hge]
      rcases hr : bsearch l (fun e =>
          if x.seq < e.seq then 1 else if x.seq ≥ e.seqEnd then -1 else 0) with i | i
      · -- an in-range hit contradicts disjointness
        exfalso
        obtain ⟨hilen, hiz⟩ := bsearch_eq_ofNat hr
        rcases hdisj _ (getD_mem hilen) with h | h
        · by_cases c1 : x.seq < (l.getD i default).seq
          · rw [if_pos c1] at hiz; omega
          · rw [if_neg c1] at hiz
            by_cases c2 : x.seq ≥ (l.getD i default).seqEnd
            · rw [if_pos c2] at hiz; omega
            · omega
        · by_cases c1 : x.seq < (l.getD i default).seq
          · rw [if_pos c1] at hiz; omega
          · rw [if_neg c1] at hiz
            by_cases c2 : x.seq ≥ (l.getD i default).seqEnd
            · rw [if_pos c2] at hiz; omega
            · omega
      · -- insertion point `i`
        have hneg : bsearch l (fun e =>
            if x.seq < e.seq then 1 else if x.seq ≥ e.seqEnd then -1 else 0) =
            -(i : Int) - 1 := by
          rw [hr, Int.negSucc_eq]; ring
        obtain ⟨hklen, hB1, hB2p⟩ :=
          bsearch_neg_bracket ClientEntry.seq ClientEntry.seqEnd hs hneS hneg
        rw [if_neg (show ¬ (Int.negSucc i ≥ 0) by rw [Int.negSucc_eq]; omega)]
        have hidx : (-(Int.negSucc i) - 1).toNat = i := by
          rw [Int.neg_negSucc]; omega
        rw [hidx]
        obtain ⟨hlen_pos, hlastD⟩ := getD_eq_of_getLast? hlast
        have hxlt : x.seq < last.seq := by omega
        have hklt : i < l.length := by
          by_contra hc
          have h1 := hB1 (l.length - 1) (by omega)
          rw [hlastD] at h1
          have h2 := hneS (l.length - 1) (by omega)
          rw [hlastD] at h2
          omega
        have hB2 : ∀ j, i ≤ j → j < l.length → x.seqEnd ≤ (l.getD j default).seq := by
          intro j h1 h2
          have hgt := hB2p j h1 h2
          rcases hdisj _ (getD_mem h2) with h | h
          · have := hneS j h2
            omega
          · exact h
        by_cases hbr1 : 0 < i ∧ canAppendClientEntry (l.getD (i - 1) default) x = true
        · -- merge into the left neighbour
          rw [if_pos hbr1]
          obtain ⟨hipos, hcan⟩ := hbr1
          have hmlt : i - 1 < l.length := by omega
          have hii : i - 1 + 1 = i := by omega
          have hmget : l.getD (i - 1) default = l[i - 1] := by
            simp only [List.getD_eq_getElem?_getD, List.getElem?_eq_getElem hmlt,
              Option.getD_some]
          have hdropm : l.drop (i - 1) = l.getD (i - 1) default :: l.drop i := by
            rw [List.drop_eq_getElem_cons hmlt, hii, hmget]
          have hrepr : l = l.take (i - 1) ++ l.getD (i - 1) default :: l.drop i := by
            conv_lhs => rw [← List.take_append_drop (i - 1) l]
            rw [hdropm]
          have hset : l.set (i - 1) (appendClientEntry (l.getD (i - 1) default) x) =
              l.take (i - 1) ++ appendClientEntry (l.getD (i - 1) default) x ::
                l.drop i := by
            rw [List.set_eq_take_cons_drop _ hmlt, hii]
          rw [hset]
          have hoI : clientListOrdered
              (l.take (i - 1) ++ l.getD (i - 1) default :: l.drop i) = true := by
            rw [← hrepr]; exact ho
          obtain ⟨hoT, hoMD, hoB⟩ := clientListOrdered_append.mp hoI
          obtain ⟨hmne, hoD, hmDb⟩ := clientListOrdered_cons_iff.mp hoMD
          have hmaxI : maxMergedClients
              (l.take (i - 1) ++ l.getD (i - 1) default :: l.drop i) = true := by
            rw [← hrepr]; exact hmax
          obtain ⟨hmaxT, hmaxMD, hmaxB⟩ := maxMergedClients_append.mp hmaxI
          obtain ⟨hmaxD, hmDcan⟩ := maxMergedClients_cons_iff.mp hmaxMD
          simp only [canAppendClientEntry, Bool.and_eq_true, decide_eq_true_eq] at hcan
          obtain ⟨hc1, hc2⟩ := hcan
          refine ⟨?_, ?_, by simp, ?_⟩
          · rw [clientListOrdered_append, clientListOrdered_cons_iff]
            refine ⟨hoT, ⟨?_, hoD, ?_⟩, ?_⟩
            · simp only [appendClientEntry]
              omega
            · intro b hb
              obtain ⟨hlt2, hgd⟩ := mem_head?_drop hb
              have := hB2 i le_rfl hlt2
              rw [hgd] at this
              simp only [appendClientEntry]
              exact this
            · intro a ha b hb
              simp only [List.head?_cons, Option.mem_def, Option.some.injEq] at hb
              subst hb
              simp only [appendClientEntry]
              exact hoB a ha _ (by simp)
          · rw [maxMergedClients_append, maxMergedClients_cons_iff]
            refine ⟨hmaxT, ⟨hmaxD, ?_⟩, ?_⟩
            · intro b hb
              obtain ⟨hlt2, hgd⟩ := mem_head?_drop hb
              rw [Bool.eq_false_iff]
              intro hca
              simp only [canAppendClientEntry, appendClientEntry, Bool.and_eq_true,
                decide_eq_true_eq] at hca
              have hbb := hbound b (by rw [← hgd]; exact getD_mem hlt2)
              have hnn := hneS i hlt2
              rw [hgd] at hnn
              omega
            · intro a ha b hb
              simp only [List.head?_cons, Option.mem_def, Option.some.injEq] at hb
              subst hb
              rw [canAppend_appendClient_left]
              exact hmaxB a ha _ (by simp)
          · intro q v
            rw [clientMapsTo_append, clientMapsTo_cons]
            conv_rhs => rw [hrepr, clientMapsTo_append, clientMapsTo_cons]
            have hy : ((appendClientEntry (l.getD (i - 1) default) x).seq ≤ q ∧
                q < (appendClientEntry (l.getD (i - 1) default) x).seqEnd ∧
                (appendClientEntry (l.getD (i - 1) default) x).version +
                  (q - (appendClientEntry (l.getD (i - 1) default) x).seq) = v) ↔
                (((l.getD (i - 1) default).seq ≤ q ∧
                    q < (l.getD (i - 1) default).seqEnd ∧
                    (l.getD (i - 1) default).version +
                      (q - (l.getD (i - 1) default).seq) = v) ∨
                  (x.seq ≤ q ∧ q < x.seqEnd ∧ x.version + (q - x.seq) = v)) := by
              simp only [appendClientEntry]
              omega
            rw [hy]
            tauto
        · rw [if_neg hbr1]
          have hno2 : ¬ (i < l.length - 1 ∧
              canAppendClientEntry x (l.getD i default) = true) := by
            rintro ⟨-, hca⟩
            simp only [canAppendClientEntry, Bool.and_eq_true, decide_eq_true_eq] at hca
            have hb := hbound _ (getD_mem hklt)
            have hnei := hneS i hklt
            omega
          rw [if_neg hno2]
          -- splice
          have hoI : clientListOrdered (l.take i ++ l.drop i) = true := by
            rw [List.take_append_drop]; exact ho
          obtain ⟨hoT, hoD, hoB⟩ := clientListOrdered_append.mp hoI
          have hmaxI : maxMergedClients (l.take i ++ l.drop i) = true := by
            rw [List.take_append_drop]; exact hmax
          obtain ⟨hmaxT, hmaxD, hmaxB⟩ := maxMergedClients_append.mp hmaxI
          have hTlast : ∀ a ∈ (l.take i).getLast?, a = l.getD (i - 1) default ∧ 0 < i := by
            intro a ha
            have hipos : 0 < i := by
              by_contra h0
              have hz : i = 0 := by omega
              subst hz
              simp at ha
            rw [getLast?_take_eq hipos (by omega), Option.mem_def, Option.some.injEq] at ha
            exact ⟨ha.symm, hipos⟩
          refine ⟨?_, ?_, by simp, ?_⟩
          · rw [clientListOrdered_append, clientListOrdered_cons_iff]
            refine ⟨hoT, ⟨hne, hoD, ?_⟩, ?_⟩
            · intro b hb
              obtain ⟨hlt2, hgd⟩ := mem_head?_drop hb
              have := hB2 i le_rfl hlt2
              rw [hgd] at this
              exact this
            · intro a ha b hb
              simp only [List.head?_cons, Option.mem_def, Option.some.injEq] at hb
              subst hb
              obtain ⟨haeq, hipos⟩ := hTlast a ha
              subst haeq
              exact hB1 (i - 1) (by omega)
          · rw [maxMergedClients_append, maxMergedClients_cons_iff]
            refine ⟨hmaxT, ⟨hmaxD, ?_⟩, ?_⟩
            · intro b hb
              obtain ⟨hlt2, hgd⟩ := mem_head?_drop hb
              rw [Bool.eq_false_iff]
              intro hca
              simp only [canAppendClientEntry, Bool.and_eq_true, decide_eq_true_eq] at hca
              have hbb := hbound b (by rw [← hgd]; exact getD_mem hlt2)
              have hnn := hneS i hlt2
              rw [hgd] at hnn
              omega
            · intro a ha b hb
              simp only [List.head?_cons, Option.mem_def, Option.some.injEq] at hb
              subst hb
              obtain ⟨haeq, hipos⟩ := hTlast a ha
              subst haeq
              rw [Bool.eq_false_iff]
              intro hca
              exact hbr1 ⟨hipos, hca⟩
          · intro q v
            rw [clientMapsTo_append, clientMapsTo_cons]
            conv_rhs => rw [← List.take_append_drop i l]
            conv_rhs => rw [clientMapsTo_append]
            tauto

/-! #### The entries side of `add`: pushing a new CG entry -/

theorem entryMapsTo_nil {v : Nat} {a : String} {q : Nat} : ¬ entryMapsTo [] v a q := by
  rintro ⟨e, hm, -⟩
  exact absurd hm (List.not_mem_nil e)

theorem entryMapsTo_append {l1 l2 : List CGEntry} {v : Nat} {a : String} {q : Nat} :
    entryMapsTo (l1 ++ l2) v a q ↔ entryMapsTo l1 v a q ∨ entryMapsTo l2 v a q := by
  unfold entryMapsTo
  constructor
  · rintro ⟨e, hm, h⟩
    rcases List.mem_append.mp hm with hm | hm
    · exact Or.inl ⟨e, hm, h⟩
    · exact Or.inr ⟨e, hm, h⟩
  · rintro (⟨e, hm, h⟩ | ⟨e, hm, h⟩)
    · exact ⟨e, List.mem_append.mpr (Or.inl hm), h⟩
    · exact ⟨e, List.mem_append.mpr (Or.inr hm), h⟩

theorem entryMapsTo_cons {e : CGEntry} {l : List CGEntry} {v : Nat} {a : String} {q : Nat} :
    entryMapsTo (e :: l) v a q ↔
      (e.version ≤ v ∧ v < e.vEnd ∧ e.agent = a ∧ e.seq + (v - e.version) = q) ∨
        entryMapsTo l v a q := by
  unfold entryMapsTo
  constructor
  · rintro ⟨ce, hm, h⟩
    rcases List.mem_cons.mp hm with rfl | hm
    · exact Or.inl h
    · exact Or.inr ⟨ce, hm, h⟩
  · rintro (h | ⟨ce, hm, h⟩)
    · exact ⟨e, List.mem_cons_self e l, h⟩
    · exact ⟨ce, List.mem_cons_of_mem e hm, h⟩

/-- Merging on the right leaves the left-merge test for CG entries
unchanged (it only looks at `version`, `agent`, `seq` and `parents` of its
second argument, never `vEnd`). -/
theorem canAppend_appendEntries_left (a m x : CGEntry) :
    canAppendEntries a (appendEntries m x) = canAppendEntries a m := rfl

/-- Advancing a frontier by a run `[?, w]` and then by the continuation run
`(w, w2]` (whose only parent is `w`) is the same as advancing by the merged
run directly. -/
theorem advanceFrontier_merge {A : List Nat} {w w2 : Nat} {P : List Nat}
    (hA : ∀ v ∈ A, v < w) (hsA : A.Sorted (· ≤ ·)) (hnA : A.Nodup) (hw : w < w2) :
    advanceFrontier (advanceFrontier A w P) w2 [w] = advanceFrontier A w2 P := by
  have hn1 : (advanceFrontier A w P).Nodup :=
    advanceFrontier_nodup P hnA (fun h => by have := hA w h; omega)
  refine List.eq_of_perm_of_sorted ?_ (advanceFrontier_sorted _ _ _)
    (advanceFrontier_sorted _ _ _)
  refine (List.perm_ext_iff_of_nodup ?_ ?_).mpr ?_
  · refine advanceFrontier_nodup _ hn1 ?_
    intro hmem
    rcases advanceFrontier_mem.mp hmem with ⟨hvA, -⟩ | heq
    · have := hA w2 hvA; omega
    · omega
  · refine advanceFrontier_nodup _ hnA ?_
    intro hmem
    have := hA w2 hmem; omega
  · intro v
    rw [advanceFrontier_mem, advanceFrontier_mem, advanceFrontier_mem]
    constructor
    · rintro (⟨(⟨hvA, hvP⟩ | rfl), hvw⟩ | rfl)
      · exact Or.inl ⟨hvA, hvP⟩
      · exact absurd (List.mem_singleton_self _) hvw
      · exact Or.inr rfl
    · rintro (⟨hvA, hvP⟩ | rfl)
      · refine Or.inl ⟨Or.inl ⟨hvA, hvP⟩, ?_⟩
        intro hmem
        rw [List.mem_singleton] at hmem
        have := hA v hvA
        omega
      · exact Or.inr rfl

set_option maxHeartbeats 1000000 in
/-- Characterisation of the entries half of `add`: pushing a fresh entry
that starts at the current end preserves the chain and maximal-merging
invariants, moves the end to `e.vEnd`, extends the LV↦(agent, seq) mapping
by exactly the run of `e`, and advances the recomputed frontier by
`(e.vEnd - 1, e.parents)` — whether or not the push merges with the last
run. -/
theorem pushRLEList_entries_spec {es : List CGEntry} {e : CGEntry}
    (hch : entriesChainedFrom 0 es = true)
    (hmax : maxMergedEntries es = true)
    (hv : e.version = entriesEndFrom 0 es)
    (hne : e.version < e.vEnd)
    (hp : ∀ p ∈ e.parents, p < e.version) :
    entriesChainedFrom 0 (pushRLEList es e canAppendEntries appendEntries) = true ∧
    maxMergedEntries (pushRLEList es e canAppendEntries appendEntries) = true ∧
    entriesEndFrom 0 (pushRLEList es e canAppendEntries appendEntries) = e.vEnd ∧
    (∀ v a q, entryMapsTo (pushRLEList es e canAppendEntries appendEntries) v a q ↔
      (entryMapsTo es v a q ∨
        (e.version ≤ v ∧ v < e.vEnd ∧ e.agent = a ∧ e.seq + (v - e.version) = q))) ∧
    entriesFoldHeads (pushRLEList es e canAppendEntries appendEntries) =
      advanceFrontier (entriesFoldHeads es) (e.vEnd - 1) e.parents := by
  unfold pushRLEList
  rcases hlast : es.getLast? with _ | last
  · have hnil : es = [] := List.getLast?_eq_none_iff.mp hlast
    subst hnil
    simp only [hlast]
    rw [show entriesEndFrom 0 ([] : List CGEntry) = 0 from rfl] at hv
    refine ⟨entriesChainedFrom_cons_intro hv hne hp rfl, rfl, rfl, ?_, rfl⟩
    intro v a q
    rw [entryMapsTo_cons]
    constructor
    · rintro (h | h)
      · exact Or.inr h
      · exact absurd h entryMapsTo_nil
    · rintro (h | h)
      · exact absurd h entryMapsTo_nil
      · exact Or.inl h
  · simp only [hlast]
    have hrepr0 : es = es.dropLast ++ [last] := dropLast_concat_of_getLast? hlast
    have hchI : entriesChainedFrom 0 (es.dropLast ++ [last]) = true := by
      rw [← hrepr0]; exact hch
    obtain ⟨hchT, hlv, hlne, hlp⟩ := chained_append_iff.mp hchI
    have hmaxI : maxMergedEntries (es.dropLast ++ [last]) = true := by
      rw [← hrepr0]; exact hmax
    obtain ⟨hmaxT, -, hmaxB⟩ := maxMergedEntries_append.mp hmaxI
    have hend : entriesEndFrom 0 es = last.vEnd := by
      unfold entriesEndFrom
      rw [hlast]
    rw [hend] at hv
    by_cases hcan : canAppendEntries last e = true
    · rw [if_pos hcan]
      simp only [canAppendEntries, Bool.and_eq_true, decide_eq_true_eq] at hcan
      obtain ⟨⟨⟨hc1, hc2⟩, hc3⟩, hc4⟩ := hcan
      refine ⟨?_, ?_, ?_, ?_, ?_⟩
      · rw [chained_append_iff]
        refine ⟨hchT, ?_, ?_, ?_⟩
        · simp only [appendEntries]
          exact hlv
        · simp only [appendEntries]
          omega
        · simp only [appendEntries]
          exact hlp
      · rw [maxMergedEntries_append]
        refine ⟨hmaxT, by simp [maxMergedEntries], ?_⟩
        intro a ha b hb
        simp only [List.head?_cons, Option.mem_def, Option.some.injEq] at hb
        subst hb
        rw [canAppend_appendEntries_left]
        exact hmaxB a ha last (by simp)
      · rw [entriesEndFrom_append]
        rfl
      · intro v a q
        rw [entryMapsTo_append, entryMapsTo_cons]
        conv_rhs => rw [hrepr0, entryMapsTo_append, entryMapsTo_cons]
        have hy : ((appendEntries last e).version ≤ v ∧ v < (appendEntries last e).vEnd ∧
            (appendEntries last e).agent = a ∧
            (appendEntries last e).seq + (v - (appendEntries last e).version) = q) ↔
            ((last.version ≤ v ∧ v < last.vEnd ∧ last.agent = a ∧
                last.seq + (v - last.version) = q) ∨
              (e.version ≤ v ∧ v < e.vEnd ∧ e.agent = a ∧
                e.seq + (v - e.version) = q)) := by
          simp only [appendEntries]
          constructor
          · rintro ⟨h1, h2, h3, h4⟩
            by_cases hvl : v < last.vEnd
            · exact Or.inl ⟨h1, hvl, h3, h4⟩
            · exact Or.inr ⟨by omega, h2, by rw [← hc2]; exact h3, by omega⟩
          · rintro (⟨h1, h2, h3, h4⟩ | ⟨h1, h2, h3, h4⟩)
            · exact ⟨h1, by omega, h3, h4⟩
            · exact ⟨by omega, h2, by rw [hc2]; exact h3, by omega⟩
        rw [hy]
        tauto
      · rw [entriesFoldHeads_append]
        conv_rhs => rw [hrepr0, entriesFoldHeads_append]
        simp only [appendEntries]
        have hAlt : ∀ v ∈ entriesFoldHeads es.dropLast, v < last.vEnd - 1 := by
          intro v hv2
          have := foldHeads_go_lt 0 [] hchT (by simp) v hv2
          rw [← hlv] at this
          omega
        obtain ⟨hsA, hnA⟩ := foldHeads_go_sorted_nodup 0 [] hchT (by simp)
          (List.sorted_nil) (List.nodup_nil)
        rw [hc4]
        exact (advanceFrontier_merge hAlt hsA hnA (by omega)).symm
    · rw [if_neg hcan]
      refine ⟨?_, ?_, ?_, ?_, ?_⟩
      · exact chained_append_iff.mpr ⟨hch, by rw [hend]; exact hv, hne, hp⟩
      · rw [maxMergedEntries_append]
        refine ⟨hmax, by simp [maxMergedEntries], ?_⟩
        intro a ha b hb
        simp only [List.head?_cons, Option.mem_def, Option.some.injEq] at hb
        subst hb
        rw [hlast, Option.mem_def, Option.some.injEq] at ha
        subst ha
        exact Bool.eq_false_iff.mpr hcan
      · rw [entriesEndFrom_append]
      · intro v a q
        rw [entryMapsTo_append, entryMapsTo_cons]
        constructor
        · rintro (h | h | h)
          · exact Or.inl h
          · exact Or.inr h
          · exact absurd h entryMapsTo_nil
        · rintro (h | h)
          · exact Or.inl h
          · exact Or.inr (Or.inl h)
      · rw [entriesFoldHeads_append]

/-! #### `avUpdate`: the agent-index update performed by `add` -/

theorem avUpdate_eq_append {av : List (String × List ClientEntry)} {agent : String}
    {ce : ClientEntry} (h : av.find? (fun p => p.1 = agent) = none) :
    avUpdate av agent ce = av ++ [(agent, insertClientRLEList [] ce)] := by
  unfold avUpdate
  rw [h]

theorem avUpdate_eq_map {av : List (String × List ClientEntry)} {agent : String}
    {ce : ClientEntry} {p0 : String × List ClientEntry}
    (h : av.find? (fun p => p.1 = agent) = some p0) :
    avUpdate av agent ce =
      av.map (fun p => if p.1 = agent then (p.1, insertClientRLEList p.2 ce) else p) := by
  unfold avUpdate
  rw [h]

/-- In an association list with distinct keys, a member is what `find?` on
its key returns. -/
theorem assoc_find_of_mem_nodup {av : List (String × List ClientEntry)}
    (hnodup : (av.map Prod.fst).Nodup) {p : String × List ClientEntry}
    (hmem : p ∈ av) : av.find? (fun q => q.1 = p.1) = some p := by
  induction av with
  | nil => exact absurd hmem (List.not_mem_nil p)
  | cons a rest ih =>
    rw [List.map_cons, List.nodup_cons] at hnodup
    rcases List.mem_cons.mp hmem with rfl | hmem2
    · rw [List.find?_cons_of_pos _ (by simp)]
    · rw [List.find?_cons_of_neg, ih hnodup.2 hmem2]
      simp only [decide_eq_true_eq]
      intro heq
      exact hnodup.1 (heq ▸ List.mem_map_of_mem Prod.fst hmem2)

theorem avUpdate_find_self {av : List (String × List ClientEntry)} {agent : String}
    {ce : ClientEntry} :
    (avUpdate av agent ce).find? (fun p => p.1 = agent) =
      some (agent, insertClientRLEList
        (((av.find? (fun p => p.1 = agent)).map Prod.snd).getD []) ce) := by
  rcases hf : av.find? (fun p => p.1 = agent) with _ | p
  · rw [avUpdate_eq_append hf, List.find?_append, hf]
    simp
  · rw [avUpdate_eq_map hf, List.find?_map]
    have hp : p.1 = agent := by simpa using List.find?_some hf
    have hpred : ((fun q : String × List ClientEntry => decide (q.1 = agent)) ∘
        (fun q => if q.1 = agent then (q.1, insertClientRLEList q.2 ce) else q)) =
        (fun q : String × List ClientEntry => decide (q.1 = agent)) := by
      funext q
      by_cases h : q.1 = agent <;> simp [h]
    rw [hpred, hf]
    simp only [Option.map_some']
    rw [if_pos hp, hp]
    rfl

theorem avUpdate_find_other {av : List (String × List ClientEntry)} {agent b : String}
    {ce : ClientEntry} (hb : b ≠ agent) :
    (avUpdate av agent ce).find? (fun p => p.1 = b) = av.find? (fun p => p.1 = b) := by
  rcases hf : av.find? (fun p => p.1 = agent) with _ | p
  · rw [avUpdate_eq_append hf, List.find?_append]
    have h2 : ([(agent, insertClientRLEList [] ce)].find?
        (fun p => p.1 = b)) = none := by
      rw [List.find?_cons_of_neg _
        (by simp only [decide_eq_true_eq]; intro heq; exact hb heq.symm)]
      rfl
    rw [h2]
    exact Option.or_none
  · rw [avUpdate_eq_map hf, List.find?_map]
    have hpred : ((fun q : String × List ClientEntry => decide (q.1 = b)) ∘
        (fun q => if q.1 = agent then (q.1, insertClientRLEList q.2 ce) else q)) =
        (fun q : String × List ClientEntry => decide (q.1 = b)) := by
      funext q
      by_cases h : q.1 = agent <;> simp [h]
    rw [hpred]
    rcases hg : av.find? (fun q => q.1 = b) with _ | q
    · rw [hg]
      rfl
    · have hq : q.1 = b := by simpa using List.find?_some hg
      rw [hg]
      simp only [Option.map_some']
      rw [if_neg (by rw [hq]; exact hb)]

theorem avUpdate_keys_nodup {av : List (String × List ClientEntry)} {agent : String}
    {ce : ClientEntry} (hnodup : (av.map Prod.fst).Nodup) :
    ((avUpdate av agent ce).map Prod.fst).Nodup := by
  rcases hf : av.find? (fun p => p.1 = agent) with _ | p
  · rw [avUpdate_eq_append hf, List.map_append]
    refine List.Nodup.append hnodup (List.nodup_singleton _) ?_
    intro a ha hb
    simp only [List.map_cons, List.map_nil, List.mem_singleton] at hb
    subst hb
    obtain ⟨q, hqmem, hq1⟩ := List.mem_map.mp ha
    have := List.find?_eq_none.mp hf q hqmem
    simp only [decide_eq_true_eq] at this
    exact this hq1
  · rw [avUpdate_eq_map hf]
    have hkeys : (av.map (fun p => if p.1 = agent then
        (p.1, insertClientRLEList p.2 ce) else p)).map Prod.fst = av.map Prod.fst := by
      rw [List.map_map]
      refine List.map_congr_left ?_
      intro q _
      by_cases h : q.1 = agent <;> simp [h]
    rw [hkeys]
    exact hnodup

/-- Membership in the updated agent index: every member is either an
untouched old pair (with a different key), or the updated pair of the
given agent. -/
theorem avUpdate_mem {av : List (String × List ClientEntry)} {agent : String}
    {ce : ClientEntry} (hnodup : (av.map Prod.fst).Nodup)
    {p2 : String × List ClientEntry} (h : p2 ∈ avUpdate av agent ce) :
    (p2 ∈ av ∧ p2.1 ≠ agent) ∨
      p2 = (agent, insertClientRLEList
        (((av.find? (fun p => p.1 = agent)).map Prod.snd).getD []) ce) := by
  rcases hf : av.find? (fun p => p.1 = agent) with _ | p
  · rw [avUpdate_eq_append hf] at h
    rcases List.mem_append.mp h with h2 | h2
    · refine Or.inl ⟨h2, ?_⟩
      intro heq
      have := List.find?_eq_none.mp hf p2 h2
      simp only [decide_eq_true_eq] at this
      exact this heq
    · rw [List.mem_singleton] at h2
      refine Or.inr ?_
      rw [h2, hf]
      rfl
  · rw [avUpdate_eq_map hf] at h
    obtain ⟨q, hqmem, hq⟩ := List.mem_map.mp h
    by_cases hqa : q.1 = agent
    · refine Or.inr ?_
      rw [if_pos hqa] at hq
      have hqp : q = p := by
        have := assoc_find_of_mem_nodup hnodup hqmem
        rw [hqa] at this
        rw [this] at hf
        injection hf
      rw [← hq, hqp, hf]
      have hp2 : p.1 = agent := by rw [← hqp]; exact hqa
      rw [hp2]
      rfl
    · rw [if_neg hqa] at hq
      subst hq
      exact Or.inl ⟨hqmem, hqa⟩

/-! #### Bridges between the binary-search lookups and the reference scan -/

theorem agentEntries_some_avListOf {cg : CausalGraph} {agent : String}
    {av : List ClientEntry} (h : agentEntries cg agent = some av) :
    avListOf cg agent = av := by
  unfold agentEntries at h
  unfold avListOf
  rcases hf : cg.agentToVersion.find? (fun p => p.1 = agent) with _ | p
  · rw [hf] at h
    exact absurd h (by simp)
  · rw [hf] at h
    rw [hf]
    simp only [Option.map_some', Option.some.injEq] at h
    simp only [Option.map_some', Option.getD_some]
    exact h

theorem agentEntries_of_avListOf_ne {cg : CausalGraph} {agent : String}
    (h : avListOf cg agent ≠ []) :
    agentEntries cg agent = some (avListOf cg agent) := by
  unfold avListOf at h ⊢
  unfold agentEntries
  rcases hf : cg.agentToVersion.find? (fun p => p.1 = agent) with _ | p
  · rw [hf] at h
    simp at h
  · rw [hf]
    rfl

theorem findClientEntryRaw_mem {cg : CausalGraph} {agent : String} {s : Nat}
    {ce : ClientEntry} (h : findClientEntryRaw cg agent s = some ce) :
    ce ∈ avListOf cg agent := by
  unfold findClientEntryRaw at h
  rcases hav : agentEntries cg agent with _ | av
  · rw [hav] at h
    exact absurd h (by simp)
  · rw [hav] at h
    simp only at h
    set r := bsearch av (fun e =>
      if s < e.seq then 1 else if s ≥ e.seqEnd then -1 else 0) with hr
    by_cases hneg : r < 0
    · rw [if_pos hneg] at h
      exact absurd h (by simp)
    · rw [if_neg hneg] at h
      have hr2 : bsearch av (fun e =>
          if s < e.seq then 1 else if s ≥ e.seqEnd then -1 else 0) =
          ((r.toNat : Nat) : Int) := by
        rw [← hr]; omega
      have hz := bsearch_eq_ofNat hr2
      have hce : av.getD r.toNat default = ce := by injection h
      rw [agentEntries_some_avListOf hav, ← hce]
      exact getD_mem hz.1

/-- A found trimmed client entry is the raw covering entry shortened on the
left: same end, same mapped end-LV. -/
theorem findClientEntryTrimmed_eq {cg : CausalGraph} {agent : String} {s : Nat}
    {ce : ClientEntry} (h : findClientEntryTrimmed cg agent s = some ce) :
    ∃ raw, findClientEntryRaw cg agent s = some raw ∧
      raw.seq ≤ s ∧ s < raw.seqEnd ∧
      ce.seq = s ∧ ce.seqEnd = raw.seqEnd ∧ ce.version = raw.version + (s - raw.seq) := by
  unfold findClientEntryTrimmed findClientEntry at h
  rcases hraw : findClientEntryRaw cg agent s with _ | raw
  · rw [hraw] at h
    exact absurd h (by simp)
  · rw [hraw] at h
    have hb := findClientEntryRaw_bounds hraw
    simp only [Option.map_some'] at h
    by_cases hoff : s - raw.seq = 0
    · rw [if_pos hoff] at h
      cases h
      exact ⟨ce, rfl, hb.1, hb.2, by omega, rfl, by omega⟩
    · rw [if_neg hoff] at h
      cases h
      exact ⟨raw, rfl, hb.1, hb.2, rfl, rfl, rfl⟩

theorem findClientEntryTrimmed_none {cg : CausalGraph} {agent : String} {s : Nat} :
    findClientEntryTrimmed cg agent s = none ↔ findClientEntryRaw cg agent s = none := by
  unfold findClientEntryTrimmed findClientEntry
  rcases hraw : findClientEntryRaw cg agent s with _ | raw
  · simp
  · simp only [Option.map_some']
    by_cases hoff : s - raw.seq = 0
    · rw [if_pos hoff]
    · rw [if_neg hoff]
      simp

/-- On an ordered agent list, `hasVersion` is exactly "some run covers the
seq". -/
theorem hasVersion_iff {cg : CausalGraph} {agent : String} {q : Nat}
    (ho : clientListOrdered (avListOf cg agent) = true) :
    hasVersion cg agent q = true ↔
      ∃ ce ∈ avListOf cg agent, ce.seq ≤ q ∧ q < ce.seqEnd := by
  unfold hasVersion
  constructor
  · intro h
    rw [Option.isSome_iff_exists] at h
    obtain ⟨ce, hce⟩ := h
    exact ⟨ce, findClientEntryRaw_mem hce, findClientEntryRaw_bounds hce⟩
  · rintro ⟨ce, hmem, h1, h2⟩
    have hne : avListOf cg agent ≠ [] := by
      intro hnil
      rw [hnil] at hmem
      exact absurd hmem (List.not_mem_nil ce)
    have hae := agentEntries_of_avListOf_ne hne
    rw [findClientEntryRaw_eq_some hae ho hmem h1 h2]
    rfl

/-- An unknown seq has no covering run in the (scan-based) reference
lookup either. -/
theorem clientLookup_none_of_not_hasVersion {cg : CausalGraph} {agent : String}
    {q : Nat} (ho : clientListOrdered (avListOf cg agent) = true)
    (h : hasVersion cg agent q = false) :
    clientLookup (avListOf cg agent) q = none := by
  unfold clientLookup
  rw [List.find?_eq_none]
  intro ce hmem hp
  simp only [Bool.and_eq_true, decide_eq_true_eq] at hp
  have := (hasVersion_iff ho).mpr ⟨ce, hmem, hp⟩
  rw [h] at this
  exact absurd this (by simp)

/-- Every member of an ordered run list is non-empty. -/
theorem ordered_mem_ne {l : List ClientEntry} (ho : clientListOrdered l = true)
    {ce : ClientEntry} (h : ce ∈ l) : ce.seq < ce.seqEnd := by
  obtain ⟨-, hne⟩ := clientListOrdered_spans ho
  obtain ⟨n, hn⟩ := List.mem_iff_get.mp h
  have := hne (n : Nat) n.isLt
  rw [List.getD_eq_getElem l default n.isLt, ← List.get_eq_getElem, hn] at this
  exact this

/-! #### Facts extracted from `WF` -/

theorem nextLV_eq_entriesEndFrom (cg : CausalGraph) :
    nextLV cg = entriesEndFrom 0 cg.entries := rfl

theorem WF_avListOf {cg : CausalGraph} (hwf : WF cg) (a : String) :
    clientListOrdered (avListOf cg a) = true ∧ maxMergedClients (avListOf cg a) = true := by
  unfold avListOf
  rcases hf : cg.agentToVersion.find? (fun p => p.1 = a) with _ | p
  · rw [hf]
    exact ⟨rfl, rfl⟩
  · rw [hf]
    simp only [Option.map_some', Option.getD_some]
    have := hwf.2.2.1 p (List.mem_of_find?_eq_some hf)
    exact ⟨this.1, this.2.2⟩

theorem WF_client_bound {cg : CausalGraph} (hwf : WF cg) {a : String}
    {ce : ClientEntry} (hmem : ce ∈ avListOf cg a) :
    ce.version + (ce.seqEnd - ce.seq) ≤ nextLV cg := by
  have hagree := hwf.2.2.2.2.2.1
  unfold agreeClientsToEntries at hagree
  rw [List.all_eq_true] at hagree
  obtain ⟨p, hpmem, hp2⟩ : ∃ p ∈ cg.agentToVersion, p.2 = avListOf cg a := by
    unfold avListOf at hmem ⊢
    rcases hf : cg.agentToVersion.find? (fun q => q.1 = a) with _ | p
    · rw [hf] at hmem
      simp at hmem
    · exact ⟨p, List.mem_of_find?_eq_some hf, by rw [hf]; rfl⟩
  have h1 := hagree p hpmem
  rw [List.all_eq_true] at h1
  have h2 := h1 ce (by rw [hp2]; exact hmem)
  rw [List.all_eq_true] at h2
  have hnel : ce.seq < ce.seqEnd := ordered_mem_ne (WF_avListOf hwf a).1 hmem
  have h3 := h2 (ce.seqEnd - ce.seq - 1) (by rw [List.mem_range]; omega)
  rcases hel : entryLookup cg.entries (ce.version + (ce.seqEnd - ce.seq - 1)) with _ | e
  · rw [hel] at h3
    exact absurd h3 (by simp)
  · have hse := entryLookup_sound hel
    have hub := chained_mem_ub hwf.1 e hse.1
    rw [nextLV_eq_entriesEndFrom]
    omega

/-- Invariant 3 (entries → agent index), converted from its executable
form to the mapping form, assuming every agent list is ordered. -/
theorem agreeEC_iff {cg : CausalGraph}
    (ho : ∀ a, clientListOrdered (avListOf cg a) = true) :
    agreeEntriesToClients cg = true ↔
      (∀ v a q, entryMapsTo cg.entries v a q → clientMapsTo (avListOf cg a) q v) := by
  unfold agreeEntriesToClients
  rw [List.all_eq_true]
  constructor
  · rintro h v a q ⟨e, hmem, h1, h2, hag, hq⟩
    have he := h e hmem
    rw [List.all_eq_true] at he
    have hi := he (v - e.version) (by rw [List.mem_range]; omega)
    rcases hcl : clientLookup (avListOf cg e.agent) (e.seq + (v - e.version)) with _ | ce
    · rw [hcl] at hi
      exact absurd hi (by simp)
    · rw [hcl] at hi
      simp only [decide_eq_true_eq] at hi
      obtain ⟨hcm, hc1, hc2⟩ := clientLookup_sound hcl
      rw [hag] at hcm
      refine ⟨ce, hcm, by omega, by omega, by omega⟩
  · intro h e hmem
    rw [List.all_eq_true]
    intro i hi
    rw [List.mem_range] at hi
    have hch := h (e.version + i) e.agent (e.seq + i)
      ⟨e, hmem, by omega, by omega, rfl, by omega⟩
    obtain ⟨ce, hcm, hc1, hc2, hcv⟩ := hch
    rw [clientLookup_complete (ho e.agent) hcm hc1 hc2]
    simp only [decide_eq_true_eq]
    omega

/-- Invariant 3 (agent index → entries), converted from its executable
form to the mapping form, assuming the entries chain and agent keys are
unique. -/
theorem agreeCE_iff {cg : CausalGraph}
    (hch : entriesChainedFrom 0 cg.entries = true)
    (hnodup : (cg.agentToVersion.map Prod.fst).Nodup) :
    agreeClientsToEntries cg = true ↔
      (∀ a q v, clientMapsTo (avListOf cg a) q v → entryMapsTo cg.entries v a q) := by
  unfold agreeClientsToEntries
  rw [List.all_eq_true]
  constructor
  · rintro h a q v ⟨ce, hcm, hc1, hc2, hcv⟩
    obtain ⟨p, hf⟩ : ∃ p, cg.agentToVersion.find? (fun r => r.1 = a) = some p := by
      unfold avListOf at hcm
      rcases hf : cg.agentToVersion.find? (fun r => r.1 = a) with _ | p
      · rw [hf] at hcm
        simp at hcm
      · exact ⟨p, hf⟩
    have hp1 : p.1 = a := by simpa using List.find?_some hf
    have hp2 : avListOf cg a = p.2 := by
      unfold avListOf
      rw [hf]
      rfl
    have hp := h p (List.mem_of_find?_eq_some hf)
    rw [List.all_eq_true] at hp
    have hce := hp ce (by rw [← hp2]; exact hcm)
    rw [List.all_eq_true] at hce
    have hj := hce (q - ce.seq) (by rw [List.mem_range]; omega)
    rcases hel : entryLookup cg.entries (ce.version + (q - ce.seq)) with _ | e
    · rw [hel] at hj
      exact absurd hj (by simp)
    · rw [hel] at hj
      simp only [Bool.and_eq_true, decide_eq_true_eq] at hj
      obtain ⟨hem, he1, he2⟩ := entryLookup_sound hel
      refine ⟨e, hem, by omega, by omega, by rw [hj.1]; exact hp1, by omega⟩
  · intro h p hpmem
    rw [List.all_eq_true]
    intro ce hcemem
    rw [List.all_eq_true]
    intro j hj
    rw [List.mem_range] at hj
    have hfp := assoc_find_of_mem_nodup hnodup hpmem
    have hp2 : avListOf cg p.1 = p.2 := by
      unfold avListOf
      rw [hfp]
      rfl
    have hmt : clientMapsTo (avListOf cg p.1) (ce.seq + j) (ce.version + j) := by
      rw [hp2]
      exact ⟨ce, hcemem, by omega, by omega, by omega⟩
    obtain ⟨e, hem, he1, he2, hag, hq⟩ := h p.1 (ce.seq + j) (ce.version + j) hmt
    rw [entryLookup_complete hch hem he1 he2]
    simp only [Bool.and_eq_true, decide_eq_true_eq]
    exact ⟨hag, by omega⟩

/-! #### The trim loop of `add` -/

theorem addTrimLoopFuel_spec {cg : CausalGraph} {agent : String} (hwf : WF cg) :
    ∀ fuel s0 e ps s1 ps1, s0 < e →
      (∀ p ∈ ps, p < nextLV cg) →
      addTrimLoopFuel cg agent fuel s0 e ps = some (s1, ps1) →
      s0 ≤ s1 ∧ s1 < e ∧ findClientEntryTrimmed cg agent s1 = none ∧
        (∀ p ∈ ps1, p < nextLV cg) := by
  intro fuel
  induction fuel with
  | zero =>
    intro s0 e ps s1 ps1 hlt hps h
    rw [addTrimLoopFuel] at h
    exact absurd h (by simp)
  | succ n ih =>
    intro s0 e ps s1 ps1 hlt hps h
    rw [addTrimLoopFuel] at h
    rcases htr : findClientEntryTrimmed cg agent s0 with _ | ce
    · rw [htr] at h
      simp only [Option.some.injEq, Prod.mk.injEq] at h
      obtain ⟨rfl, rfl⟩ := h
      exact ⟨le_refl _, hlt, htr, hps⟩
    · rw [htr] at h
      simp only at h
      by_cases hend : ce.seqEnd ≥ e
      · rw [if_pos hend] at h
        exact absurd h (by simp)
      · rw [if_neg hend] at h
        obtain ⟨raw, hraw, hr1, hr2, ht1, ht2, ht3⟩ := findClientEntryTrimmed_eq htr
        have hrawmem := findClientEntryRaw_mem hraw
        have hbound := WF_client_bound hwf hrawmem
        have hplt : ce.version + (ce.seqEnd - ce.seq) - 1 < nextLV cg := by omega
        have hnext := ih ce.seqEnd e [ce.version + (ce.seqEnd - ce.seq) - 1] s1 ps1
          (by omega)
          (by intro p hp; rw [List.mem_singleton] at hp; subst hp; exact hplt) h
        exact ⟨by omega, hnext.2.1, hnext.2.2.1, hnext.2.2.2⟩

theorem addTrimLoop_spec {cg : CausalGraph} {agent : String}
    {s0 e : Nat} {ps : List Nat} {s1 : Nat} {ps1 : List Nat} (hwf : WF cg)
    (hlt : s0 < e) (hps : ∀ p ∈ ps, p < nextLV cg)
    (h : addTrimLoop cg agent s0 e ps = some (s1, ps1)) :
    s0 ≤ s1 ∧ s1 < e ∧ findClientEntryTrimmed cg agent s1 = none ∧
      (∀ p ∈ ps1, p < nextLV cg) :=
  addTrimLoopFuel_spec hwf (e - s0 + 1) s0 e ps s1 ps1 hlt hps h

set_option maxHeartbeats 1600000 in
/-- The graph assembled by a successful `add`, described by its three
projections, satisfies all §3 invariants, provided the inserted span is
non-empty, its parents are known LVs, and the whole span is unknown to the
agent index. -/
theorem add_result_WF {cg : CausalGraph} {agent : String} {s e : Nat} {ps : List Nat}
    {cg2 : CausalGraph} (hwf : WF cg) (hse : s < e)
    (hps1 : ∀ p ∈ ps, p < nextLV cg)
    (hunknown : ∀ q, s ≤ q → q < e → hasVersion cg agent q = false)
    (hE : cg2.entries = pushRLEList cg.entries
      ⟨nextLV cg, nextLV cg + (e - s), agent, s, ps⟩ canAppendEntries appendEntries)
    (hH : cg2.heads = advanceFrontier cg.heads (nextLV cg + (e - s) - 1) ps)
    (hA : cg2.agentToVersion = avUpdate cg.agentToVersion agent ⟨s, e, nextLV cg⟩) :
    WF cg2 := by
  have hdisj : ∀ ce ∈ avListOf cg agent, ce.seqEnd ≤ s ∨ e ≤ ce.seq := by
    intro ce hmem
    by_contra hcon
    push_neg at hcon
    have hnece : ce.seq < ce.seqEnd := ordered_mem_ne (WF_avListOf hwf agent).1 hmem
    obtain ⟨q, hq1, hq2, hq3, hq4⟩ :
        ∃ q, s ≤ q ∧ q < e ∧ ce.seq ≤ q ∧ q < ce.seqEnd := by
      by_cases hc : ce.seq ≤ s
      · exact ⟨s, le_refl _, by omega, by omega, by omega⟩
      · exact ⟨ce.seq, by omega, by omega, le_refl _, by omega⟩
    have := (hasVersion_iff (WF_avListOf hwf agent).1).mpr ⟨ce, hmem, hq3, hq4⟩
    rw [hunknown q hq1 hq2] at this
    exact absurd this (by simp)
  obtain ⟨hch2, hmax2, hend2, hmaps2, hheads2⟩ := @pushRLEList_entries_spec
    cg.entries ⟨nextLV cg, nextLV cg + (e - s), agent, s, ps⟩
    hwf.1 hwf.2.1 (nextLV_eq_entriesEndFrom cg)
    (by show nextLV cg < nextLV cg + (e - s); omega)
    (by intro p hp; exact hps1 p hp)
  obtain ⟨hoI, hmaxI, hneI, hmapsI⟩ := @insertClientRLEList_spec
    (avListOf cg agent) ⟨s, e, nextLV cg⟩
    (WF_avListOf hwf agent).1 (WF_avListOf hwf agent).2
    (fun ce hm => WF_client_bound hwf hm) hse hdisj
  have hper : ∀ p ∈ cg2.agentToVersion,
      clientListOrdered p.2 = true ∧ p.2 ≠ [] ∧ maxMergedClients p.2 = true := by
    rw [hA]
    intro p hp
    rcases avUpdate_mem hwf.2.2.2.1 hp with ⟨hpold, -⟩ | hpnew
    · exact hwf.2.2.1 p hpold
    · rw [hpnew]
      exact ⟨hoI, hneI, hmaxI⟩
  have hnodup2 : (cg2.agentToVersion.map Prod.fst).Nodup := by
    rw [hA]
    exact avUpdate_keys_nodup hwf.2.2.2.1
  have havl_self : avListOf cg2 agent =
      insertClientRLEList (avListOf cg agent) ⟨s, e, nextLV cg⟩ := by
    unfold avListOf
    rw [hA, avUpdate_find_self]
    rfl
  have havl_other : ∀ a, a ≠ agent → avListOf cg2 a = avListOf cg a := by
    intro a ha
    unfold avListOf
    rw [hA, avUpdate_find_other ha]
  have hord2 : ∀ a, clientListOrdered (avListOf cg2 a) = true := by
    intro a
    by_cases ha : a = agent
    · subst ha
      rw [havl_self]
      exact hoI
    · rw [havl_other a ha]
      exact (WF_avListOf hwf a).1
  have hchE : entriesChainedFrom 0 cg2.entries = true := by
    rw [hE]
    exact hch2
  refine ⟨hchE, by rw [hE]; exact hmax2, hper, hnodup2, ?_, ?_, ?_⟩
  · rw [agreeEC_iff hord2]
    intro v a q hmt
    rw [hE] at hmt
    rcases (hmaps2 v a q).mp hmt with hold | hnew
    · have hEC := (agreeEC_iff (fun b => (WF_avListOf hwf b).1)).mp hwf.2.2.2.2.1
      have hm2 := hEC v a q hold
      by_cases ha : a = agent
      · subst ha
        rw [havl_self]
        exact (hmapsI q v).mpr (Or.inl hm2)
      · rw [havl_other a ha]
        exact hm2
    · obtain ⟨h1, h2, h3, h4⟩ := hnew
      dsimp only at h1 h2 h3 h4
      have ha : a = agent := h3.symm
      subst ha
      rw [havl_self]
      exact (hmapsI q v).mpr (Or.inr
        ⟨(by omega : s ≤ q), (by omega : q < e), (by omega : nextLV cg + (q - s) = v)⟩)
  · rw [agreeCE_iff hchE hnodup2]
    intro a q v hmt
    have hCE := (agreeCE_iff hwf.1 hwf.2.2.2.1).mp hwf.2.2.2.2.2.1
    rw [hE]
    by_cases ha : a = agent
    · subst ha
      rw [havl_self] at hmt
      rcases (hmapsI q v).mp hmt with hold | ⟨h1, h2, h3⟩
      · exact (hmaps2 v a q).mpr (Or.inl (hCE a q v hold))
      · dsimp only at h1 h2 h3
        exact (hmaps2 v a q).mpr (Or.inr
          ⟨(by omega : nextLV cg ≤ v), (by omega : v < nextLV cg + (e - s)), rfl,
            (by omega : s + (v - nextLV cg) = q)⟩)
    · rw [havl_other a ha] at hmt
      exact (hmaps2 v a q).mpr (Or.inl (hCE a q v hmt))
  · rw [hH, hE, hheads2, hwf.2.2.2.2.2.2]

/-- `add` preserves all §3 invariants when its span is non-empty, its
parents are known LVs, and the span does not straddle a hole of the
agent's known seqs. -/
theorem add_preserves_WF {cg : CausalGraph} {agent : String} {s0 e : Nat}
    {parents : List Nat} (hwf : WF cg)
    (hlt : s0 < e)
    (hps : ∀ p ∈ parents, p < nextLV cg)
    (hok : addSpanOK cg agent s0 e = true) :
    WF (add cg agent s0 e parents).1 := by
  unfold add
  rcases htrim : addTrimLoop cg agent s0 e parents with _ | ⟨s, ps⟩
  · exact hwf
  · obtain ⟨hs0s, hse, htrimnone, hps1⟩ := addTrimLoop_spec hwf hlt hps htrim
    have hvs : hasVersion cg agent s = false := by
      unfold hasVersion
      rw [findClientEntryTrimmed_none.mp htrimnone]
      rfl
    have hunknown : ∀ q, s ≤ q → q < e → hasVersion cg agent q = false := by
      intro q hq1 hq2
      by_cases hqs : q = s
      · subst hqs
        exact hvs
      · rcases hhv : hasVersion cg agent q with _ | _
        · rfl
        · exfalso
          unfold addSpanOK at hok
          rw [List.all_eq_true] at hok
          have hk := hok (q - s0) (by rw [List.mem_range]; omega)
          have hq : s0 + (q - s0) = q := by omega
          rw [hq] at hk
          rw [hhv] at hk
          simp only [Bool.not_true, Bool.false_or] at hk
          rw [List.all_eq_true] at hk
          have hk2 := hk (s - s0) (by rw [List.mem_range]; omega)
          have hq2 : s0 + (s - s0) = s := by omega
          rw [hq2] at hk2
          rw [hvs] at hk2
          exact absurd hk2 (by simp)
    exact add_result_WF hwf hse hps1 hunknown rfl rfl rfl

/-! #### Invariant preservation for the three public mutators -/

theorem WF_createCG : WF createCG := by decide

theorem WF_heads_lt {cg : CausalGraph} (hwf : WF cg) :
    ∀ p ∈ cg.heads, p < nextLV cg := by
  intro p hp
  rw [hwf.2.2.2.2.2.2] at hp
  exact foldHeads_go_lt 0 [] hwf.1 (by simp) p hp

theorem rawToLV_lt {cg : CausalGraph} (hwf : WF cg) {a : String} {s p : Nat}
    (h : rawToLV cg a s = some p) : p < nextLV cg := by
  unfold rawToLV at h
  rcases htr : findClientEntryTrimmed cg a s with _ | tce
  · rw [htr] at h
    exact absurd h (by simp)
  · rw [htr] at h
    simp only [Option.map_some', Option.some.injEq] at h
    obtain ⟨raw, hraw, hr1, hr2, ht1, ht2, ht3⟩ := findClientEntryTrimmed_eq htr
    have hbound := WF_client_bound hwf (findClientEntryRaw_mem hraw)
    omega

theorem rawToLVList_lt {cg : CausalGraph} (hwf : WF cg) :
    ∀ {rp : List (String × Nat)} {lps : List Nat},
      rawToLVList cg rp = some lps → ∀ p ∈ lps, p < nextLV cg := by
  intro rp
  induction rp with
  | nil =>
    intro lps h p hp
    unfold rawToLVList at h
    simp only [List.mapM_nil, pure, Option.some.injEq] at h
    subst h
    exact absurd hp (List.not_mem_nil p)
  | cons a rest ih =>
    intro lps h p hp
    unfold rawToLVList at h ih
    rw [List.mapM_cons] at h
    rcases hfa : rawToLV cg a.1 a.2 with _ | x
    · rw [hfa] at h
      exact absurd h (by simp [Bind.bind])
    · rw [hfa] at h
      rcases hrest : rest.mapM (fun q => rawToLV cg q.1 q.2) with _ | xs
      · rw [hrest] at h
        exact absurd h (by simp [Bind.bind])
      · rw [hrest] at h
        simp only [Bind.bind, Option.some_bind, pure, Option.some.injEq] at h
        subst h
        rcases List.mem_cons.mp hp with rfl | hp2
        · exact rawToLV_lt hwf hfa
        · exact ih hrest p hp2

theorem mergePartialLoop_WF :
    ∀ (data : List PartialSerializedCGEntry) (cg : CausalGraph), WF cg →
      validMergeData cg data = true → WF (mergePartialLoop cg data).1 := by
  intro data
  induction data with
  | nil => intro cg hwf _; exact hwf
  | cons e rest ih =>
    intro cg hwf hv
    rw [mergePartialLoop]
    rw [validMergeData] at hv
    rcases hres : rawToLVList cg e.parents with _ | ps
    · exact hwf
    · rw [hres] at hv
      simp only [Bool.and_eq_true, decide_eq_true_eq] at hv
      exact ih _ (add_preserves_WF hwf (by omega) (rawToLVList_lt hwf hres) hv.1.2) hv.2

theorem applyOp_preserves_WF {cg : CausalGraph} {op : CGOp} (hwf : WF cg)
    (hv : validOp cg op = true) : WF (applyOp cg op) := by
  cases op with
  | opAdd agent s e parents =>
    simp only [validOp, Bool.and_eq_true, decide_eq_true_eq, List.all_eq_true] at hv
    exact add_preserves_WF hwf hv.1.1 (fun p hp => by simpa using hv.1.2 p hp) hv.2
  | opAddRaw id len rp =>
    simp only [validOp, Bool.and_eq_true, decide_eq_true_eq] at hv
    show WF (addRawVersion cg id len rp).1
    unfold addRawVersion
    rcases rp with _ | rps
    · exact add_preserves_WF hwf (by omega) (WF_heads_lt hwf) hv.2
    · show WF (match rawToLVList cg rps with
        | none => (cg, none)
        | some ps => add cg id.1 id.2 (id.2 + len) ps).1
      rcases hres : rawToLVList cg rps with _ | lps
      · exact hwf
      · exact add_preserves_WF hwf (by omega) (rawToLVList_lt hwf hres) hv.2
  | opMergePartial data =>
    exact mergePartialLoop_WF data cg hwf hv

theorem applyOps_preserves_WF :
    ∀ (ops : List CGOp) (cg : CausalGraph), WF cg → validOps cg ops = true →
      WF (applyOps cg ops) := by
  intro ops
  induction ops with
  | nil => intro cg hwf _; exact hwf
  | cons op rest ih =>
    intro cg hwf hv
    simp only [validOps, Bool.and_eq_true] at hv
    show WF (applyOps (applyOp cg op) rest)
    exact ih (applyOp cg op) (applyOp_preserves_WF hwf hv.1) hv.2

/-! #### C1: the §3 invariants after sequences of mutating operations -/

/-- C1 (amended: the operations must be well-formed calls — each `add`-span
non-empty and not straddling a hole of the agent's known seqs, explicit LV
parents in range). Starting from `createCG`, after any such sequence of
`add` / `addRawVersion` / `mergePartialVersions` calls the graph satisfies
the §3 data-model invariants: entries dense from 0 and non-empty with all
parents below their entry, both RLE indices maximally merged, the two
indices agreeing, each (agent, seq) mapping to exactly one LV, and `heads`
equal to the dominator set of all LVs, sorted ascending without
duplicates. Without the well-formedness precondition the claim is false
(`C1_counterexample_hole_straddle`). -/
theorem C1_valid_ops_invariants (ops : List CGOp)
    (hv : validOps createCG ops = true) :
    WF (applyOps createCG ops) ∧
    (applyOps createCG ops).heads.Sorted (· ≤ ·) ∧
    (applyOps createCG ops).heads.Nodup ∧
    (∀ v, v ∈ (applyOps createCG ops).heads ↔ IsDominatorLV (applyOps createCG ops) v) ∧
    (∀ a q v1 v2, clientMapsTo (avListOf (applyOps createCG ops) a) q v1 →
      clientMapsTo (avListOf (applyOps createCG ops) a) q v2 → v1 = v2) := by
  have hwf := applyOps_preserves_WF ops createCG WF_createCG hv
  obtain ⟨hs, hn, hd⟩ := WF_heads_dominators hwf.1 hwf.2.2.2.2.2.2
  exact ⟨hwf, hs, hn, hd, fun a q v1 v2 h1 h2 =>
    clientMapsTo_unique (WF_avListOf hwf a).1 h1 h2⟩

/-- Witness for C1 at the spec §8 scenario-3 history: three valid `add`
calls (two concurrent agents, then a merger). -/
theorem C1_valid_ops_invariants_witness :
    validOps createCG [CGOp.opAdd "a" 0 2 [], CGOp.opAdd "b" 0 2 [],
      CGOp.opAdd "c" 0 1 [1, 3]] = true ∧
    (WF (applyOps createCG [CGOp.opAdd "a" 0 2 [], CGOp.opAdd "b" 0 2 [],
      CGOp.opAdd "c" 0 1 [1, 3]]) ∧
    (applyOps createCG [CGOp.opAdd "a" 0 2 [], CGOp.opAdd "b" 0 2 [],
      CGOp.opAdd "c" 0 1 [1, 3]]).heads.Sorted (· ≤ ·) ∧
    (applyOps createCG [CGOp.opAdd "a" 0 2 [], CGOp.opAdd "b" 0 2 [],
      CGOp.opAdd "c" 0 1 [1, 3]]).heads.Nodup ∧
    (∀ v, v ∈ (applyOps createCG [CGOp.opAdd "a" 0 2 [], CGOp.opAdd "b" 0 2 [],
      CGOp.opAdd "c" 0 1 [1, 3]]).heads ↔
        IsDominatorLV (applyOps createCG [CGOp.opAdd "a" 0 2 [],
          CGOp.opAdd "b" 0 2 [], CGOp.opAdd "c" 0 1 [1, 3]]) v) ∧
    (∀ a q v1 v2, clientMapsTo (avListOf (applyOps createCG
        [CGOp.opAdd "a" 0 2 [], CGOp.opAdd "b" 0 2 [],
          CGOp.opAdd "c" 0 1 [1, 3]]) a) q v1 →
      clientMapsTo (avListOf (applyOps createCG
        [CGOp.opAdd "a" 0 2 [], CGOp.opAdd "b" 0 2 [],
          CGOp.opAdd "c" 0 1 [1, 3]]) a) q v2 → v1 = v2)) :=
  ⟨by decide, C1_valid_ops_invariants [CGOp.opAdd "a" 0 2 [],
    CGOp.opAdd "b" 0 2 [], CGOp.opAdd "c" 0 1 [1, 3]] (by decide)⟩

/-- Counterexample to C1 as literally stated: the two-call sequence
`add('a', 10, 12, [])` then `add('a', 5, 15, [])` — the second span
straddles the hole `[5, 10)` below the already-known `[10, 12)` — leaves
the graph violating the invariants (`checkCG` would throw): the agent
index gains overlapping runs, and the public version `('a', 10)` maps to
the two distinct LVs 0 and 7. -/
theorem C1_counterexample_hole_straddle :
    ¬ WF (applyOps createCG
      [CGOp.opAdd "a" 10 12 [], CGOp.opAdd "a" 5 15 []]) ∧
    clientMapsTo (avListOf (applyOps createCG
      [CGOp.opAdd "a" 10 12 [], CGOp.opAdd "a" 5 15 []]) "a") 10 0 ∧
    clientMapsTo (avListOf (applyOps createCG
      [CGOp.opAdd "a" 10 12 [], CGOp.opAdd "a" 5 15 []]) "a") 10 7 := by
  refine ⟨by decide, ?_, ?_⟩ <;> (unfold clientMapsTo; decide)

/-! #### C5: `containsLV` computes causal reachability -/

theorem chained_head_le {a : CGEntry} {rest : List CGEntry} {v0 : Nat}
    (h : entriesChainedFrom v0 (a :: rest) = true) :
    ∀ j, j < rest.length → a.vEnd ≤ (rest.getD j default).version := by
  induction rest generalizing a v0 with
  | nil => intro j hj; simp at hj
  | cons b rest2 ih =>
    intro j hj
    obtain ⟨h1, h2, h3, hrest⟩ := entriesChainedFrom_cons h
    obtain ⟨hb1, hb2, hb3, hrest2⟩ := entriesChainedFrom_cons hrest
    cases j with
    | zero =>
      simp only [List.getD_cons_zero]
      omega
    | succ k =>
      have hbk := ih hrest k (by simpa using hj)
      simp only [List.getD_cons_succ]
      omega

theorem chained_spans {v0 : Nat} {l : List CGEntry}
    (h : entriesChainedFrom v0 l = true) :
    SpansSorted CGEntry.version CGEntry.vEnd l ∧
      SpansNonEmpty CGEntry.version CGEntry.vEnd l := by
  induction l generalizing v0 with
  | nil =>
    exact ⟨fun i j hij hj => by simp at hj, fun i hi => by simp at hi⟩
  | cons a rest ih =>
    obtain ⟨h1, h2, h3, hrest⟩ := entriesChainedFrom_cons h
    obtain ⟨ihs, ihne⟩ := ih hrest
    constructor
    · intro i j hij hj
      cases i with
      | zero =>
        cases j with
        | zero => omega
        | succ k =>
          have := chained_head_le h k (by simpa using hj)
          simpa using this
      | succ i2 =>
        cases j with
        | zero => omega
        | succ k =>
          have := ihs i2 k (by omega) (by simpa using hj)
          simpa using this
    · intro i hi
      cases i with
      | zero => simpa using h2
      | succ i2 =>
        have := ihne i2 (by simpa using hi)
        simpa using this

theorem rawFindEntryContaining_eq_some {cg : CausalGraph}
    (hch : entriesChainedFrom 0 cg.entries = true) {v : Nat} {e : CGEntry}
    (hmem : e ∈ cg.entries) (h1 : e.version ≤ v) (h2 : v < e.vEnd) :
    rawFindEntryContaining cg v = some e := by
  obtain ⟨hs, hne⟩ := chained_spans hch
  obtain ⟨n, hn⟩ := List.mem_iff_get.mp hmem
  have hgd : cg.entries.getD (n : Nat) default = e := by
    rw [List.getD_eq_getElem cg.entries default n.isLt, ← List.get_eq_getElem]
    exact hn
  have hfound : bsearch cg.entries (fun e =>
      if v < e.version then 1 else if v ≥ e.vEnd then -1 else 0) = ((n : Nat) : Int) :=
    bsearch_found_of_contains CGEntry.version CGEntry.vEnd hs hne
      n.isLt (by rw [hgd]; exact h1) (by rw [hgd]; exact h2)
  unfold rawFindEntryContaining
  simp only [hfound]
  rw [if_neg (by omega)]
  simp only [Int.toNat_natCast]
  rw [hgd]

theorem pqEnq_mem {q : List Nat} {v w : Nat} : w ∈ pqEnq q v ↔ w = v ∨ w ∈ q :=
  List.mem_orderedInsert _

theorem pqEnq_sorted {q : List Nat} (h : q.Sorted (· ≥ ·)) (v : Nat) :
    (pqEnq q v).Sorted (· ≥ ·) :=
  List.Sorted.orderedInsert v q h

theorem enqFold_mem {t : Nat} :
    ∀ (ps Q : List Nat) (w : Nat),
      w ∈ ps.foldl (fun q p => if p > t then pqEnq q p else q) Q ↔
        (w ∈ Q ∨ (w ∈ ps ∧ t < w)) := by
  intro ps
  induction ps with
  | nil =>
    intro Q w
    simp
  | cons p rest ih =>
    intro Q w
    rw [List.foldl_cons, ih]
    by_cases hp : p > t
    · rw [if_pos hp, pqEnq_mem]
      constructor
      · rintro ((rfl | hw) | ⟨hr, ht⟩)
        · exact Or.inr ⟨List.mem_cons_self _ _, hp⟩
        · exact Or.inl hw
        · exact Or.inr ⟨List.mem_cons_of_mem _ hr, ht⟩
      · rintro (hw | ⟨hm, ht⟩)
        · exact Or.inl (Or.inr hw)
        · rcases List.mem_cons.mp hm with rfl | hr
          · exact Or.inl (Or.inl rfl)
          · exact Or.inr ⟨hr, ht⟩
    · rw [if_neg hp]
      constructor
      · rintro (hw | ⟨hr, ht⟩)
        · exact Or.inl hw
        · exact Or.inr ⟨List.mem_cons_of_mem _ hr, ht⟩
      · rintro (hw | ⟨hm, ht⟩)
        · exact Or.inl hw
        · rcases List.mem_cons.mp hm with rfl | hr
          · exact absurd ht (by omega)
          · exact Or.inr ⟨hr, ht⟩

theorem enqFold_sorted {t : Nat} :
    ∀ (ps Q : List Nat), Q.Sorted (· ≥ ·) →
      (ps.foldl (fun q p => if p > t then pqEnq q p else q) Q).Sorted (· ≥ ·) := by
  intro ps
  induction ps with
  | nil => intro Q h; exact h
  | cons p rest ih =>
    intro Q h
    rw [List.foldl_cons]
    by_cases hp : p > t
    · rw [if_pos hp]
      exact ih _ (pqEnq_sorted h p)
    · rw [if_neg hp]
      exact ih _ h

/-- The step of `versionContainsLV` from an entry run to its parents. -/
theorem reaches_via_parent {cg : CausalGraph}
    (hch : entriesChainedFrom 0 cg.entries = true) {e : CGEntry}
    (hmem : e ∈ cg.entries) {v w : Nat} (h1 : e.version ≤ v) (h2 : v < e.vEnd)
    (hp : w ∈ e.parents) {u : Nat} (hre : Reaches cg w u) : Reaches cg v u := by
  have hv : Reaches cg v e.version := reaches_within_run hch hmem (le_refl _) h1 h2
  have hstep : StepsTo cg e.version w := by
    unfold StepsTo
    rw [lvParents_eq (entryLookup_complete hch hmem (le_refl _) (by
      have := chained_mem_bounds hch e hmem
      omega))]
    rw [if_pos rfl]
    exact hp
  exact hv.trans (Relation.ReflTransGen.head hstep hre)

set_option maxHeartbeats 1000000 in
/-- Correctness of the main loop of `versionContainsLV`: on a descending
sorted queue of in-range LVs above the target, with fuel above the head,
the loop terminates and answers exactly "some queue member reaches the
target". -/
theorem containsLoop_spec {cg : CausalGraph}
    (hch : entriesChainedFrom 0 cg.entries = true) {t : Nat} :
    ∀ fuel (Q : List Nat), Q.Sorted (· ≥ ·) →
      (∀ w ∈ Q, t < w ∧ w < nextLV cg) →
      (∀ h ∈ Q.head?, h < fuel) →
      ∃ b, containsLoop cg t fuel Q = some b ∧
        (b = true ↔ ∃ w ∈ Q, Reaches cg w t) := by
  intro fuel
  induction fuel with
  | zero =>
    intro Q hsort hbound hfuel
    cases Q with
    | nil => exact ⟨false, rfl, by simp⟩
    | cons v rest =>
      have := hfuel v (by simp)
      omega
  | succ n ih =>
    intro Q hsort hbound hfuel
    cases Q with
    | nil => exact ⟨false, rfl, by simp⟩
    | cons v queue =>
      obtain ⟨hvt, hvN⟩ := hbound v (List.mem_cons_self _ _)
      rw [containsLoop]
      rw [if_neg (by omega : ¬ v = t)]
      obtain ⟨e, hemem, he1, he2⟩ := chained_coverage hch v (Nat.zero_le _) hvN
      rw [rawFindEntryContaining_eq_some hch hemem he1 he2]
      simp only
      by_cases hev : e.version ≤ t
      · rw [if_pos hev]
        refine ⟨true, rfl, ?_⟩
        constructor
        · intro _
          exact ⟨v, List.mem_cons_self _ _,
            reaches_within_run hch hemem hev (by omega) he2⟩
        · intro _
          rfl
      · rw [if_neg hev]
        by_cases hpt : e.parents.contains t = true
        · rw [if_pos hpt]
          refine ⟨true, rfl, ?_⟩
          constructor
          · intro _
            exact ⟨v, List.mem_cons_self _ _,
              reaches_via_parent hch hemem he1 he2 (by simpa using hpt)
                Relation.ReflTransGen.refl⟩
          · intro _
            rfl
        · rw [if_neg hpt]
          have hqs : queue.Sorted (· ≥ ·) := (List.sorted_cons.mp hsort).2
          have hvge : ∀ w ∈ queue, w ≤ v := (List.sorted_cons.mp hsort).1
          have hQ2sub : List.Sublist (queue.dropWhile (fun w => w ≥ e.version)) queue :=
            queue.dropWhile_sublist _
          have hQ2sorted : (queue.dropWhile (fun w => w ≥ e.version)).Sorted (· ≥ ·) :=
            List.Pairwise.sublist hQ2sub hqs
          have hQ2lt : ∀ w ∈ queue.dropWhile (fun w => w ≥ e.version), w < e.version := by
            intro w hw
            rcases hQ2 : queue.dropWhile (fun w => w ≥ e.version) with _ | ⟨h0, tl⟩
            · rw [hQ2] at hw
              exact absurd hw (List.not_mem_nil w)
            · have hhead := List.head?_dropWhile_not
                (fun w => decide (w ≥ e.version)) queue
              rw [hQ2] at hhead hw
              simp only [List.head?_cons, decide_eq_false_iff_not, not_le] at hhead
              rcases List.mem_cons.mp hw with rfl | hwtl
              · exact hhead
              · have := List.sorted_cons.mp (by rw [hQ2] at hQ2sorted; exact hQ2sorted)
                have hle := this.1 w hwtl
                omega
          have hplt : ∀ p ∈ e.parents, p < e.version :=
            (chained_mem_bounds hch e hemem).2.2
          have hQ'sorted := enqFold_sorted e.parents _ hQ2sorted (t := t)
          have hQ'bound : ∀ w ∈ e.parents.foldl
              (fun q p => if p > t then pqEnq q p else q)
              (queue.dropWhile (fun w => w ≥ e.version)), t < w ∧ w < nextLV cg := by
            intro w hw
            rw [enqFold_mem] at hw
            rcases hw with hw2 | ⟨hpmem, ht⟩
            · exact hbound w (List.mem_cons_of_mem _ (hQ2sub.subset hw2))
            · refine ⟨ht, ?_⟩
              have := hplt w hpmem
              omega
          have hQ'lt : ∀ w ∈ e.parents.foldl
              (fun q p => if p > t then pqEnq q p else q)
              (queue.dropWhile (fun w => w ≥ e.version)), w < e.version := by
            intro w hw
            rw [enqFold_mem] at hw
            rcases hw with hw2 | ⟨hpmem, -⟩
            · exact hQ2lt w hw2
            · exact hplt w hpmem
          have hQ'fuel : ∀ h ∈ (e.parents.foldl
              (fun q p => if p > t then pqEnq q p else q)
              (queue.dropWhile (fun w => w ≥ e.version))).head?, h < n := by
            intro h hh
            have hmem2 := List.mem_of_mem_head? hh
            have := hQ'lt h hmem2
            have := hfuel v (by simp)
            omega
          obtain ⟨b, hres, hiff⟩ := ih _ hQ'sorted hQ'bound hQ'fuel
          refine ⟨b, hres, ?_⟩
          rw [hiff]
          constructor
          · rintro ⟨w, hwmem, hre⟩
            rw [enqFold_mem] at hwmem
            rcases hwmem with hw2 | ⟨hpmem, ht⟩
            · exact ⟨w, List.mem_cons_of_mem _ (hQ2sub.subset hw2), hre⟩
            · exact ⟨v, List.mem_cons_self _ _,
                reaches_via_parent hch hemem he1 he2 hpmem hre⟩
          · rintro ⟨w, hwmem, hre⟩
            rcases List.mem_cons.mp hwmem with rfl | hwq
            · obtain ⟨p, hp, hpre⟩ :=
                (reaches_run_exit hch hemem he1 he2 (by omega)).mp hre
              refine ⟨p, ?_, hpre⟩
              rw [enqFold_mem]
              right
              refine ⟨hp, ?_⟩
              have hle := reaches_le hch hpre
              have hne2 : p ≠ t := by
                intro hpeq
                rw [hpeq] at hp
                exact hpt (by simpa using hp)
              omega
            · by_cases hw2 : w ∈ queue.dropWhile (fun w => w ≥ e.version)
              · exact ⟨w, by rw [enqFold_mem]; exact Or.inl hw2, hre⟩
              · have hwtake : w ∈ queue.takeWhile (fun x => x ≥ e.version) := by
                  have hwq2 : w ∈ queue.takeWhile (fun x => x ≥ e.version) ++
                      queue.dropWhile (fun x => x ≥ e.version) := by
                    rw [List.takeWhile_append_dropWhile]
                    exact hwq
                  rcases List.mem_append.mp hwq2 with h | h
                  · exact h
                  · exact absurd h hw2
                have hwge : e.version ≤ w := by
                  simpa using List.mem_takeWhile_imp hwtake
                have hwv : w ≤ v := hvge w hwq
                obtain ⟨p, hp, hpre⟩ :=
                  (reaches_run_exit hch hemem hwge (by omega) (by omega)).mp hre
                refine ⟨p, ?_, hpre⟩
                rw [enqFold_mem]
                right
                refine ⟨hp, ?_⟩
                have hle := reaches_le hch hpre
                have hne2 : p ≠ t := by
                  intro hpeq
                  rw [hpeq] at hp
                  exact hpt (by simpa using hp)
                omega

/-- `versionContainsLV` terminates (the fuel `nextLV + 1` suffices) and
answers exactly "some frontier member reaches the target". -/
theorem versionContainsLV_spec {cg : CausalGraph}
    (hch : entriesChainedFrom 0 cg.entries = true)
    {F : List Nat} {t : Nat} (hF : ∀ w ∈ F, w < nextLV cg) :
    ∃ b, versionContainsLV cg F t = some b ∧
      (b = true ↔ ∃ w ∈ F, Reaches cg w t) := by
  unfold versionContainsLV
  by_cases hc : F.contains t = true
  · rw [if_pos hc]
    refine ⟨true, rfl, ?_⟩
    constructor
    · intro _
      exact ⟨t, by simpa using hc, Relation.ReflTransGen.refl⟩
    · intro _
      rfl
  · rw [if_neg hc]
    have hQ0sorted := enqFold_sorted F [] List.sorted_nil (t := t)
    have hQ0mem : ∀ w, w ∈ F.foldl (fun q v => if v > t then pqEnq q v else q) [] ↔
        (w ∈ F ∧ t < w) := by
      intro w
      rw [enqFold_mem]
      simp
    obtain ⟨b, hres, hiff⟩ := containsLoop_spec hch (nextLV cg + 1) _ hQ0sorted
      (fun w hw => by
        obtain ⟨hwF, hwt⟩ := (hQ0mem w).mp hw
        exact ⟨hwt, hF w hwF⟩)
      (fun h hh => by
        have hm := List.mem_of_mem_head? hh
        have := (hQ0mem h).mp hm
        have := hF h this.1
        omega)
    refine ⟨b, hres, ?_⟩
    rw [hiff]
    constructor
    · rintro ⟨w, hw, hre⟩
      exact ⟨w, ((hQ0mem w).mp hw).1, hre⟩
    · rintro ⟨w, hw, hre⟩
      refine ⟨w, (hQ0mem w).mpr ⟨hw, ?_⟩, hre⟩
      have hle := reaches_le hch hre
      have hne : w ≠ t := by
        intro hwe
        rw [hwe] at hw
        exact hc (by simpa using hw)
      omega

/-- C5: on a well-formed graph, `containsLV(cg, [v], v)` is true for every
known LV `v`, and `containsLV(cg, F, v)` (for a frontier of known LVs) is
true exactly when `v` is causally reachable from some member of `F` —
`false` exactly otherwise, and the traversal never fails. -/
theorem C5_containsLV_correct {cg : CausalGraph} (hwf : WF cg)
    {F : List Nat} {v : Nat} (hv : v < nextLV cg)
    (hF : ∀ w ∈ F, w < nextLV cg) :
    versionContainsLV cg [v] v = some true ∧
    (versionContainsLV cg F v = some true ↔ ∃ w ∈ F, Reaches cg w v) ∧
    (versionContainsLV cg F v = some false ↔ ¬ ∃ w ∈ F, Reaches cg w v) := by
  obtain ⟨b, hres, hiff⟩ := versionContainsLV_spec hwf.1 hF
  refine ⟨?_, ?_, ?_⟩
  · unfold versionContainsLV
    rw [if_pos (by simp)]
  · constructor
    · intro h
      rw [hres] at h
      injection h with h
      exact hiff.mp h
    · intro h
      rw [hres, hiff.mpr h]
  · constructor
    · intro h
      rw [hres] at h
      injection h with h
      intro hex
      rw [hiff.mpr hex] at h
      exact absurd h (by simp)
    · intro h
      cases b with
      | false => exact hres
      | true => exact absurd (hiff.mp rfl) h

/-- Witness for C5 at the spec §8 scenario-3 graph (agents a, b merged by
c): frontier `[4]` (the merger), target `0`. -/
theorem C5_containsLV_correct_witness :
    WF (applyOps createCG [CGOp.opAdd "a" 0 2 [], CGOp.opAdd "b" 0 2 [],
      CGOp.opAdd "c" 0 1 [1, 3]]) ∧
    0 < nextLV (applyOps createCG [CGOp.opAdd "a" 0 2 [], CGOp.opAdd "b" 0 2 [],
      CGOp.opAdd "c" 0 1 [1, 3]]) ∧
    (∀ w ∈ [4], w < nextLV (applyOps createCG [CGOp.opAdd "a" 0 2 [],
      CGOp.opAdd "b" 0 2 [], CGOp.opAdd "c" 0 1 [1, 3]])) ∧
    (versionContainsLV (applyOps createCG [CGOp.opAdd "a" 0 2 [],
        CGOp.opAdd "b" 0 2 [], CGOp.opAdd "c" 0 1 [1, 3]]) [0] 0 = some true ∧
    (versionContainsLV (applyOps createCG [CGOp.opAdd "a" 0 2 [],
        CGOp.opAdd "b" 0 2 [], CGOp.opAdd "c" 0 1 [1, 3]]) [4] 0 = some true ↔
      ∃ w ∈ [4], Reaches (applyOps createCG [CGOp.opAdd "a" 0 2 [],
        CGOp.opAdd "b" 0 2 [], CGOp.opAdd "c" 0 1 [1, 3]]) w 0) ∧
    (versionContainsLV (applyOps createCG [CGOp.opAdd "a" 0 2 [],
        CGOp.opAdd "b" 0 2 [], CGOp.opAdd "c" 0 1 [1, 3]]) [4] 0 = some false ↔
      ¬ ∃ w ∈ [4], Reaches (applyOps createCG [CGOp.opAdd "a" 0 2 [],
        CGOp.opAdd "b" 0 2 [], CGOp.opAdd "c" 0 1 [1, 3]]) w 0)) :=
  ⟨by decide, by decide, by decide,
    C5_containsLV_correct (by decide) (by decide) (by decide)⟩

/-! #### C8: `compareVersions` -/

/-- C8: on a well-formed graph, for known LVs `a, b`: `compareVersions`
errors (`none`) exactly when `a = b`; otherwise it returns `-1` exactly
when `a` causally follows `b`, `+1` exactly when `b` causally follows `a`,
`0` exactly when the two are concurrent, and it is anti-symmetric. -/
theorem C8_compareVersions {cg : CausalGraph} (hwf : WF cg) {a b : Nat}
    (ha : a < nextLV cg) (hb : b < nextLV cg) :
    (compareVersions cg a b = none ↔ a = b) ∧
    (compareVersions cg a b = some (-1) ↔ (a ≠ b ∧ Reaches cg a b)) ∧
    (compareVersions cg a b = some 1 ↔ (a ≠ b ∧ Reaches cg b a)) ∧
    (compareVersions cg a b = some 0 ↔
      (a ≠ b ∧ ¬ Reaches cg a b ∧ ¬ Reaches cg b a)) ∧
    (∀ r, compareVersions cg a b = some r → compareVersions cg b a = some (-r)) := by
  rcases Nat.lt_trichotomy a b with hab | hab | hab
  · -- a < b : the b-side search runs
    obtain ⟨c, hres, hiff⟩ := versionContainsLV_spec hwf.1
      (show ∀ w ∈ [b], w < nextLV cg by intro w hw; rw [List.mem_singleton] at hw; omega)
    have hsing : (∃ w ∈ [b], Reaches cg w a) ↔ Reaches cg b a := by simp
    have hRba : Reaches cg b a ↔ c = true := by rw [hiff, hsing]
    have hnab : ¬ Reaches cg a b := fun h => by have := reaches_le hwf.1 h; omega
    unfold compareVersions
    rw [if_neg (by omega), if_pos hab, hres]
    simp only [Option.map_some']
    refine ⟨?_, ?_, ?_, ?_, ?_⟩
    · constructor
      · intro h
        exact absurd h (by simp)
      · intro h
        omega
    · cases c with
      | false =>
        constructor
        · intro h
          injection h with h
          exact absurd h (by decide)
        · rintro ⟨-, h⟩
          exact absurd h hnab
      | true =>
        constructor
        · intro h
          injection h with h
          exact absurd h (by decide)
        · rintro ⟨-, h⟩
          exact absurd h hnab
    · cases c with
      | false =>
        constructor
        · intro h
          injection h with h
          exact absurd h (by decide)
        · rintro ⟨-, h⟩
          exact absurd (hRba.mp h) (by decide)
      | true =>
        constructor
        · intro _
          exact ⟨by omega, hRba.mpr rfl⟩
        · intro _
          rfl
    · cases c with
      | false =>
        constructor
        · intro _
          exact ⟨by omega, hnab, fun h => by rw [hRba.mp h] at *; simp at *⟩
        · intro _
          rfl
      | true =>
        constructor
        · intro h
          injection h with h
          exact absurd h (by decide)
        · rintro ⟨-, -, h⟩
          exact absurd (hRba.mpr rfl) h
    · intro r hr
      injection hr with hr
      rw [if_pos (show b > a by omega)]
      cases c with
      | false =>
        rw [← hr]
        rfl
      | true =>
        rw [← hr]
        rfl
  · -- a = b : the error case
    subst hab
    unfold compareVersions
    rw [if_neg (by omega), if_neg (by omega)]
    refine ⟨by simp, ?_, ?_, ?_, ?_⟩
    · constructor
      · intro h
        exact absurd h (by simp)
      · rintro ⟨h, -⟩
        exact absurd rfl h
    · constructor
      · intro h
        exact absurd h (by simp)
      · rintro ⟨h, -⟩
        exact absurd rfl h
    · constructor
      · intro h
        exact absurd h (by simp)
      · rintro ⟨h, -⟩
        exact absurd rfl h
    · intro r hr
      exact absurd hr (by simp)
  · -- b < a : the a-side search runs
    obtain ⟨c, hres, hiff⟩ := versionContainsLV_spec hwf.1
      (show ∀ w ∈ [a], w < nextLV cg by intro w hw; rw [List.mem_singleton] at hw; omega)
    have hsing : (∃ w ∈ [a], Reaches cg w b) ↔ Reaches cg a b := by simp
    have hRab : Reaches cg a b ↔ c = true := by rw [hiff, hsing]
    have hnba : ¬ Reaches cg b a := fun h => by have := reaches_le hwf.1 h; omega
    unfold compareVersions
    rw [if_pos hab, hres]
    simp only [Option.map_some']
    refine ⟨?_, ?_, ?_, ?_, ?_⟩
    · constructor
      · intro h
        exact absurd h (by simp)
      · intro h
        omega
    · cases c with
      | false =>
        constructor
        · intro h
          injection h with h
          exact absurd h (by decide)
        · rintro ⟨-, h⟩
          exact absurd (hRab.mp h) (by decide)
      | true =>
        constructor
        · intro _
          exact ⟨by omega, hRab.mpr rfl⟩
        · intro _
          rfl
    · cases c with
      | false =>
        constructor
        · intro h
          injection h with h
          exact absurd h (by decide)
        · rintro ⟨-, h⟩
          exact absurd h hnba
      | true =>
        constructor
        · intro h
          injection h with h
          exact absurd h (by decide)
        · rintro ⟨-, h⟩
          exact absurd h hnba
    · cases c with
      | false =>
        constructor
        · intro _
          exact ⟨by omega, fun h => by rw [hRab.mp h] at *; simp at *, hnba⟩
        · intro _
          rfl
      | true =>
        constructor
        · intro h
          injection h with h
          exact absurd h (by decide)
        · rintro ⟨-, h, -⟩
          exact absurd (hRab.mpr rfl) h
    · intro r hr
      injection hr with hr
      rw [if_neg (by omega : ¬ b > a), if_pos (show b < a by omega)]
      cases c with
      | false =>
        rw [← hr]
        rfl
      | true =>
        rw [← hr]
        rfl

/-- Witness for C8 at the spec §8 scenario-2 graph: the concurrent tips 1
and 3 compare as `0`, and applying the theorem also certifies the error
case shape and anti-symmetry there. -/
theorem C8_compareVersions_witness :
    WF (applyOps createCG [CGOp.opAdd "a" 0 2 [], CGOp.opAdd "b" 0 2 []]) ∧
    1 < nextLV (applyOps createCG [CGOp.opAdd "a" 0 2 [], CGOp.opAdd "b" 0 2 []]) ∧
    3 < nextLV (applyOps createCG [CGOp.opAdd "a" 0 2 [], CGOp.opAdd "b" 0 2 []]) ∧
    ((compareVersions (applyOps createCG [CGOp.opAdd "a" 0 2 [],
        CGOp.opAdd "b" 0 2 []]) 1 3 = none ↔ (1 : Nat) = 3) ∧
    (compareVersions (applyOps createCG [CGOp.opAdd "a" 0 2 [],
        CGOp.opAdd "b" 0 2 []]) 1 3 = some (-1) ↔ ((1 : Nat) ≠ 3 ∧
      Reaches (applyOps createCG [CGOp.opAdd "a" 0 2 [],
        CGOp.opAdd "b" 0 2 []]) 1 3)) ∧
    (compareVersions (applyOps createCG [CGOp.opAdd "a" 0 2 [],
        CGOp.opAdd "b" 0 2 []]) 1 3 = some 1 ↔ ((1 : Nat) ≠ 3 ∧
      Reaches (applyOps createCG [CGOp.opAdd "a" 0 2 [],
        CGOp.opAdd "b" 0 2 []]) 3 1)) ∧
    (compareVersions (applyOps createCG [CGOp.opAdd "a" 0 2 [],
        CGOp.opAdd "b" 0 2 []]) 1 3 = some 0 ↔ ((1 : Nat) ≠ 3 ∧
      ¬ Reaches (applyOps createCG [CGOp.opAdd "a" 0 2 [],
        CGOp.opAdd "b" 0 2 []]) 1 3 ∧
      ¬ Reaches (applyOps createCG [CGOp.opAdd "a" 0 2 [],
        CGOp.opAdd "b" 0 2 []]) 3 1)) ∧
    (∀ r, compareVersions (applyOps createCG [CGOp.opAdd "a" 0 2 [],
        CGOp.opAdd "b" 0 2 []]) 1 3 = some r →
      compareVersions (applyOps createCG [CGOp.opAdd "a" 0 2 [],
        CGOp.opAdd "b" 0 2 []]) 3 1 = some (-r))) :=
  ⟨by decide, by decide, by decide,
    C8_compareVersions (by decide) (by decide) (by decide)⟩

/-! #### C10: `diff` treats its frontier arguments as sets -/

/-- Folding `enq` with flag `A` over a list, starting from a state whose
queue is exactly its `A`-flagged set: the result is again such a state,
with the list's members added. -/
theorem diffEnqFoldA :
    ∀ (l : List Nat) (st : DiffState),
      st.queue.Sorted (· ≥ ·) → st.queue.Nodup →
      (∀ v, st.flags v = if v ∈ st.queue then some DiffFlag.A else none) →
      (l.foldl (fun s v => diffEnq s v DiffFlag.A) st).queue.Sorted (· ≥ ·) ∧
      (l.foldl (fun s v => diffEnq s v DiffFlag.A) st).queue.Nodup ∧
      (∀ v, v ∈ (l.foldl (fun s v => diffEnq s v DiffFlag.A) st).queue ↔
        (v ∈ st.queue ∨ v ∈ l)) ∧
      (∀ v, (l.foldl (fun s v => diffEnq s v DiffFlag.A) st).flags v =
        if (v ∈ st.queue ∨ v ∈ l) then some DiffFlag.A else none) ∧
      (l.foldl (fun s v => diffEnq s v DiffFlag.A) st).numShared = st.numShared := by
  intro l
  induction l with
  | nil =>
    intro st hs hn hf
    refine ⟨hs, hn, fun v => by simp, fun v => ?_, rfl⟩
    simp only [List.foldl_nil, List.not_mem_nil, or_false]
    exact hf v
  | cons x rest ih =>
    intro st hs hn hf
    rw [List.foldl_cons]
    by_cases hx : x ∈ st.queue
    · have hstep : diffEnq st x DiffFlag.A = st := by
        unfold diffEnq
        rw [hf x, if_pos hx]
        rfl
      rw [hstep]
      obtain ⟨h1, h2, h3, h4, h5⟩ := ih st hs hn hf
      refine ⟨h1, h2, fun v => ?_, fun v => ?_, h5⟩
      · rw [h3, List.mem_cons]
        constructor
        · rintro (h | h)
          · exact Or.inl h
          · exact Or.inr (Or.inr h)
        · rintro (h | rfl | h)
          · exact Or.inl h
          · exact Or.inl hx
          · exact Or.inr h
      · rw [h4]
        have hiff : (v ∈ st.queue ∨ v ∈ rest) ↔ (v ∈ st.queue ∨ v ∈ x :: rest) := by
          rw [List.mem_cons]
          constructor
          · rintro (h | h)
            · exact Or.inl h
            · exact Or.inr (Or.inr h)
          · rintro (h | rfl | h)
            · exact Or.inl h
            · exact Or.inl hx
            · exact Or.inr h
        by_cases hv : v ∈ st.queue ∨ v ∈ rest
        · rw [if_pos hv, if_pos (hiff.mp hv)]
        · rw [if_neg hv, if_neg (fun h => hv (hiff.mpr h))]
    · have hstep : diffEnq st x DiffFlag.A =
          { queue := pqEnq st.queue x,
            flags := fun w => if w = x then some DiffFlag.A else st.flags w,
            numShared := st.numShared } := by
        unfold diffEnq
        rw [hf x, if_neg hx]
        rfl
      rw [hstep]
      have hq2n : (pqEnq st.queue x).Nodup := by
        unfold pqEnq
        rw [(List.perm_orderedInsert _ x st.queue).nodup_iff]
        exact List.nodup_cons.mpr ⟨hx, hn⟩
      have hf2 : ∀ v, (if v = x then some DiffFlag.A else st.flags v) =
          if v ∈ pqEnq st.queue x then some DiffFlag.A else none := by
        intro v
        by_cases hv : v = x
        · rw [if_pos hv, if_pos (by rw [pqEnq_mem]; exact Or.inl hv)]
        · rw [if_neg hv, hf v]
          by_cases hv2 : v ∈ st.queue
          · rw [if_pos hv2, if_pos (by rw [pqEnq_mem]; exact Or.inr hv2)]
          · rw [if_neg hv2, if_neg (by
              rw [pqEnq_mem]
              rintro (h | h)
              exacts [hv h, hv2 h])]
      obtain ⟨h1, h2, h3, h4, h5⟩ := ih
        { queue := pqEnq st.queue x,
          flags := fun w => if w = x then some DiffFlag.A else st.flags w,
          numShared := st.numShared }
        (pqEnq_sorted hs x) hq2n hf2
      have hmem : ∀ v, (v ∈ pqEnq st.queue x ∨ v ∈ rest) ↔
          (v ∈ st.queue ∨ v ∈ x :: rest) := by
        intro v
        rw [pqEnq_mem, List.mem_cons]
        constructor
        · rintro ((rfl | h) | h)
          · exact Or.inr (Or.inl rfl)
          · exact Or.inl h
          · exact Or.inr (Or.inr h)
        · rintro (h | rfl | h)
          · exact Or.inl (Or.inr h)
          · exact Or.inl (Or.inl rfl)
          · exact Or.inr h
      refine ⟨h1, h2, fun v => ?_, fun v => ?_, h5⟩
      · rw [h3]
        exact hmem v
      · rw [h4]
        by_cases hv : v ∈ st.queue ∨ v ∈ x :: rest
        · rw [if_pos ((hmem v).mpr hv), if_pos hv]
        · rw [if_neg (fun h => hv ((hmem v).mp h)), if_neg hv]

/-- Flipping a single member of a duplicate-free list from failing to
satisfying a predicate raises the filter length by exactly one. -/
theorem filter_length_update {l : List Nat} (hn : l.Nodup) {x : Nat} (hx : x ∈ l)
    {p q : Nat → Bool} (hpx : p x = false) (hqx : q x = true)
    (hother : ∀ w ∈ l, w ≠ x → q w = p w) :
    (l.filter q).length = (l.filter p).length + 1 := by
  induction l with
  | nil => exact absurd hx (List.not_mem_nil x)
  | cons a t ih =>
    rw [List.nodup_cons] at hn
    by_cases hax : a = x
    · subst hax
      rw [List.filter_cons_of_pos hqx, List.filter_cons_of_neg (by rw [hpx]; simp)]
      have ht : t.filter q = t.filter p := by
        apply List.filter_congr
        intro w hw
        exact hother w (List.mem_cons_of_mem _ hw) (fun hwx => hn.1 (hwx ▸ hw))
      rw [ht, List.length_cons]
    · have hxt : x ∈ t := by
        rcases List.mem_cons.mp hx with rfl | h
        · exact absurd rfl hax
        · exact h
      have hqa : q a = p a := hother a (List.mem_cons_self _ _) hax
      have hrec := ih hn.2 hxt (fun w hw hwx => hother w (List.mem_cons_of_mem _ hw) hwx)
      by_cases hpa : p a = true
      · rw [List.filter_cons_of_pos (by rw [hqa]; exact hpa),
          List.filter_cons_of_pos hpa, List.length_cons, List.length_cons, hrec]
      · rw [List.filter_cons_of_neg (by rw [hqa]; exact hpa),
          List.filter_cons_of_neg hpa, hrec]

/-- Folding `enq` with flag `B` over a list, starting from a state whose
flagged set is its queue and whose `numShared` counts its `Shared` queue
members: queue, flag table and shared count evolve as functions of the
list's member set. -/
theorem diffEnqFoldB :
    ∀ (l : List Nat) (st : DiffState),
      st.queue.Sorted (· ≥ ·) → st.queue.Nodup →
      (∀ v, ¬ st.flags v = none ↔ v ∈ st.queue) →
      st.numShared = (st.queue.filter
        (fun v => st.flags v = some DiffFlag.Shared)).length →
      (l.foldl (fun s v => diffEnq s v DiffFlag.B) st).queue.Sorted (· ≥ ·) ∧
      (l.foldl (fun s v => diffEnq s v DiffFlag.B) st).queue.Nodup ∧
      (∀ v, v ∈ (l.foldl (fun s v => diffEnq s v DiffFlag.B) st).queue ↔
        (v ∈ st.queue ∨ v ∈ l)) ∧
      (∀ v, (l.foldl (fun s v => diffEnq s v DiffFlag.B) st).flags v =
        if v ∈ l then (match st.flags v with
          | none => some DiffFlag.B
          | some DiffFlag.A => some DiffFlag.Shared
          | some fl => some fl) else st.flags v) ∧
      ((l.foldl (fun s v => diffEnq s v DiffFlag.B) st).numShared =
        ((l.foldl (fun s v => diffEnq s v DiffFlag.B) st).queue.filter
          (fun v => (l.foldl (fun s v => diffEnq s v DiffFlag.B) st).flags v =
            some DiffFlag.Shared)).length) := by
  intro l
  induction l with
  | nil =>
    intro st hs hn hdom hcount
    refine ⟨hs, hn, fun v => by simp, fun v => ?_, hcount⟩
    simp only [List.foldl_nil, List.not_mem_nil, if_false]
  | cons x rest ih =>
    intro st hs hn hdom hcount
    rw [List.foldl_cons]
    rcases hfx : st.flags x with _ | fl
    · -- x unseen: insert with flag B
      have hxq : x ∉ st.queue := by
        rw [← hdom x, hfx]
        simp
      have hstep : diffEnq st x DiffFlag.B =
          { queue := pqEnq st.queue x,
            flags := fun w => if w = x then some DiffFlag.B else st.flags w,
            numShared := st.numShared } := by
        unfold diffEnq
        rw [hfx]
        rfl
      rw [hstep]
      have hq2n : (pqEnq st.queue x).Nodup := by
        unfold pqEnq
        rw [(List.perm_orderedInsert _ x st.queue).nodup_iff]
        exact List.nodup_cons.mpr ⟨hxq, hn⟩
      have hdom2 : ∀ v, ¬ (if v = x then some DiffFlag.B else st.flags v) = none ↔
          v ∈ pqEnq st.queue x := by
        intro v
        rw [pqEnq_mem]
        by_cases hv : v = x
        · rw [if_pos hv]
          simp [hv]
        · rw [if_neg hv, hdom v]
          constructor
          · intro h
            exact Or.inr h
          · rintro (h | h)
            · exact absurd h hv
            · exact h
      have hcount2 : st.numShared = ((pqEnq st.queue x).filter
          (fun v => (if v = x then some DiffFlag.B else st.flags v) =
            some DiffFlag.Shared)).length := by
        have hperm : List.Perm ((pqEnq st.queue x).filter
            (fun v => (if v = x then some DiffFlag.B else st.flags v) =
              some DiffFlag.Shared))
            ((x :: st.queue).filter
              (fun v => (if v = x then some DiffFlag.B else st.flags v) =
                some DiffFlag.Shared)) :=
          List.Perm.filter _ (List.perm_orderedInsert _ x st.queue)
        rw [hperm.length_eq, List.filter_cons_of_neg (by simp)]
        rw [List.filter_congr (fun w hw => by
          rw [if_neg (fun hwx : w = x => hxq (hwx ▸ hw))])]
        exact hcount
      obtain ⟨h1, h2, h3, h4, h5⟩ := ih
        { queue := pqEnq st.queue x,
          flags := fun w => if w = x then some DiffFlag.B else st.flags w,
          numShared := st.numShared }
        (pqEnq_sorted hs x) hq2n hdom2 hcount2
      have hmem : ∀ v, (v ∈ pqEnq st.queue x ∨ v ∈ rest) ↔
          (v ∈ st.queue ∨ v ∈ x :: rest) := by
        intro v
        rw [pqEnq_mem, List.mem_cons]
        constructor
        · rintro ((rfl | h) | h)
          · exact Or.inr (Or.inl rfl)
          · exact Or.inl h
          · exact Or.inr (Or.inr h)
        · rintro (h | rfl | h)
          · exact Or.inl (Or.inr h)
          · exact Or.inl (Or.inl rfl)
          · exact Or.inr h
      refine ⟨h1, h2, fun v => ?_, fun v => ?_, h5⟩
      · rw [h3]
        exact hmem v
      · rw [h4]
        dsimp only
        by_cases hvx : v = x
        · subst hvx
          rw [if_pos (rfl : v = v), hfx, if_pos (List.mem_cons_self _ _)]
          by_cases hvr : v ∈ rest
          · rw [if_pos hvr]
          · rw [if_neg hvr]
        · rw [if_neg hvx]
          by_cases hvr : v ∈ rest
          · rw [if_pos hvr, if_pos (List.mem_cons_of_mem _ hvr)]
          · rw [if_neg hvr, if_neg (by
              rw [List.mem_cons]
              rintro (h | h)
              exacts [hvx h, hvr h])]
    · -- x already flagged
      have hxq : x ∈ st.queue := by
        rw [← hdom x, hfx]
        simp
      cases fl with
      | A =>
        have hstep : diffEnq st x DiffFlag.B =
            { queue := st.queue,
              flags := fun w => if w = x then some DiffFlag.Shared else st.flags w,
              numShared := st.numShared + 1 } := by
          unfold diffEnq
          rw [hfx]
          rfl
        rw [hstep]
        have hdom2 : ∀ v, ¬ (if v = x then some DiffFlag.Shared else st.flags v) = none ↔
            v ∈ st.queue := by
          intro v
          by_cases hv : v = x
          · rw [if_pos hv]
            subst hv
            simp [hxq]
          · rw [if_neg hv]
            exact hdom v
        have hcount2 : st.numShared + 1 = (st.queue.filter
            (fun v => (if v = x then some DiffFlag.Shared else st.flags v) =
              some DiffFlag.Shared)).length := by
          rw [filter_length_update hn hxq
            (p := fun v => decide (st.flags v = some DiffFlag.Shared))
            (q := fun v => decide ((if v = x then some DiffFlag.Shared
              else st.flags v) = some DiffFlag.Shared))
            (by show decide (st.flags x = some DiffFlag.Shared) = false
                rw [hfx]
                simp)
            (by show decide ((if x = x then some DiffFlag.Shared
                  else st.flags x) = some DiffFlag.Shared) = true
                rw [if_pos rfl]
                simp)
            (fun w hw hwx => by
              show decide ((if w = x then some DiffFlag.Shared
                else st.flags w) = some DiffFlag.Shared) = _
              rw [if_neg hwx])]
          rw [hcount]
        obtain ⟨h1, h2, h3, h4, h5⟩ := ih
          { queue := st.queue,
            flags := fun w => if w = x then some DiffFlag.Shared else st.flags w,
            numShared := st.numShared + 1 }
          hs hn hdom2 hcount2
        refine ⟨h1, h2, fun v => ?_, fun v => ?_, h5⟩
        · rw [h3, List.mem_cons]
          constructor
          · rintro (h | h)
            · exact Or.inl h
            · exact Or.inr (Or.inr h)
          · rintro (h | rfl | h)
            · exact Or.inl h
            · exact Or.inl hxq
            · exact Or.inr h
        · rw [h4]
          dsimp only
          by_cases hvx : v = x
          · subst hvx
            rw [if_pos (rfl : v = v), hfx, if_pos (List.mem_cons_self _ _)]
            by_cases hvr : v ∈ rest
            · rw [if_pos hvr]
            · rw [if_neg hvr]
          · rw [if_neg hvx]
            by_cases hvr : v ∈ rest
            · rw [if_pos hvr, if_pos (List.mem_cons_of_mem _ hvr)]
            · rw [if_neg hvr, if_neg (by
                rw [List.mem_cons]
                rintro (h | h)
                exacts [hvx h, hvr h])]
      | B =>
        have hstep : diffEnq st x DiffFlag.B = st := by
          unfold diffEnq
          rw [hfx]
          rfl
        rw [hstep]
        obtain ⟨h1, h2, h3, h4, h5⟩ := ih st hs hn hdom hcount
        refine ⟨h1, h2, fun v => ?_, fun v => ?_, h5⟩
        · rw [h3, List.mem_cons]
          constructor
          · rintro (h | h)
            · exact Or.inl h
            · exact Or.inr (Or.inr h)
          · rintro (h | rfl | h)
            · exact Or.inl h
            · exact Or.inl hxq
            · exact Or.inr h
        · rw [h4]
          by_cases hvx : v = x
          · subst hvx
            rw [hfx, if_pos (List.mem_cons_self _ _)]
            by_cases hvr : v ∈ rest
            · rw [if_pos hvr]
            · rw [if_neg hvr]
          · by_cases hvr : v ∈ rest
            · rw [if_pos hvr, if_pos (List.mem_cons_of_mem _ hvr)]
            · rw [if_neg hvr, if_neg (by
                rw [List.mem_cons]
                rintro (h | h)
                exacts [hvx h, hvr h])]
      | Shared =>
        have hstep : diffEnq st x DiffFlag.B = st := by
          unfold diffEnq
          rw [hfx]
          rfl
        rw [hstep]
        obtain ⟨h1, h2, h3, h4, h5⟩ := ih st hs hn hdom hcount
        refine ⟨h1, h2, fun v => ?_, fun v => ?_, h5⟩
        · rw [h3, List.mem_cons]
          constructor
          · rintro (h | h)
            · exact Or.inl h
            · exact Or.inr (Or.inr h)
          · rintro (h | rfl | h)
            · exact Or.inl h
            · exact Or.inl hxq
            · exact Or.inr h
        · rw [h4]
          by_cases hvx : v = x
          · subst hvx
            rw [hfx, if_pos (List.mem_cons_self _ _)]
            by_cases hvr : v ∈ rest
            · rw [if_pos hvr]
            · rw [if_neg hvr]
          · by_cases hvr : v ∈ rest
            · rw [if_pos hvr, if_pos (List.mem_cons_of_mem _ hvr)]
            · rw [if_neg hvr, if_neg (by
                rw [List.mem_cons]
                rintro (h | h)
                exacts [hvx h, hvr h])]

set_option maxHeartbeats 1000000 in
/-- C10: `diff` treats its two frontier arguments as sets — replacing
either argument by any list with the same members (permutation,
duplication, …) leaves the result unchanged. -/
theorem C10_diff_set_semantics {cg : CausalGraph} {a a2 b b2 : List Nat}
    (ha : ∀ v, v ∈ a ↔ v ∈ a2) (hb : ∀ v, v ∈ b ↔ v ∈ b2) :
    diff cg a b = diff cg a2 b2 := by
  have hchar : ∀ (x y : List Nat),
      (y.foldl (fun s v => diffEnq s v DiffFlag.B)
        (x.foldl (fun s v => diffEnq s v DiffFlag.A)
          ⟨[], fun _ => none, 0⟩)).queue.Sorted (· ≥ ·) ∧
      (y.foldl (fun s v => diffEnq s v DiffFlag.B)
        (x.foldl (fun s v => diffEnq s v DiffFlag.A)
          ⟨[], fun _ => none, 0⟩)).queue.Nodup ∧
      (∀ v, v ∈ (y.foldl (fun s v => diffEnq s v DiffFlag.B)
        (x.foldl (fun s v => diffEnq s v DiffFlag.A)
          ⟨[], fun _ => none, 0⟩)).queue ↔ (v ∈ x ∨ v ∈ y)) ∧
      (∀ v, (y.foldl (fun s v => diffEnq s v DiffFlag.B)
        (x.foldl (fun s v => diffEnq s v DiffFlag.A)
          ⟨[], fun _ => none, 0⟩)).flags v =
        if v ∈ y then
          (match (if v ∈ x then some DiffFlag.A else none) with
            | none => some DiffFlag.B
            | some DiffFlag.A => some DiffFlag.Shared
            | some fl => some fl)
        else (if v ∈ x then some DiffFlag.A else none)) ∧
      ((y.foldl (fun s v => diffEnq s v DiffFlag.B)
        (x.foldl (fun s v => diffEnq s v DiffFlag.A)
          ⟨[], fun _ => none, 0⟩)).numShared =
        ((y.foldl (fun s v => diffEnq s v DiffFlag.B)
          (x.foldl (fun s v => diffEnq s v DiffFlag.A)
            ⟨[], fun _ => none, 0⟩)).queue.filter
          (fun v => (y.foldl (fun s v => diffEnq s v DiffFlag.B)
            (x.foldl (fun s v => diffEnq s v DiffFlag.A)
              ⟨[], fun _ => none, 0⟩)).flags v = some DiffFlag.Shared)).length) := by
    intro x y
    obtain ⟨h1A, h2A, h3A, h4A, h5A⟩ := diffEnqFoldA x ⟨[], fun _ => none, 0⟩
      List.sorted_nil List.nodup_nil
      (fun v => by rw [if_neg (List.not_mem_nil v)])
    obtain ⟨h1B, h2B, h3B, h4B, h5B⟩ := diffEnqFoldB y
      (x.foldl (fun s v => diffEnq s v DiffFlag.A) ⟨[], fun _ => none, 0⟩)
      h1A h2A
      (fun v => by
        rw [h4A v]
        by_cases hv : v ∈ (⟨[], fun _ => none, 0⟩ : DiffState).queue ∨ v ∈ x
        · rw [if_pos hv]
          simp only [reduceCtorEq, not_false_iff, true_iff]
          exact (h3A v).mpr hv
        · rw [if_neg hv]
          simp only [not_true_eq_false, false_iff]
          intro hmem
          exact hv ((h3A v).mp hmem))
      (by
        rw [h5A]
        have hnil : (x.foldl (fun s v => diffEnq s v DiffFlag.A)
            ⟨[], fun _ => none, 0⟩).queue.filter
            (fun v => (x.foldl (fun s v => diffEnq s v DiffFlag.A)
              ⟨[], fun _ => none, 0⟩).flags v = some DiffFlag.Shared) = [] := by
          rw [List.filter_eq_nil_iff]
          intro v hv
          rw [h4A v, if_pos ((h3A v).mp hv)]
          simp
        rw [hnil]
        rfl)
    refine ⟨h1B, h2B, fun v => ?_, fun v => ?_, h5B⟩
    · rw [h3B v, h3A v]
      simp
    · rw [h4B v, h4A v]
      simp only [List.not_mem_nil, false_or]
  obtain ⟨hs1, hn1, hm1, hf1, hc1⟩ := hchar a b
  obtain ⟨hs2, hn2, hm2, hf2, hc2⟩ := hchar a2 b2
  have hquq : (b.foldl (fun s v => diffEnq s v DiffFlag.B)
      (a.foldl (fun s v => diffEnq s v DiffFlag.A) ⟨[], fun _ => none, 0⟩)).queue =
      (b2.foldl (fun s v => diffEnq s v DiffFlag.B)
      (a2.foldl (fun s v => diffEnq s v DiffFlag.A) ⟨[], fun _ => none, 0⟩)).queue := by
    refine List.eq_of_perm_of_sorted ?_ hs1 hs2
    refine (List.perm_ext_iff_of_nodup hn1 hn2).mpr ?_
    intro v
    rw [hm1 v, hm2 v, ha v, hb v]
  have hflags : (b.foldl (fun s v => diffEnq s v DiffFlag.B)
      (a.foldl (fun s v => diffEnq s v DiffFlag.A) ⟨[], fun _ => none, 0⟩)).flags =
      (b2.foldl (fun s v => diffEnq s v DiffFlag.B)
      (a2.foldl (fun s v => diffEnq s v DiffFlag.A) ⟨[], fun _ => none, 0⟩)).flags := by
    funext v
    rw [hf1 v, hf2 v]
    by_cases hvb : v ∈ b
    · rw [if_pos hvb, if_pos ((hb v).mp hvb)]
      by_cases hva : v ∈ a
      · rw [if_pos hva, if_pos ((ha v).mp hva)]
      · rw [if_neg hva, if_neg (fun h => hva ((ha v).mpr h))]
    · rw [if_neg hvb, if_neg (fun h => hvb ((hb v).mpr h))]
      by_cases hva : v ∈ a
      · rw [if_pos hva, if_pos ((ha v).mp hva)]
      · rw [if_neg hva, if_neg (fun h => hva ((ha v).mpr h))]
  have hnum : (b.foldl (fun s v => diffEnq s v DiffFlag.B)
      (a.foldl (fun s v => diffEnq s v DiffFlag.A) ⟨[], fun _ => none, 0⟩)).numShared =
      (b2.foldl (fun s v => diffEnq s v DiffFlag.B)
      (a2.foldl (fun s v => diffEnq s v DiffFlag.A) ⟨[], fun _ => none, 0⟩)).numShared := by
    rw [hc1, hc2, hquq, hflags]
  have hst : (b.foldl (fun s v => diffEnq s v DiffFlag.B)
      (a.foldl (fun s v => diffEnq s v DiffFlag.A) ⟨[], fun _ => none, 0⟩)) =
      (b2.foldl (fun s v => diffEnq s v DiffFlag.B)
      (a2.foldl (fun s v => diffEnq s v DiffFlag.A) ⟨[], fun _ => none, 0⟩)) := by
    rw [show (b.foldl (fun s v => diffEnq s v DiffFlag.B)
      (a.foldl (fun s v => diffEnq s v DiffFlag.A) ⟨[], fun _ => none, 0⟩)) =
      (⟨(b.foldl (fun s v => diffEnq s v DiffFlag.B)
          (a.foldl (fun s v => diffEnq s v DiffFlag.A) ⟨[], fun _ => none, 0⟩)).queue,
        (b.foldl (fun s v => diffEnq s v DiffFlag.B)
          (a.foldl (fun s v => diffEnq s v DiffFlag.A) ⟨[], fun _ => none, 0⟩)).flags,
        (b.foldl (fun s v => diffEnq s v DiffFlag.B)
          (a.foldl (fun s v => diffEnq s v DiffFlag.A)
            ⟨[], fun _ => none, 0⟩)).numShared⟩ : DiffState) from rfl,
      hquq, hflags, hnum]
  show (diffLoop cg (nextLV cg + 1)
      (b.foldl (fun s v => diffEnq s v DiffFlag.B)
        (a.foldl (fun s v => diffEnq s v DiffFlag.A)
          ⟨[], fun _ => none, 0⟩)) [] []).map (fun p => (p.1.reverse, p.2.reverse)) =
    (diffLoop cg (nextLV cg + 1)
      (b2.foldl (fun s v => diffEnq s v DiffFlag.B)
        (a2.foldl (fun s v => diffEnq s v DiffFlag.A)
          ⟨[], fun _ => none, 0⟩)) [] []).map (fun p => (p.1.reverse, p.2.reverse))
  rw [hst]

/-- Witness for C10: permuting and duplicating both frontiers of a
concrete `diff` call. -/
theorem C10_diff_set_semantics_witness :
    (∀ v, v ∈ [1, 3] ↔ v ∈ [3, 1, 1]) ∧ (∀ v, v ∈ [3] ↔ v ∈ [3, 3]) ∧
    diff (applyOps createCG [CGOp.opAdd "a" 0 2 [], CGOp.opAdd "b" 0 2 []])
      [1, 3] [3] =
    diff (applyOps createCG [CGOp.opAdd "a" 0 2 [], CGOp.opAdd "b" 0 2 []])
      [3, 1, 1] [3, 3] :=
  ⟨fun v => by simp [List.mem_cons]; tauto,
   fun v => by simp [List.mem_cons],
   C10_diff_set_semantics (fun v => by simp [List.mem_cons]; tauto)
     (fun v => by simp [List.mem_cons])⟩

theorem avGet_inv {av : List (String × List ClientEntry)}
    (hinv : ∀ p ∈ av, clientListOrdered p.2 = true ∧ p.2 ≠ [] ∧
      maxMergedClients p.2 = true) (a : String) :
    clientListOrdered (avGet av a) = true ∧ maxMergedClients (avGet av a) = true := by
  unfold avGet
  rcases hf : av.find? (fun p => p.1 = a) with _ | p
  · rw [hf]
    exact ⟨rfl, rfl⟩
  · rw [hf]
    simp only [Option.map_some', Option.getD_some]
    have := hinv p (List.mem_of_find?_eq_some hf)
    exact ⟨this.1, this.2.2⟩

theorem chained_append_split {v0 : Nat} {pre suf : List CGEntry}
    (h : entriesChainedFrom v0 (pre ++ suf) = true) :
    entriesChainedFrom v0 pre = true ∧
      entriesChainedFrom (entriesEndFrom v0 pre) suf = true := by
  induction pre generalizing v0 with
  | nil => exact ⟨rfl, h⟩
  | cons a rest ih =>
    rw [List.cons_append] at h
    obtain ⟨h1, h2, h3, hrest⟩ := entriesChainedFrom_cons h
    obtain ⟨hp, hs⟩ := ih hrest
    refine ⟨entriesChainedFrom_cons_intro h1 h2 h3 hp, ?_⟩
    rw [entriesEndFrom_cons]
    exact hs

theorem ordered_head_min {a : ClientEntry} {t : List ClientEntry}
    (h : clientListOrdered (a :: t) = true) :
    ∀ ce ∈ t, a.seqEnd ≤ ce.seq := by
  intro ce hce
  obtain ⟨n, hn⟩ := List.mem_iff_get.mp hce
  have hg : t.getD (n : Nat) default = ce := by
    rw [List.getD_eq_getElem t default n.isLt, ← List.get_eq_getElem]
    exact hn
  have := clientListOrdered_head_le h n n.isLt
  rw [hg] at this
  exact this

theorem maxMergedClients_tail {a : ClientEntry} {l : List ClientEntry}
    (h : maxMergedClients (a :: l) = true) : maxMergedClients l = true :=
  (maxMergedClients_cons_iff.mp h).1

/-- If two ordered, maximally merged lists have heads starting at the same
seq and version, and the second list's mapping is included in the first's,
then the second head's run cannot outlast the first's: a longer run would
force the first list to contain a mergeable continuation. -/
theorem canonical_head_end_le {a b : ClientEntry} {t1 t2 : List ClientEntry}
    (ho1 : clientListOrdered (a :: t1) = true)
    (ho2 : clientListOrdered (b :: t2) = true)
    (hm1 : maxMergedClients (a :: t1) = true)
    (hseq : a.seq = b.seq) (hver : a.version = b.version)
    (himp : ∀ q v, clientMapsTo (b :: t2) q v → clientMapsTo (a :: t1) q v) :
    b.seqEnd ≤ a.seqEnd := by
  by_contra hlt
  push_neg at hlt
  have hane := (clientListOrdered_cons ho1).1
  have hbne := (clientListOrdered_cons ho2).1
  have hb : clientMapsTo (b :: t2) a.seqEnd (b.version + (a.seqEnd - b.seq)) :=
    ⟨b, List.mem_cons_self b t2, by omega, by omega, rfl⟩
  obtain ⟨ce, hcem, hc1, hc2, hc3⟩ := himp _ _ hb
  rcases List.mem_cons.mp hcem with rfl | hcem
  · omega
  · have hge := ordered_head_min ho1 ce hcem
    have hceq : ce.seq = a.seqEnd := by omega
    cases t1 with
    | nil => exact absurd hcem (List.not_mem_nil ce)
    | cons c t1x =>
      have hcec : ce = c := by
        rcases List.mem_cons.mp hcem with rfl | hcem2
        · rfl
        · exfalso
          have g1 := ordered_head_min (clientListOrdered_cons ho1).2 ce hcem2
          have g2 := (clientListOrdered_cons (clientListOrdered_cons ho1).2).1
          have g3 := ordered_head_min ho1 c (List.mem_cons_self c t1x)
          omega
      subst hcec
      have hcan : canAppendClientEntry a ce = true := by
        unfold canAppendClientEntry
        simp only [Bool.and_eq_true, decide_eq_true_eq]
        exact ⟨by omega, by omega⟩
      have hne := (maxMergedClients_cons_iff.mp hm1).2 ce (by simp)
      rw [hcan] at hne
      exact absurd hne (by simp)

/-- An ordered, maximally merged client-entry list is determined by the
seq↦LV mapping it denotes: the run-length encoding is canonical. -/
theorem clientList_canonical {l1 : List ClientEntry} : ∀ {l2 : List ClientEntry},
    clientListOrdered l1 = true → clientListOrdered l2 = true →
    maxMergedClients l1 = true → maxMergedClients l2 = true →
    (∀ q v, clientMapsTo l1 q v ↔ clientMapsTo l2 q v) →
    l1 = l2 := by
  induction l1 with
  | nil =>
    intro l2 _ ho2 _ _ heq
    cases l2 with
    | nil => rfl
    | cons b t2 =>
      exfalso
      have hbne : b.seq < b.seqEnd := (clientListOrdered_cons ho2).1
      exact clientMapsTo_nil ((heq b.seq b.version).mpr
        ⟨b, List.mem_cons_self b t2, le_refl _, hbne, by omega⟩)
  | cons a t1 ih =>
    intro l2 ho1 ho2 hm1 hm2 heq
    cases l2 with
    | nil =>
      exfalso
      have hane : a.seq < a.seqEnd := (clientListOrdered_cons ho1).1
      exact clientMapsTo_nil ((heq a.seq a.version).mp
        ⟨a, List.mem_cons_self a t1, le_refl _, hane, by omega⟩)
    | cons b t2 =>
      have hane : a.seq < a.seqEnd := (clientListOrdered_cons ho1).1
      have hbne : b.seq < b.seqEnd := (clientListOrdered_cons ho2).1
      have ht1 : clientListOrdered t1 = true := (clientListOrdered_cons ho1).2
      have ht2 : clientListOrdered t2 = true := (clientListOrdered_cons ho2).2
      have hseq : a.seq = b.seq := by
        have h1 : clientMapsTo (b :: t2) a.seq a.version :=
          (heq a.seq a.version).mp ⟨a, List.mem_cons_self a t1, le_refl _, hane, by omega⟩
        have h2 : clientMapsTo (a :: t1) b.seq b.version :=
          (heq b.seq b.version).mpr ⟨b, List.mem_cons_self b t2, le_refl _, hbne, by omega⟩
        obtain ⟨c1, hc1m, hc11, -, -⟩ := h1
        obtain ⟨c2, hc2m, hc21, -, -⟩ := h2
        rcases List.mem_cons.mp hc1m with rfl | hc1m
        · rcases List.mem_cons.mp hc2m with rfl | hc2m
          · omega
          · have := ordered_head_min ho1 c2 hc2m
            omega
        · have g1 := ordered_head_min ho2 c1 hc1m
          rcases List.mem_cons.mp hc2m with rfl | hc2m
          · omega
          · have g2 := ordered_head_min ho1 c2 hc2m
            omega
      have hver : a.version = b.version := by
        have h1 : clientMapsTo (b :: t2) a.seq a.version :=
          (heq a.seq a.version).mp ⟨a, List.mem_cons_self a t1, le_refl _, hane, by omega⟩
        have h2 : clientMapsTo (b :: t2) a.seq b.version :=
          ⟨b, List.mem_cons_self b t2, by omega, by omega, by omega⟩
        exact clientMapsTo_unique ho2 h1 h2
      have hend : a.seqEnd = b.seqEnd := by
        have h1 := canonical_head_end_le ho1 ho2 hm1 hseq hver
          (fun q v h => (heq q v).mpr h)
        have h2 := canonical_head_end_le ho2 ho1 hm2 hseq.symm hver.symm
          (fun q v h => (heq q v).mp h)
        omega
      have hab : a = b := by
        cases a
        cases b
        simp only [ClientEntry.mk.injEq]
        exact ⟨hseq, hend, hver⟩
      subst hab
      have hteq : ∀ q v, clientMapsTo t1 q v ↔ clientMapsTo t2 q v := by
        intro q v
        constructor
        · intro h
          obtain ⟨ce, hcem, hc1, hc2, hc3⟩ := h
          have hge := ordered_head_min ho1 ce hcem
          have h2 := (heq q v).mp (clientMapsTo_cons.mpr (Or.inr ⟨ce, hcem, hc1, hc2, hc3⟩))
          rcases clientMapsTo_cons.mp h2 with ⟨g1, g2, g3⟩ | h3
          · omega
          · exact h3
        · intro h
          obtain ⟨ce, hcem, hc1, hc2, hc3⟩ := h
          have hge := ordered_head_min ho2 ce hcem
          have h2 := (heq q v).mpr (clientMapsTo_cons.mpr (Or.inr ⟨ce, hcem, hc1, hc2, hc3⟩))
          rcases clientMapsTo_cons.mp h2 with ⟨g1, g2, g3⟩ | h3
          · omega
          · exact h3
      rw [ih ht1 ht2 (maxMergedClients_tail hm1) (maxMergedClients_tail hm2) hteq]

/-- Under the §3 invariants a public `(agent, seq)` pair denotes at most
one LV. -/
theorem WF_entryMapsTo_unique {cg : CausalGraph} (hwf : WF cg)
    {v1 v2 : Nat} {a : String} {q : Nat}
    (h1 : entryMapsTo cg.entries v1 a q) (h2 : entryMapsTo cg.entries v2 a q) :
    v1 = v2 := by
  have ho : ∀ x, clientListOrdered (avListOf cg x) = true :=
    fun x => (WF_avListOf hwf x).1
  have hec := (agreeEC_iff ho).mp hwf.2.2.2.2.1
  exact clientMapsTo_unique (ho a) (hec v1 a q h1) (hec v2 a q h2)

theorem avGet_avUpdate_self {av : List (String × List ClientEntry)} {agent : String}
    {ce : ClientEntry} :
    avGet (avUpdate av agent ce) agent = insertClientRLEList (avGet av agent) ce := by
  unfold avGet
  rw [avUpdate_find_self]
  rfl

theorem avGet_avUpdate_other {av : List (String × List ClientEntry)} {agent b : String}
    {ce : ClientEntry} (hb : b ≠ agent) :
    avGet (avUpdate av agent ce) b = avGet av b := by
  unfold avGet
  rw [avUpdate_find_other hb]

/-- Folding the `add`-style agent-index update over a suffix of a
well-formed graph's entries preserves the per-agent invariants and extends
the denoted mapping to exactly the processed entries. -/
theorem avFold_spec {cg : CausalGraph} (hwf : WF cg) :
    ∀ (suf pre : List CGEntry), cg.entries = pre ++ suf →
    ∀ av : List (String × List ClientEntry),
      (av.map Prod.fst).Nodup →
      (∀ p ∈ av, clientListOrdered p.2 = true ∧ p.2 ≠ [] ∧ maxMergedClients p.2 = true) →
      (∀ a q v, clientMapsTo (avGet av a) q v ↔ entryMapsTo pre v a q) →
      ((suf.foldl (fun acc e => avUpdate acc e.agent
          { seq := e.seq, seqEnd := e.seq + (e.vEnd - e.version), version := e.version })
          av).map Prod.fst).Nodup ∧
      (∀ p ∈ suf.foldl (fun acc e => avUpdate acc e.agent
          { seq := e.seq, seqEnd := e.seq + (e.vEnd - e.version), version := e.version }) av,
        clientListOrdered p.2 = true ∧ p.2 ≠ [] ∧ maxMergedClients p.2 = true) ∧
      (∀ a q v, clientMapsTo (avGet (suf.foldl (fun acc e => avUpdate acc e.agent
          { seq := e.seq, seqEnd := e.seq + (e.vEnd - e.version), version := e.version }) av) a)
          q v ↔ entryMapsTo cg.entries v a q) := by
  intro suf
  induction suf with
  | nil =>
    intro pre hsplit av hnd hinv hmap
    rw [List.append_nil] at hsplit
    rw [hsplit]
    exact ⟨hnd, hinv, hmap⟩
  | cons e rest ih =>
    intro pre hsplit av hnd hinv hmap
    have hch : entriesChainedFrom 0 (pre ++ e :: rest) = true := by
      rw [← hsplit]
      exact hwf.1
    obtain ⟨hpre, hsuf⟩ := chained_append_split hch
    obtain ⟨hev, helt, -, hrest⟩ := entriesChainedFrom_cons hsuf
    have hub : ∀ x ∈ pre, x.vEnd ≤ e.version := by
      intro x hx
      have := chained_mem_ub hpre x hx
      omega
    have hemem : e ∈ cg.entries := by
      rw [hsplit]
      exact List.mem_append.mpr (Or.inr (List.mem_cons_self e rest))
    have hget := avGet_inv hinv e.agent
    have hbound : ∀ ce ∈ avGet av e.agent,
        ce.version + (ce.seqEnd - ce.seq) ≤ e.version := by
      intro ce hce
      have hcene : ce.seq < ce.seqEnd := ordered_mem_ne hget.1 hce
      have hmt : clientMapsTo (avGet av e.agent) (ce.seqEnd - 1)
          (ce.version + (ce.seqEnd - 1 - ce.seq)) :=
        ⟨ce, hce, by omega, by omega, rfl⟩
      obtain ⟨x, hxm, hx1, hx2, -, -⟩ := (hmap e.agent _ _).mp hmt
      have := hub x hxm
      omega
    have hdisj : ∀ ce ∈ avGet av e.agent,
        ce.seqEnd ≤ e.seq ∨ e.seq + (e.vEnd - e.version) ≤ ce.seq := by
      intro ce hce
      by_contra hno
      push_neg at hno
      have hcene : ce.seq < ce.seqEnd := ordered_mem_ne hget.1 hce
      have hq : ∃ q, ce.seq ≤ q ∧ q < ce.seqEnd ∧ e.seq ≤ q ∧
          q < e.seq + (e.vEnd - e.version) := by
        by_cases hcs : ce.seq ≤ e.seq
        · exact ⟨e.seq, hcs, by omega, le_refl _, by omega⟩
        · exact ⟨ce.seq, le_refl _, by omega, by omega, by omega⟩
      obtain ⟨q, hq1, hq2, hq3, hq4⟩ := hq
      have hm1 : entryMapsTo cg.entries (ce.version + (q - ce.seq)) e.agent q := by
        rw [hsplit]
        exact entryMapsTo_append.mpr (Or.inl
          ((hmap e.agent q _).mp ⟨ce, hce, hq1, hq2, rfl⟩))
      have hm2 : entryMapsTo cg.entries (e.version + (q - e.seq)) e.agent q :=
        ⟨e, hemem, by omega, by omega, rfl, by omega⟩
      have hvv := WF_entryMapsTo_unique hwf hm1 hm2
      have hlt : ce.version + (q - ce.seq) < e.version := by
        have := hbound ce hce
        omega
      omega
    have hne2 : e.seq < e.seq + (e.vEnd - e.version) := by omega
    obtain ⟨hio, him, hineq, himap⟩ :=
      @insertClientRLEList_spec (avGet av e.agent)
        { seq := e.seq, seqEnd := e.seq + (e.vEnd - e.version), version := e.version }
        hget.1 hget.2 hbound hne2 hdisj
    have hsp2 : cg.entries = (pre ++ [e]) ++ rest := by
      rw [hsplit, List.append_assoc]
      rfl
    have hinv2 : ∀ p ∈ avUpdate av e.agent
        { seq := e.seq, seqEnd := e.seq + (e.vEnd - e.version), version := e.version },
        clientListOrdered p.2 = true ∧ p.2 ≠ [] ∧ maxMergedClients p.2 = true := by
      intro p hp
      rcases avUpdate_mem hnd hp with ⟨hpm, -⟩ | hpe
      · exact hinv p hpm
      · rw [hpe]
        exact ⟨hio, hineq, him⟩
    have hmap2 : ∀ a q v, clientMapsTo (avGet (avUpdate av e.agent
        { seq := e.seq, seqEnd := e.seq + (e.vEnd - e.version), version := e.version }) a) q v ↔
        entryMapsTo (pre ++ [e]) v a q := by
      intro a q v
      by_cases ha : a = e.agent
      · subst ha
        rw [avGet_avUpdate_self, himap q v, hmap e.agent q v, entryMapsTo_append]
        refine or_congr Iff.rfl ?_
        dsimp only
        constructor
        · rintro ⟨h1, h2, h3⟩
          exact ⟨e, List.mem_singleton.mpr rfl, by omega, by omega, rfl, by omega⟩
        · rintro ⟨x2, hx2, g1, g2, g3, g4⟩
          have hx2e : x2 = e := List.mem_singleton.mp hx2
          subst hx2e
          exact ⟨by omega, by omega, by omega⟩
      · rw [avGet_avUpdate_other ha, hmap a q v, entryMapsTo_append]
        constructor
        · exact fun h => Or.inl h
        · rintro (h | h)
          · exact h
          · obtain ⟨x2, hx2, -, -, hag, -⟩ := h
            have hx2e : x2 = e := List.mem_singleton.mp hx2
            subst hx2e
            exact absurd hag.symm ha
    simp only [List.foldl_cons]
    exact ih (pre ++ [e]) hsp2 _ (avUpdate_keys_nodup hnd) hinv2 hmap2

/-- The deserialisation fold, run on the serialisation of a chained entry
list, reproduces the entries verbatim and performs the standard frontier
and agent-index folds. -/
theorem fromSerialized_fold (es : List CGEntry) :
    ∀ (st : CausalGraph) (v : Nat), entriesChainedFrom v es = true →
    ((es.map (fun e =>
      ({ agent := e.agent, seq := e.seq, len := e.vEnd - e.version,
         parents := e.parents } : SerializedCGEntryV3))).foldl
      (fun (st : CausalGraph × Nat) e =>
        let v := st.2
        ({ entries := st.1.entries ++
             [{ version := v, vEnd := v + e.len, agent := e.agent, seq := e.seq,
                parents := e.parents }],
           heads := advanceFrontier st.1.heads (v + e.len - 1) e.parents,
           agentToVersion := avUpdate st.1.agentToVersion e.agent
             { seq := e.seq, seqEnd := e.seq + e.len, version := v } },
         v + e.len))
      (st, v)) =
    ({ entries := st.entries ++ es,
       heads := es.foldl (fun acc e => advanceFrontier acc (e.vEnd - 1) e.parents) st.heads,
       agentToVersion := es.foldl (fun acc e => avUpdate acc e.agent
         { seq := e.seq, seqEnd := e.seq + (e.vEnd - e.version), version := e.version })
         st.agentToVersion },
     entriesEndFrom v es) := by
  induction es with
  | nil =>
    intro st v _
    simp only [List.map_nil, List.foldl_nil, List.append_nil]
    rfl
  | cons e rest ih =>
    intro st v hch
    obtain ⟨hv, hlt, -, hrest⟩ := entriesChainedFrom_cons hch
    subst hv
    simp only [List.map_cons, List.foldl_cons]
    have hE : e.version + (e.vEnd - e.version) = e.vEnd := by omega
    rw [hE]
    rw [ih _ e.vEnd hrest]
    dsimp only
    rw [entriesEndFrom_cons]
    rw [List.append_assoc]
    rfl

/-- Two graphs whose agent lists are never empty and agree pointwise also
agree at the `agentToVersion[agent]` access level. -/
theorem agentEntries_congr {cg1 cg2 : CausalGraph} {a : String}
    (h1 : ∀ p ∈ cg1.agentToVersion, p.2 ≠ [])
    (h2 : ∀ p ∈ cg2.agentToVersion, p.2 ≠ [])
    (h : avListOf cg1 a = avListOf cg2 a) :
    agentEntries cg1 a = agentEntries cg2 a := by
  unfold agentEntries
  unfold avListOf at h
  rcases hf1 : cg1.agentToVersion.find? (fun p => p.1 = a) with _ | p1 <;>
    rcases hf2 : cg2.agentToVersion.find? (fun p => p.1 = a) with _ | p2 <;>
    rw [hf1, hf2] at h ⊢
  · simp only [Option.map_none', Option.map_some', Option.getD_none, Option.getD_some] at h
    exact absurd h.symm (h2 p2 (List.mem_of_find?_eq_some hf2))
  · simp only [Option.map_none', Option.map_some', Option.getD_none, Option.getD_some] at h
    exact absurd h (h1 p1 (List.mem_of_find?_eq_some hf1))
  · simp only [Option.map_some', Option.getD_some] at h
    simp only [Option.map_some']
    rw [h]

/-- C6: on a graph satisfying the §3 invariants,
`fromSerialized (serialize cg)` rebuilds a graph that deep-equals `cg`:
identical entries, identical heads, and an identical client-entry list for
every agent (JS `deepEqual` of the `agentToVersion` object compares the
per-key values, not key insertion order). -/
theorem C6_serialize_roundtrip {cg : CausalGraph} (hwf : WF cg) :
    (fromSerialized (serialize cg)).entries = cg.entries ∧
    (fromSerialized (serialize cg)).heads = cg.heads ∧
    ∀ a, agentEntries (fromSerialized (serialize cg)) a = agentEntries cg a := by
  have h := fromSerialized_fold cg.entries createCG 0 hwf.1
  have hfs : fromSerialized (serialize cg) =
      { entries := cg.entries,
        heads := entriesFoldHeads cg.entries,
        agentToVersion := cg.entries.foldl (fun acc e => avUpdate acc e.agent
          { seq := e.seq, seqEnd := e.seq + (e.vEnd - e.version),
            version := e.version }) [] } := by
    calc fromSerialized (serialize cg)
        = ((cg.entries.map (fun e =>
            ({ agent := e.agent, seq := e.seq, len := e.vEnd - e.version,
               parents := e.parents } : SerializedCGEntryV3))).foldl
            (fun (st : CausalGraph × Nat) e =>
              let v := st.2
              ({ entries := st.1.entries ++
                   [{ version := v, vEnd := v + e.len, agent := e.agent, seq := e.seq,
                      parents := e.parents }],
                 heads := advanceFrontier st.1.heads (v + e.len - 1) e.parents,
                 agentToVersion := avUpdate st.1.agentToVersion e.agent
                   { seq := e.seq, seqEnd := e.seq + e.len, version := v } },
               v + e.len))
            (createCG, 0)).1 := rfl
      _ = _ := by rw [h]; exact rfl
  obtain ⟨hnd, hinv, hmap⟩ := avFold_spec hwf cg.entries [] rfl []
    List.nodup_nil (fun p hp => absurd hp (List.not_mem_nil p))
    (fun a q v => iff_of_false clientMapsTo_nil entryMapsTo_nil)
  refine ⟨by rw [hfs], by rw [hfs]; exact hwf.2.2.2.2.2.2.symm, ?_⟩
  intro a
  have hoC := WF_avListOf hwf a
  have hmapC : ∀ q v, clientMapsTo (avListOf cg a) q v ↔ entryMapsTo cg.entries v a q := by
    intro q v
    constructor
    · exact (agreeCE_iff hwf.1 hwf.2.2.2.1).mp hwf.2.2.2.2.2.1 a q v
    · exact (agreeEC_iff (fun x => (WF_avListOf hwf x).1)).mp hwf.2.2.2.2.1 v a q
  have hoR := avGet_inv hinv a
  have hcanon : avGet (cg.entries.foldl (fun acc e => avUpdate acc e.agent
      { seq := e.seq, seqEnd := e.seq + (e.vEnd - e.version),
        version := e.version }) []) a = avListOf cg a :=
    clientList_canonical hoR.1 hoC.1 hoR.2 hoC.2
      (fun q v => (hmap a q v).trans (hmapC q v).symm)
  refine agentEntries_congr ?_ ?_ ?_
  · rw [hfs]
    exact fun p hp => (hinv p hp).2.1
  · exact fun p hp => (hwf.2.2.1 p hp).2.1
  · rw [hfs]
    exact hcanon

/-- Witness for C6 on a concrete three-agent graph. -/
theorem C6_serialize_roundtrip_witness :
    WF (applyOps createCG [CGOp.opAdd "a" 0 2 [], CGOp.opAdd "b" 0 2 [],
      CGOp.opAdd "c" 0 1 [1, 3]]) ∧
    ((fromSerialized (serialize (applyOps createCG [CGOp.opAdd "a" 0 2 [],
        CGOp.opAdd "b" 0 2 [], CGOp.opAdd "c" 0 1 [1, 3]]))).entries =
      (applyOps createCG [CGOp.opAdd "a" 0 2 [], CGOp.opAdd "b" 0 2 [],
        CGOp.opAdd "c" 0 1 [1, 3]]).entries ∧
     (fromSerialized (serialize (applyOps createCG [CGOp.opAdd "a" 0 2 [],
        CGOp.opAdd "b" 0 2 [], CGOp.opAdd "c" 0 1 [1, 3]]))).heads =
      (applyOps createCG [CGOp.opAdd "a" 0 2 [], CGOp.opAdd "b" 0 2 [],
        CGOp.opAdd "c" 0 1 [1, 3]]).heads ∧
     ∀ a, agentEntries (fromSerialized (serialize (applyOps createCG
        [CGOp.opAdd "a" 0 2 [], CGOp.opAdd "b" 0 2 [],
         CGOp.opAdd "c" 0 1 [1, 3]]))) a =
      agentEntries (applyOps createCG [CGOp.opAdd "a" 0 2 [],
        CGOp.opAdd "b" 0 2 [], CGOp.opAdd "c" 0 1 [1, 3]]) a) :=
  ⟨by decide, C6_serialize_roundtrip (by decide)⟩

theorem pqEnqFold_mem (f : Nat → Nat) :
    ∀ (ps Q : List Nat) (w : Nat),
      w ∈ ps.foldl (fun q p => pqEnq q (f p)) Q ↔ (w ∈ Q ∨ ∃ p ∈ ps, w = f p) := by
  intro ps
  induction ps with
  | nil =>
    intro Q w
    simp
  | cons p rest ih =>
    intro Q w
    rw [List.foldl_cons, ih, pqEnq_mem]
    constructor
    · rintro ((rfl | hw) | ⟨p2, hp2, rfl⟩)
      · exact Or.inr ⟨p, List.mem_cons_self _ _, rfl⟩
      · exact Or.inl hw
      · exact Or.inr ⟨p2, List.mem_cons_of_mem _ hp2, rfl⟩
    · rintro (hw | ⟨p2, hp2, rfl⟩)
      · exact Or.inl (Or.inr hw)
      · rcases List.mem_cons.mp hp2 with rfl | hp3
        · exact Or.inl (Or.inl rfl)
        · exact Or.inr ⟨p2, hp3, rfl⟩

theorem pqEnqFold_sorted (f : Nat → Nat) :
    ∀ (ps Q : List Nat), Q.Sorted (· ≥ ·) →
      (ps.foldl (fun q p => pqEnq q (f p)) Q).Sorted (· ≥ ·) := by
  intro ps
  induction ps with
  | nil =>
    intro Q h
    exact h
  | cons p rest ih =>
    intro Q h
    rw [List.foldl_cons]
    exact ih _ (pqEnq_sorted h _)

theorem pqEnqFold_perm (f : Nat → Nat) :
    ∀ (ps Q : List Nat),
      List.Perm (ps.foldl (fun q p => pqEnq q (f p)) Q) (ps.map f ++ Q) := by
  intro ps
  induction ps with
  | nil =>
    intro Q
    simp
  | cons p rest ih =>
    intro Q
    rw [List.foldl_cons, List.map_cons]
    refine (ih (pqEnq Q (f p))).trans ?_
    refine (List.Perm.append_left (rest.map f) (List.perm_orderedInsert _ _ _)).trans ?_
    exact List.perm_middle

/-- Enqueuing odd-encoded parents leaves the number of even (input)
entries unchanged. -/
theorem pqEnqFold_even_count (ps Q : List Nat) :
    ((ps.foldl (fun q p => pqEnq q (p * 2 + 1)) Q).filter (fun w => w % 2 = 0)).length
      = (Q.filter (fun w => w % 2 = 0)).length := by
  have hperm := pqEnqFold_perm (fun p => p * 2 + 1) ps Q
  rw [← List.countP_eq_length_filter, ← List.countP_eq_length_filter]
  rw [hperm.countP_eq, List.countP_append]
  have hz : (ps.map (fun p => p * 2 + 1)).countP (fun w => decide (w % 2 = 0)) = 0 := by
    rw [List.countP_eq_zero]
    rintro w hw
    obtain ⟨p, -, rfl⟩ := List.mem_map.mp hw
    simp only [decide_eq_true_eq]
    omega
  rw [hz, Nat.zero_add]

set_option maxHeartbeats 1600000 in
/-- Correctness of the main loop of `findDominators2`: on a descending
sorted queue of encoded values (`2v` input / `2p+1` parent) whose decoded
values are known LVs, with fuel above the head and the input counter equal
to the number of even entries, the loop terminates and emits `(u, true)`
exactly for the queue inputs `u` that no other queue value reaches (an
entry with the same decoded value counts as "other" when it is odd or a
duplicate); the `true` events come out in strictly decreasing order. -/
theorem dominatorsLoop_spec {cg : CausalGraph}
    (hch : entriesChainedFrom 0 cg.entries = true) :
    ∀ fuel (Q : List Nat) (rem : Nat) (acc : List (Nat × Bool)),
      Q.Sorted (· ≥ ·) →
      (∀ q ∈ Q, q / 2 < nextLV cg) →
      (∀ h ∈ Q.head?, h < fuel) →
      rem = (Q.filter (fun w => w % 2 = 0)).length →
      ∃ evs, dominatorsLoop cg fuel Q rem acc = some (acc ++ evs) ∧
        (∀ u, (u, true) ∈ evs ↔ (2 * u ∈ Q ∧
          ¬ ∃ q ∈ Q, Reaches cg (q / 2) u ∧ (u < q / 2 ∨ q % 2 = 1))) ∧
        List.Pairwise (· > ·) ((evs.filter (fun p => p.2)).map (fun p => p.1)) := by
  intro fuel
  induction fuel with
  | zero =>
    intro Q rem acc hsort hbound hfuel hrem
    cases Q with
    | nil =>
      refine ⟨[], by rw [List.append_nil]; rfl, fun u => ?_, by simp⟩
      simp
    | cons vEnc rest =>
      cases rem with
      | zero =>
        refine ⟨[], by rw [List.append_nil]; rfl, fun u => ?_, by simp⟩
        constructor
        · intro h
          exact absurd h (List.not_mem_nil _)
        · rintro ⟨hmem, -⟩
          exfalso
          have hf : (2 * u) ∈ (vEnc :: rest).filter (fun w => w % 2 = 0) :=
            List.mem_filter.mpr ⟨hmem, by simp only [decide_eq_true_eq]; omega⟩
          have := List.length_pos_of_mem hf
          omega
      | succ r =>
        exfalso
        have := hfuel vEnc (by simp)
        omega
  | succ n ih =>
    intro Q rem acc hsort hbound hfuel hrem
    cases Q with
    | nil =>
      refine ⟨[], by rw [List.append_nil]; rfl, fun u => ?_, by simp⟩
      simp
    | cons vEnc rest =>
      cases rem with
      | zero =>
        refine ⟨[], by rw [List.append_nil]; rfl, fun u => ?_, by simp⟩
        constructor
        · intro h
          exact absurd h (List.not_mem_nil _)
        · rintro ⟨hmem, -⟩
          exfalso
          have hf : (2 * u) ∈ (vEnc :: rest).filter (fun w => w % 2 = 0) :=
            List.mem_filter.mpr ⟨hmem, by simp only [decide_eq_true_eq]; omega⟩
          have := List.length_pos_of_mem hf
          omega
      | succ r =>
        have hvN : vEnc / 2 < nextLV cg := hbound vEnc (List.mem_cons_self _ _)
        obtain ⟨e, hemem, he1, he2⟩ := chained_coverage hch (vEnc / 2) (Nat.zero_le _) hvN
        have hqsorted : rest.Sorted (· ≥ ·) := (List.sorted_cons.mp hsort).2
        have hhead_ge : ∀ w ∈ rest, w ≤ vEnc := (List.sorted_cons.mp hsort).1
        have hfv : vEnc < n + 1 := hfuel vEnc (by simp)
        rw [dominatorsLoop, rawFindEntryContaining_eq_some hch hemem he1 he2]
        simp only
        have hsplit_rest : rest.takeWhile (fun w => w ≥ e.version * 2) ++
            rest.dropWhile (fun w => w ≥ e.version * 2) = rest :=
          List.takeWhile_append_dropWhile _ _
        have hdr_ge : ∀ w ∈ rest.takeWhile (fun w => w ≥ e.version * 2),
            e.version * 2 ≤ w := by
          intro w hw
          simpa using List.mem_takeWhile_imp hw
        have hr2_sub : List.Sublist (rest.dropWhile (fun w => w ≥ e.version * 2)) rest :=
          rest.dropWhile_sublist _
        have hr2_sorted : (rest.dropWhile (fun w => w ≥ e.version * 2)).Sorted (· ≥ ·) :=
          List.Pairwise.sublist hr2_sub hqsorted
        have hr2_lt : ∀ w ∈ rest.dropWhile (fun w => w ≥ e.version * 2),
            w < e.version * 2 := by
          intro w hw
          rcases hQ2 : rest.dropWhile (fun w => w ≥ e.version * 2) with _ | ⟨h0, tl⟩
          · rw [hQ2] at hw
            exact absurd hw (List.not_mem_nil w)
          · have hhead := List.head?_dropWhile_not
              (fun w => decide (w ≥ e.version * 2)) rest
            rw [hQ2] at hhead hw
            simp only [List.head?_cons, decide_eq_false_iff_not, not_le] at hhead
            rcases List.mem_cons.mp hw with rfl | hwtl
            · exact hhead
            · have hs2 := List.sorted_cons.mp (by rw [hQ2] at hr2_sorted; exact hr2_sorted)
              have hle := hs2.1 w hwtl
              omega
        have hplt : ∀ p ∈ e.parents, p < e.version :=
          (chained_mem_bounds hch e hemem).2.2
        have hQ2_mem : ∀ w, w ∈ e.parents.foldl (fun q p => pqEnq q (p * 2 + 1))
            (rest.dropWhile (fun w => w ≥ e.version * 2)) ↔
            (w ∈ rest.dropWhile (fun w => w ≥ e.version * 2) ∨
              ∃ p ∈ e.parents, w = p * 2 + 1) :=
          fun w => pqEnqFold_mem _ e.parents _ w
        have hQ2_sorted := pqEnqFold_sorted (fun p => p * 2 + 1) e.parents _ hr2_sorted
        have h2e_le : e.version * 2 ≤ vEnc := by omega
        have hQ2_bound : ∀ q ∈ e.parents.foldl (fun q p => pqEnq q (p * 2 + 1))
            (rest.dropWhile (fun w => w ≥ e.version * 2)), q / 2 < nextLV cg := by
          intro q hq
          rcases (hQ2_mem q).mp hq with hq2 | ⟨p, hp, rfl⟩
          · exact hbound q (List.mem_cons_of_mem _ (hr2_sub.subset hq2))
          · have := hplt p hp
            omega
        have hQ2_lt_head : ∀ w ∈ e.parents.foldl (fun q p => pqEnq q (p * 2 + 1))
            (rest.dropWhile (fun w => w ≥ e.version * 2)), w < vEnc := by
          intro w hw
          rcases (hQ2_mem w).mp hw with hw2 | ⟨p, hp, rfl⟩
          · have := hr2_lt w hw2
            omega
          · have := hplt p hp
            omega
        have hQ2_fuel : ∀ h ∈ (e.parents.foldl (fun q p => pqEnq q (p * 2 + 1))
            (rest.dropWhile (fun w => w ≥ e.version * 2))).head?, h < n := by
          intro h hh
          have := hQ2_lt_head h (List.mem_of_mem_head? hh)
          omega
        have hsplitcnt : r + 1 = (if vEnc % 2 = 0 then 1 else 0) +
            ((rest.takeWhile (fun w => w ≥ e.version * 2)).filter
              (fun w => w % 2 = 0)).length +
            ((rest.dropWhile (fun w => w ≥ e.version * 2)).filter
              (fun w => w % 2 = 0)).length := by
          rw [hrem]
          conv_lhs => rw [show (vEnc :: rest) =
            vEnc :: (rest.takeWhile (fun w => w ≥ e.version * 2) ++
              rest.dropWhile (fun w => w ≥ e.version * 2)) from by rw [hsplit_rest]]
          rw [List.filter_cons, List.filter_append]
          by_cases hpar : vEnc % 2 = 0
          · rw [if_pos (by simpa using hpar), if_pos hpar, List.length_cons,
              List.length_append]
            omega
          · rw [if_neg (by simpa using hpar), if_neg hpar, List.length_append]
            omega
        have hQ2cnt : ((e.parents.foldl (fun q p => pqEnq q (p * 2 + 1))
            (rest.dropWhile (fun w => w ≥ e.version * 2))).filter
              (fun w => w % 2 = 0)).length =
            ((rest.dropWhile (fun w => w ≥ e.version * 2)).filter
              (fun w => w % 2 = 0)).length :=
          pqEnqFold_even_count e.parents _
        have hF1 : ∀ u, u < e.version →
            ((∃ q ∈ e.parents.foldl (fun q p => pqEnq q (p * 2 + 1))
                (rest.dropWhile (fun w => w ≥ e.version * 2)),
              Reaches cg (q / 2) u ∧ (u < q / 2 ∨ q % 2 = 1)) ↔
             (∃ q ∈ vEnc :: rest, Reaches cg (q / 2) u ∧ (u < q / 2 ∨ q % 2 = 1))) := by
          intro u hu
          constructor
          · rintro ⟨q, hq, hre, hcond⟩
            rcases (hQ2_mem q).mp hq with hq2 | ⟨p, hp, rfl⟩
            · exact ⟨q, List.mem_cons_of_mem _ (hr2_sub.subset hq2), hre, hcond⟩
            · refine ⟨vEnc, List.mem_cons_self _ _, ?_, Or.inl (by omega)⟩
              have hp2 : (p * 2 + 1) / 2 = p := by omega
              rw [hp2] at hre
              exact reaches_via_parent hch hemem he1 he2 hp hre
          · rintro ⟨q, hq, hre, hcond⟩
            rcases List.mem_cons.mp hq with rfl | hq2
            · obtain ⟨p, hp, hpre⟩ := (reaches_run_exit hch hemem he1 he2 hu).mp hre
              refine ⟨p * 2 + 1, (hQ2_mem _).mpr (Or.inr ⟨p, hp, rfl⟩), ?_,
                Or.inr (by omega)⟩
              have hp2 : (p * 2 + 1) / 2 = p := by omega
              rw [hp2]
              exact hpre
            · have hq3 : q ∈ rest.takeWhile (fun w => w ≥ e.version * 2) ++
                  rest.dropWhile (fun w => w ≥ e.version * 2) := by
                rw [hsplit_rest]
                exact hq2
              rcases List.mem_append.mp hq3 with hqd | hqr
              · have hge := hdr_ge q hqd
                have hle := hhead_ge q hq2
                obtain ⟨p, hp, hpre⟩ := (reaches_run_exit hch hemem
                  (by omega : e.version ≤ q / 2) (by omega : q / 2 < e.vEnd) hu).mp hre
                refine ⟨p * 2 + 1, (hQ2_mem _).mpr (Or.inr ⟨p, hp, rfl⟩), ?_,
                  Or.inr (by omega)⟩
                have hp2 : (p * 2 + 1) / 2 = p := by omega
                rw [hp2]
                exact hpre
              · exact ⟨q, (hQ2_mem _).mpr (Or.inl hqr), hre, hcond⟩
        have hnotQ2 : ∀ u, 2 * u ∉ rest.dropWhile (fun w => w ≥ e.version * 2) →
            2 * u ∉ e.parents.foldl (fun q p => pqEnq q (p * 2 + 1))
              (rest.dropWhile (fun w => w ≥ e.version * 2)) := by
          intro u hu2 h
          rcases (hQ2_mem _).mp h with h2 | ⟨p, hp, hpe⟩
          · exact hu2 h2
          · omega
        have htrue_lt : ∀ (evs2 : List (Nat × Bool)),
            (∀ u, (u, true) ∈ evs2 → (2 * u ∈ e.parents.foldl
              (fun q p => pqEnq q (p * 2 + 1))
              (rest.dropWhile (fun w => w ≥ e.version * 2)) ∧ True)) →
            ∀ u ∈ (evs2.filter (fun p => p.2)).map (fun p => p.1), u < e.version := by
          intro evs2 hmemb u hu
          obtain ⟨⟨u1, b⟩, hp, rfl⟩ := List.mem_map.mp hu
          have hf := List.mem_filter.mp hp
          have hb : b = true := hf.2
          subst hb
          have hm := (hmemb _ hf.1).1
          rcases (hQ2_mem _).mp hm with h2 | ⟨p, hp2, hpe⟩
          · have := hr2_lt _ h2
            omega
          · omega
        by_cases hpar : vEnc % 2 = 0
        · rw [if_pos hpar, if_pos hpar]
          obtain ⟨evs', hres', hE1', hE2'⟩ := ih
            (e.parents.foldl (fun q p => pqEnq q (p * 2 + 1))
              (rest.dropWhile (fun w => w ≥ e.version * 2)))
            (r - ((rest.takeWhile (fun w => w ≥ e.version * 2)).filter
              (fun w => w % 2 = 0)).length)
            ((acc ++ [(vEnc / 2, true)]) ++
              ((rest.takeWhile (fun w => w ≥ e.version * 2)).filter
                (fun w => w % 2 = 0)).map (fun w => (w / 2, false)))
            hQ2_sorted hQ2_bound hQ2_fuel
            (by rw [hQ2cnt]; rw [if_pos hpar] at hsplitcnt; omega)
          refine ⟨(vEnc / 2, true) ::
            (((rest.takeWhile (fun w => w ≥ e.version * 2)).filter
              (fun w => w % 2 = 0)).map (fun w => (w / 2, false)) ++ evs'), ?_, ?_, ?_⟩
          · rw [hres']
            simp [List.append_assoc]
          · intro u
            have hmapf : (u, true) ∉ ((rest.takeWhile (fun w => w ≥ e.version * 2)).filter
                (fun w => w % 2 = 0)).map (fun w => (w / 2, false)) := by
              intro hm
              obtain ⟨w, -, hw⟩ := List.mem_map.mp hm
              exact absurd (congrArg Prod.snd hw) (by simp)
            by_cases huv : u = vEnc / 2
            · subst huv
              constructor
              · intro _
                refine ⟨by simp only [List.mem_cons]; left; omega, ?_⟩
                rintro ⟨q, hq, hre, hcond⟩
                have h1 : vEnc / 2 ≤ q / 2 := reaches_le hch hre
                have h2 : q ≤ vEnc := by
                  rcases List.mem_cons.mp hq with rfl | hq2
                  · exact le_refl _
                  · exact hhead_ge q hq2
                rcases hcond with hlt | hodd
                · omega
                · omega
              · intro _
                exact List.mem_cons_self _ _
            · have hL : ((u, true) ∈ (vEnc / 2, true) ::
                  (((rest.takeWhile (fun w => w ≥ e.version * 2)).filter
                    (fun w => w % 2 = 0)).map (fun w => (w / 2, false)) ++ evs')) ↔
                  (u, true) ∈ evs' := by
                simp only [List.mem_cons, List.mem_append]
                constructor
                · rintro (heq | hm | hm)
                  · exact absurd (congrArg Prod.fst heq) (by simpa using huv)
                  · exact absurd hm hmapf
                  · exact hm
                · intro hm
                  exact Or.inr (Or.inr hm)
              rw [hL, hE1' u]
              by_cases hu2 : 2 * u ∈ rest.dropWhile (fun w => w ≥ e.version * 2)
              · have hult : u < e.version := by
                  have := hr2_lt _ hu2
                  omega
                have h2uQ2 : 2 * u ∈ e.parents.foldl (fun q p => pqEnq q (p * 2 + 1))
                    (rest.dropWhile (fun w => w ≥ e.version * 2)) :=
                  (hQ2_mem _).mpr (Or.inl hu2)
                have h2uQ : 2 * u ∈ vEnc :: rest :=
                  List.mem_cons_of_mem _ (hr2_sub.subset hu2)
                rw [and_iff_right h2uQ2, and_iff_right h2uQ, not_congr (hF1 u hult)]
              · have hnot := hnotQ2 u hu2
                constructor
                · rintro ⟨hm, -⟩
                  exact absurd hm hnot
                · rintro ⟨hmem, hndom⟩
                  exfalso
                  apply hndom
                  rcases List.mem_cons.mp hmem with heq | hrest
                  · exact absurd (by omega : u = vEnc / 2) huv
                  · have hq3 : 2 * u ∈ rest.takeWhile (fun w => w ≥ e.version * 2) ++
                        rest.dropWhile (fun w => w ≥ e.version * 2) := by
                      rw [hsplit_rest]
                      exact hrest
                    rcases List.mem_append.mp hq3 with hqd | hqr
                    · have hge := hdr_ge _ hqd
                      have hle := hhead_ge _ hrest
                      have hru : Reaches cg (vEnc / 2) u :=
                        reaches_within_run hch hemem (by omega) (by omega) he2
                      exact ⟨vEnc, List.mem_cons_self _ _, hru, Or.inl (by omega)⟩
                    · exact absurd hqr hu2
          · have hmapfilter : (((rest.takeWhile (fun w => w ≥ e.version * 2)).filter
                (fun w => w % 2 = 0)).map (fun w => (w / 2, false))).filter
                (fun p => p.2) = [] := by
              rw [List.filter_eq_nil_iff]
              rintro x hx
              obtain ⟨w, -, rfl⟩ := List.mem_map.mp hx
              simp
            rw [List.filter_cons, List.filter_append, hmapfilter, List.nil_append]
            rw [if_pos rfl, List.map_cons, List.pairwise_cons]
            refine ⟨?_, hE2'⟩
            intro u hu
            have := htrue_lt evs' (fun u2 hm => ⟨((hE1' u2).mp hm).1, trivial⟩) u hu
            omega
        · rw [if_neg hpar, if_neg hpar]
          obtain ⟨evs', hres', hE1', hE2'⟩ := ih
            (e.parents.foldl (fun q p => pqEnq q (p * 2 + 1))
              (rest.dropWhile (fun w => w ≥ e.version * 2)))
            (r + 1 - ((rest.takeWhile (fun w => w ≥ e.version * 2)).filter
              (fun w => w % 2 = 0)).length)
            (acc ++ ((rest.takeWhile (fun w => w ≥ e.version * 2)).filter
                (fun w => w % 2 = 0)).map (fun w => (w / 2, false)))
            hQ2_sorted hQ2_bound hQ2_fuel
            (by rw [hQ2cnt]; rw [if_neg hpar] at hsplitcnt; omega)
          refine ⟨((rest.takeWhile (fun w => w ≥ e.version * 2)).filter
              (fun w => w % 2 = 0)).map (fun w => (w / 2, false)) ++ evs', ?_, ?_, ?_⟩
          · rw [hres']
            simp [List.append_assoc]
          · intro u
            have hmapf : (u, true) ∉ ((rest.takeWhile (fun w => w ≥ e.version * 2)).filter
                (fun w => w % 2 = 0)).map (fun w => (w / 2, false)) := by
              intro hm
              obtain ⟨w, -, hw⟩ := List.mem_map.mp hm
              exact absurd (congrArg Prod.snd hw) (by simp)
            have hL : ((u, true) ∈ ((rest.takeWhile (fun w => w ≥ e.version * 2)).filter
                  (fun w => w % 2 = 0)).map (fun w => (w / 2, false)) ++ evs') ↔
                (u, true) ∈ evs' := by
              simp only [List.mem_append]
              constructor
              · rintro (hm | hm)
                · exact absurd hm hmapf
                · exact hm
              · intro hm
                exact Or.inr hm
            rw [hL, hE1' u]
            by_cases hu2 : 2 * u ∈ rest.dropWhile (fun w => w ≥ e.version * 2)
            · have hult : u < e.version := by
                have := hr2_lt _ hu2
                omega
              have h2uQ2 : 2 * u ∈ e.parents.foldl (fun q p => pqEnq q (p * 2 + 1))
                  (rest.dropWhile (fun w => w ≥ e.version * 2)) :=
                (hQ2_mem _).mpr (Or.inl hu2)
              have h2uQ : 2 * u ∈ vEnc :: rest :=
                List.mem_cons_of_mem _ (hr2_sub.subset hu2)
              rw [and_iff_right h2uQ2, and_iff_right h2uQ, not_congr (hF1 u hult)]
            · have hnot := hnotQ2 u hu2
              constructor
              · rintro ⟨hm, -⟩
                exact absurd hm hnot
              · rintro ⟨hmem, hndom⟩
                exfalso
                apply hndom
                rcases List.mem_cons.mp hmem with heq | hrest
                · omega
                · have hq3 : 2 * u ∈ rest.takeWhile (fun w => w ≥ e.version * 2) ++
                      rest.dropWhile (fun w => w ≥ e.version * 2) := by
                    rw [hsplit_rest]
                    exact hrest
                  rcases List.mem_append.mp hq3 with hqd | hqr
                  · have hge := hdr_ge _ hqd
                    have hle := hhead_ge _ hrest
                    have hru : Reaches cg (vEnc / 2) u :=
                      reaches_within_run hch hemem (by omega) (by omega) he2
                    exact ⟨vEnc, List.mem_cons_self _ _, hru, Or.inr (by omega)⟩
                  · exact absurd hqr hu2
          · have hmapfilter : (((rest.takeWhile (fun w => w ≥ e.version * 2)).filter
                (fun w => w % 2 = 0)).map (fun w => (w / 2, false))).filter
                (fun p => p.2) = [] := by
              rw [List.filter_eq_nil_iff]
              rintro x hx
              obtain ⟨w, -, rfl⟩ := List.mem_map.mp hx
              simp
            rw [List.filter_append, hmapfilter, List.nil_append]
            exact hE2'

/-- From the "no other input reaches it" characterisation, the dominator
set covers every input: walk up a strictly increasing chain of dominating
inputs (bounded by `nextLV`). -/
theorem dominators_cover {cg : CausalGraph}
    (hch : entriesChainedFrom 0 cg.entries = true) {vs D : List Nat}
    (hmem : ∀ v, v ∈ D ↔ v ∈ vs ∧ ∀ w ∈ vs, w ≠ v → ¬ Reaches cg w v)
    (hvs : ∀ v ∈ vs, v < nextLV cg) :
    ∀ v ∈ vs, ∃ w ∈ D, Reaches cg w v := by
  suffices h : ∀ n v, v ∈ vs → nextLV cg - v ≤ n → ∃ w ∈ D, Reaches cg w v by
    intro v hv
    exact h (nextLV cg) v hv (by omega)
  intro n
  induction n with
  | zero =>
    intro v hv hle
    have := hvs v hv
    omega
  | succ n ihn =>
    intro v hv hle
    by_cases hvD : v ∈ D
    · exact ⟨v, hvD, Relation.ReflTransGen.refl⟩
    · have hnot : ¬ (v ∈ vs ∧ ∀ w ∈ vs, w ≠ v → ¬ Reaches cg w v) :=
        fun h => hvD ((hmem v).mpr h)
      push_neg at hnot
      obtain ⟨w, hwvs, hwne, hwre⟩ := hnot hv
      have hlt : v < w := by
        have := reaches_le hch hwre
        omega
      obtain ⟨u, huD, hure⟩ := ihn w hwvs (by have := hvs w hwvs; omega)
      exact ⟨u, huD, hure.trans hwre⟩

/-- The characterised dominator set is a covering subset contained in
every covering subset: it is the unique minimal one. -/
theorem dominators_unique_minimal {cg : CausalGraph} (hwf : WF cg) {vs D : List Nat}
    (hvs : ∀ v ∈ vs, v < nextLV cg)
    (hmem : ∀ v, v ∈ D ↔ v ∈ vs ∧ ∀ w ∈ vs, w ≠ v → ¬ Reaches cg w v) :
    (∀ v ∈ vs, versionContainsLV cg D v = some true) ∧
    (∀ D2 : List Nat, (∀ w ∈ D2, w ∈ vs) →
      (∀ v ∈ vs, versionContainsLV cg D2 v = some true) →
      ∀ w ∈ D, w ∈ D2) := by
  have hDsub : ∀ w ∈ D, w ∈ vs := fun w hw => ((hmem w).mp hw).1
  have hDlt : ∀ w ∈ D, w < nextLV cg := fun w hw => hvs w (hDsub w hw)
  constructor
  · intro v hv
    obtain ⟨w, hwD, hwre⟩ := dominators_cover hwf.1 hmem hvs v hv
    obtain ⟨b, hres, hiff⟩ := @versionContainsLV_spec cg hwf.1 D v hDlt
    have hb : b = true := hiff.mpr ⟨w, hwD, hwre⟩
    rw [hres, hb]
  · intro D2 hsub hcov w hwD
    have hw_vs := hDsub w hwD
    have hD2lt : ∀ u ∈ D2, u < nextLV cg := fun u hu => hvs u (hsub u hu)
    obtain ⟨b, hres, hiff⟩ := @versionContainsLV_spec cg hwf.1 D2 w hD2lt
    have hcw := hcov w hw_vs
    rw [hres] at hcw
    injection hcw with hb
    obtain ⟨u, huD2, hure⟩ := hiff.mp hb
    by_cases huw : u = w
    · exact huw ▸ huD2
    · exact absurd hure (((hmem w).mp hwD).2 u (hsub u huD2) huw)

set_option maxHeartbeats 1000000 in
/-- C4: on a well-formed graph, for inputs that are known LVs,
`findDominators` succeeds and returns the unique minimal subset `D` of the
inputs with `containsLV(cg, D, v)` for every input `v`: exactly the inputs
no other input reaches, each value emitted once (strictly) and sorted
ascending; `D` covers every input and is contained in every covering
subset of the inputs. -/
theorem C4_findDominators {cg : CausalGraph} (hwf : WF cg) {vs : List Nat}
    (hvs : ∀ v ∈ vs, v < nextLV cg) :
    ∃ D, findDominators cg vs = some D ∧
      List.Sorted (· < ·) D ∧
      (∀ v, v ∈ D ↔ v ∈ vs ∧ ∀ w ∈ vs, w ≠ v → ¬ Reaches cg w v) ∧
      (∀ v ∈ vs, versionContainsLV cg D v = some true) ∧
      (∀ D2 : List Nat, (∀ w ∈ D2, w ∈ vs) →
        (∀ v ∈ vs, versionContainsLV cg D2 v = some true) →
        ∀ w ∈ D, w ∈ D2) := by
  suffices h : ∃ D, findDominators cg vs = some D ∧ List.Sorted (· < ·) D ∧
      (∀ v, v ∈ D ↔ v ∈ vs ∧ ∀ w ∈ vs, w ≠ v → ¬ Reaches cg w v) by
    obtain ⟨D, h1, h2, h3⟩ := h
    obtain ⟨h4, h5⟩ := dominators_unique_minimal hwf hvs h3
    exact ⟨D, h1, h2, h3, h4, h5⟩
  rcases vs with _ | ⟨v0, _ | ⟨v1, _ | ⟨v2, rest⟩⟩⟩
  · refine ⟨[], ?_, by simp, fun v => by simp⟩
    unfold findDominators
    rw [if_pos (by simp)]
  · refine ⟨[v0], ?_, by simp, fun u => ?_⟩
    · unfold findDominators
      rw [if_pos (by simp)]
    · simp only [List.mem_singleton]
      constructor
      · rintro rfl
        refine ⟨by simp, ?_⟩
        intro w hw hne
        exact absurd hw hne
      · rintro ⟨hu, -⟩
        simpa using hu
  · -- two inputs
    by_cases heq : v0 = v1
    · subst heq
      refine ⟨[v0], ?_, by simp, fun u => ?_⟩
      · unfold findDominators
        rw [if_neg (by simp)]
        rw [findDominators2, if_pos rfl]
        rfl
      · simp only [List.mem_singleton]
        constructor
        · rintro rfl
          refine ⟨by simp, ?_⟩
          intro w hw hne
          simp only [List.mem_cons, List.not_mem_nil, or_false] at hw
          rcases hw with rfl | rfl <;> exact absurd rfl hne
        · rintro ⟨hu, -⟩
          simp only [List.mem_cons, List.not_mem_nil, or_false] at hu
          rcases hu with rfl | rfl <;> rfl
    · -- two distinct inputs: delegate to versionContainsLV
      have hv0 : v0 < nextLV cg := hvs v0 (by simp)
      have hv1 : v1 < nextLV cg := hvs v1 (by simp)
      have hmain : ∀ a b : Nat, a < b → b < nextLV cg →
          ∀ c, versionContainsLV cg [b] a = some c →
          (c = true ↔ ∃ w ∈ [b], Reaches cg w a) →
          List.Sorted (· < ·) (((([(b, true), (a, !c)]).filter
            (fun p => p.2)).map (fun p => p.1)).reverse) ∧
          (∀ u, u ∈ (((([(b, true), (a, !c)]).filter
              (fun p => p.2)).map (fun p => p.1)).reverse) ↔
            (u = a ∨ u = b) ∧ ∀ w, (w = a ∨ w = b) → w ≠ u → ¬ Reaches cg w u) := by
        intro a b hab hbN c hc hciff
        cases c with
        | true =>
          have hre : Reaches cg b a := by
            obtain ⟨w, hw, hwre⟩ := hciff.mp rfl
            rw [List.mem_singleton] at hw
            subst hw
            exact hwre
          refine ⟨List.sorted_singleton b, fun u => ?_⟩
          constructor
          · intro hu
            have hu2 : u ∈ [b] := hu
            rw [List.mem_singleton] at hu2
            subst hu2
            refine ⟨Or.inr rfl, ?_⟩
            rintro w (rfl | rfl) hne hre2
            · have := reaches_le hwf.1 hre2
              omega
            · exact hne rfl
          · rintro ⟨hu2, hnd⟩
            rcases hu2 with rfl | rfl
            · exact absurd hre (hnd b (Or.inr rfl) (by omega))
            · exact List.mem_singleton.mpr rfl
        | false =>
          have hsab : List.Sorted (· < ·) [a, b] := by
            rw [List.sorted_cons]
            refine ⟨fun x hx => ?_, List.sorted_singleton b⟩
            rw [List.mem_singleton] at hx
            omega
          refine ⟨hsab, fun u => ?_⟩
          constructor
          · intro hu
            have hu2 : u ∈ [a, b] := hu
            simp only [List.mem_cons, List.not_mem_nil, or_false] at hu2
            refine ⟨hu2, ?_⟩
            rintro w (rfl | rfl) hne hre2
            · rcases hu2 with rfl | rfl
              · exact hne rfl
              · have := reaches_le hwf.1 hre2
                omega
            · rcases hu2 with rfl | rfl
              · exact absurd (hciff.mpr ⟨w, List.mem_singleton.mpr rfl, hre2⟩) (by simp)
              · exact hne rfl
          · rintro ⟨hu2, -⟩
            have hu3 : u ∈ [a, b] := by
              rcases hu2 with rfl | rfl <;> simp
            exact hu3
      by_cases hgt : v0 > v1
      · obtain ⟨c, hc, hciff⟩ := @versionContainsLV_spec cg hwf.1 [v0] v1
          (by intro w hw; rw [List.mem_singleton] at hw; subst hw; exact hv0)
        obtain ⟨hsort, hmem⟩ := hmain v1 v0 (by omega) hv0 c hc hciff
        refine ⟨_, ?_, hsort, fun u => ?_⟩
        · unfold findDominators
          rw [if_neg (by simp)]
          rw [findDominators2, if_neg heq]
          simp only
          rw [if_pos hgt, if_pos hgt, hc]
          rfl
        · rw [hmem u]
          constructor
          · rintro ⟨hu, hnd⟩
            refine ⟨by rcases hu with rfl | rfl <;> simp, ?_⟩
            intro w hw hne
            refine hnd w ?_ hne
            simp only [List.mem_cons, List.not_mem_nil, or_false] at hw
            tauto
          · rintro ⟨hu, hnd⟩
            simp only [List.mem_cons, List.not_mem_nil, or_false] at hu
            refine ⟨by tauto, ?_⟩
            rintro w (rfl | rfl) hne
            · exact hnd w (by simp) hne
            · exact hnd w (by simp) hne
      · obtain ⟨c, hc, hciff⟩ := @versionContainsLV_spec cg hwf.1 [v1] v0
          (by intro w hw; rw [List.mem_singleton] at hw; subst hw; exact hv1)
        obtain ⟨hsort, hmem⟩ := hmain v0 v1 (by omega) hv1 c hc hciff
        refine ⟨_, ?_, hsort, fun u => ?_⟩
        · unfold findDominators
          rw [if_neg (by simp)]
          rw [findDominators2, if_neg heq]
          simp only
          rw [if_neg hgt, if_neg hgt, hc]
          rfl
        · rw [hmem u]
          constructor
          · rintro ⟨hu, hnd⟩
            refine ⟨by rcases hu with rfl | rfl <;> simp, ?_⟩
            intro w hw hne
            refine hnd w ?_ hne
            simp only [List.mem_cons, List.not_mem_nil, or_false] at hw
            tauto
          · rintro ⟨hu, hnd⟩
            simp only [List.mem_cons, List.not_mem_nil, or_false] at hu
            refine ⟨by tauto, ?_⟩
            rintro w (rfl | rfl) hne
            · exact hnd w (by simp) hne
            · exact hnd w (by simp) hne
  · -- three or more inputs: the main loop
    have hQ0mem : ∀ w, w ∈ (v0 :: v1 :: v2 :: rest).foldl
        (fun q v => pqEnq q (v * 2)) [] ↔
        ∃ v ∈ v0 :: v1 :: v2 :: rest, w = v * 2 := by
      intro w
      rw [pqEnqFold_mem (fun v => v * 2) _ [] w]
      simp
    have hQ0sorted : ((v0 :: v1 :: v2 :: rest).foldl
        (fun q v => pqEnq q (v * 2)) []).Sorted (· ≥ ·) :=
      pqEnqFold_sorted (fun v => v * 2) _ [] List.sorted_nil
    have hQ0bound : ∀ q ∈ (v0 :: v1 :: v2 :: rest).foldl
        (fun q v => pqEnq q (v * 2)) [], q / 2 < nextLV cg := by
      intro q hq
      obtain ⟨v, hv, rfl⟩ := (hQ0mem q).mp hq
      have := hvs v hv
      omega
    have hQ0fuel : ∀ h ∈ ((v0 :: v1 :: v2 :: rest).foldl
        (fun q v => pqEnq q (v * 2)) []).head?, h < 2 * nextLV cg + 2 := by
      intro h hh
      obtain ⟨v, hv, rfl⟩ := (hQ0mem h).mp (List.mem_of_mem_head? hh)
      have := hvs v hv
      omega
    have hQ0cnt : (v0 :: v1 :: v2 :: rest).length =
        (((v0 :: v1 :: v2 :: rest).foldl (fun q v => pqEnq q (v * 2)) []).filter
          (fun w => w % 2 = 0)).length := by
      rw [← List.countP_eq_length_filter,
        (pqEnqFold_perm (fun v => v * 2) (v0 :: v1 :: v2 :: rest) []).countP_eq,
        List.append_nil, List.countP_map]
      symm
      rw [List.countP_eq_length]
      intro a ha
      simp only [Function.comp_apply, decide_eq_true_eq]
      omega
    obtain ⟨evs, hres, hE1, hE2⟩ := dominatorsLoop_spec hwf.1 (2 * nextLV cg + 2)
      ((v0 :: v1 :: v2 :: rest).foldl (fun q v => pqEnq q (v * 2)) [])
      (v0 :: v1 :: v2 :: rest).length [] hQ0sorted hQ0bound hQ0fuel hQ0cnt
    refine ⟨((evs.filter (fun p => p.2)).map (fun p => p.1)).reverse, ?_, ?_, fun u => ?_⟩
    · unfold findDominators
      rw [if_neg (by simp)]
      rw [findDominators2, hres, List.nil_append]
      rfl
    · exact List.pairwise_reverse.mpr hE2
    · have hmm : u ∈ (evs.filter (fun p => p.2)).map (fun p => p.1) ↔ (u, true) ∈ evs := by
        constructor
        · intro hu
          obtain ⟨⟨u1, b⟩, hp, rfl⟩ := List.mem_map.mp hu
          have hf := List.mem_filter.mp hp
          have hb : b = true := hf.2
          subst hb
          exact hf.1
        · intro hu
          exact List.mem_map.mpr ⟨(u, true), List.mem_filter.mpr ⟨hu, rfl⟩, rfl⟩
      rw [List.mem_reverse, hmm, hE1 u]
      constructor
      · rintro ⟨hq, hnd⟩
        obtain ⟨v, hv, hveq⟩ := (hQ0mem _).mp hq
        have huv : u = v := by omega
        subst huv
        refine ⟨hv, ?_⟩
        intro w hw hne hre
        apply hnd
        refine ⟨w * 2, (hQ0mem _).mpr ⟨w, hw, rfl⟩, ?_, ?_⟩
        · have h2 : w * 2 / 2 = w := by omega
          rw [h2]
          exact hre
        · left
          have := reaches_le hwf.1 hre
          omega
      · rintro ⟨hu, hnd⟩
        refine ⟨(hQ0mem _).mpr ⟨u, hu, by omega⟩, ?_⟩
        rintro ⟨q, hq, hre, hcond⟩
        obtain ⟨v, hv, rfl⟩ := (hQ0mem _).mp hq
        have h2 : v * 2 / 2 = v := by omega
        rw [h2] at hre
        rcases hcond with hlt | hodd
        · exact hnd v hv (by omega) hre
        · omega

/-- Witness for C4 on the three-agent graph with inputs `[0, 1, 3, 4]`
(the merger LV 4 dominates all of them). -/
theorem C4_findDominators_witness :
    WF (applyOps createCG [CGOp.opAdd "a" 0 2 [], CGOp.opAdd "b" 0 2 [],
      CGOp.opAdd "c" 0 1 [1, 3]]) ∧
    (∀ v ∈ [0, 1, 3, 4], v < nextLV (applyOps createCG [CGOp.opAdd "a" 0 2 [],
      CGOp.opAdd "b" 0 2 [], CGOp.opAdd "c" 0 1 [1, 3]])) ∧
    (∃ D, findDominators (applyOps createCG [CGOp.opAdd "a" 0 2 [],
        CGOp.opAdd "b" 0 2 [], CGOp.opAdd "c" 0 1 [1, 3]]) [0, 1, 3, 4] = some D ∧
      List.Sorted (· < ·) D ∧
      (∀ v, v ∈ D ↔ v ∈ [0, 1, 3, 4] ∧ ∀ w ∈ [0, 1, 3, 4], w ≠ v →
        ¬ Reaches (applyOps createCG [CGOp.opAdd "a" 0 2 [],
          CGOp.opAdd "b" 0 2 [], CGOp.opAdd "c" 0 1 [1, 3]]) w v) ∧
      (∀ v ∈ [0, 1, 3, 4], versionContainsLV (applyOps createCG
        [CGOp.opAdd "a" 0 2 [], CGOp.opAdd "b" 0 2 [],
         CGOp.opAdd "c" 0 1 [1, 3]]) D v = some true) ∧
      (∀ D2 : List Nat, (∀ w ∈ D2, w ∈ [0, 1, 3, 4]) →
        (∀ v ∈ [0, 1, 3, 4], versionContainsLV (applyOps createCG
          [CGOp.opAdd "a" 0 2 [], CGOp.opAdd "b" 0 2 [],
           CGOp.opAdd "c" 0 1 [1, 3]]) D2 v = some true) →
        ∀ w ∈ D, w ∈ D2)) :=
  ⟨by decide, by decide, C4_findDominators (by decide) (by decide)⟩

end CG
